import Mathlib

/-!
Verification of the libsemigroups Stephen core against its specification.

The development shallowly embeds:
* `Presentation<word_type>` from `include/libsemigroups/present.hpp` (the file is in
  the sources), together with the helper `presentation::add_commutes_rules`;
* the `Stephen` driver of `stephen.hpp` (whose `stephen.tpp` bodies are not among the
  sources and are therefore modelled from the specification);
* the `DigraphWithSources` predecessor index of `digraph-with-sources.hpp` (whose
  `.tpp` bodies are likewise modelled from the specification).

Machine words are embedded as `Nat` with explicit `% 2 ^ 64` where C++ `size_t`
wrap-around matters.
-/

namespace Spec2Proof

/-- A word over the numeric alphabet: the library's `word_type` is a
`std::vector` of unsigned integers, embedded as `List Nat`. -/
abbrev Word := List Nat

/-- First-match lookup in an association list, embedding
`std::unordered_map::find` as used by `Presentation::index` /
`Presentation::in_alphabet` (present.hpp:231-245).  `none` plays the part of the
end iterator. -/
def assocLookup : List (Nat × Nat) → Nat → Option Nat
  | [], _ => none
  | (k, v) :: rest, a => if k = a then some v else assocLookup rest a

/-- Embedding of `Presentation<word_type>` (present.hpp:66-95): the alphabet
word `_alphabet`, the letter-to-index map `_alphabet_map`, and the flat vector
`rules` in which a rule occupies two consecutive entries (left-hand side then
right-hand side). -/
structure Present where
  alphabet : Word
  alphabetMap : List (Nat × Nat)
  rules : List Word
deriving DecidableEq

/-- Embedding of `Presentation::letter(i)` (present.hpp:210-213): returns
`_alphabet[i]` and performs no bound check (the out-of-range result is junk,
embedded by the default value of `getD`). -/
def Present.letter (p : Present) (i : Nat) : Nat :=
  p.alphabet.getD i 0

/-- Embedding of `Presentation::index(val)` (present.hpp:231-233): looks `val`
up in `_alphabet_map` and performs no membership check.  The C++ code
dereferences the returned iterator unconditionally; the `none` result marks the
failure branch in which that dereference would be invalid. -/
def Present.index (p : Present) (val : Nat) : Option Nat :=
  assocLookup p.alphabetMap val

/-- Embedding of `Presentation::in_alphabet(val)` (present.hpp:243-245):
compares the map lookup against the end iterator. -/
def Present.inAlphabet (p : Present) (val : Nat) : Bool :=
  (assocLookup p.alphabetMap val).isSome

/-- The `_alphabet_map` contents determined by an alphabet word: letter at
position `i` maps to `i` (positions shifted by the accumulator `k`). -/
def buildAlphabetMap : Word → Nat → List (Nat × Nat)
  | [], _ => []
  | a :: rest, k => (a, k) :: buildAlphabetMap rest (k + 1)

/-- Modelled from the spec: `Presentation::alphabet(word_type const&)`.  Its
body is in `present.tpp`, which is not among the source files; per
present.hpp:151-167 it stores the alphabet and rebuilds `_alphabet_map`, and
throws `LibsemigroupsException` when `lphbt` contains duplicate letters. -/
def Present.setAlphabet (p : Present) (lphbt : Word) : Except Unit Present :=
  if lphbt.Nodup then
    .ok { p with alphabet := lphbt, alphabetMap := buildAlphabetMap lphbt 0 }
  else
    .error ()

/-- A presentation whose alphabet has been validly set: the stored map is
exactly the one `Presentation::alphabet` builds for a duplicate-free alphabet
word. -/
def ValidAlphabet (p : Present) : Prop :=
  p.alphabet.Nodup ∧ p.alphabetMap = buildAlphabetMap p.alphabet 0

instance : DecidablePred ValidAlphabet := fun p => by
  unfold ValidAlphabet; infer_instance

/-- Embedding of `Presentation::add_rule` (present.hpp:276-279) through the
helper `presentation::add_rule` (present.hpp:462-464): the flat rule vector
receives the left-hand side and then the right-hand side. -/
def Present.addRule (p : Present) (lhop rhop : Word) : Present :=
  { p with rules := p.rules ++ [lhop, rhop] }

/-- Width of the C++ `size_t` type in which the loop bounds of
`presentation::add_commutes_rules` are computed. -/
def sizeTCard : Nat := 2 ^ 64

/-- The quantity `n - 1` computed in `size_t` arithmetic (present.hpp:1589):
subtraction wraps modulo `2 ^ 64`, so for `n = 0` it underflows to
`2 ^ 64 - 1`. -/
def subOneSizeT (n : Nat) : Nat := (n + (sizeTCard - 1)) % sizeTCard

/-- Embedding of `presentation::add_commutes_rules(p, letters)`
(present.hpp:1585-1596).  The outer loop runs `i` from `0` to `n - 1`
exclusive with the bound computed in `size_t`; the inner loop runs `j` from
`i + 1` to `n` exclusive; each iteration appends the rule
`(letters[i] letters[j], letters[j] letters[i])`.  Index accesses are
embedded by `getD`, whose default stands for the junk an out-of-range
`operator[]` would read. -/
def addCommutesRules (p : Present) (letters : Word) : Present :=
  (List.range (subOneSizeT letters.length)).foldl
    (fun q i =>
      (List.range' (i + 1) (letters.length - (i + 1))).foldl
        (fun q2 j =>
          q2.addRule [letters.getD i 0, letters.getD j 0]
            [letters.getD j 0, letters.getD i 0])
        q)
    p

/-- The list of flat rule entries that `add_commutes_rules` is intended to
append: for each `0 ≤ i < j < n` the left-hand side `letters[i] letters[j]`
followed by the right-hand side `letters[j] letters[i]`. -/
def commRules (letters : Word) : List Word :=
  (List.range (letters.length - 1)).flatMap fun i =>
    (List.range' (i + 1) (letters.length - (i + 1))).flatMap fun j =>
      [[letters.getD i 0, letters.getD j 0], [letters.getD j 0, letters.getD i 0]]


/-! ## The Stephen driver

The bodies of `Stephen::set_word`, `Stephen::run_impl`, `Stephen::standardize`
and the helpers `stephen::accepts` / `stephen::is_left_factor` live in
`stephen.tpp`, which is not among the source files; they are modelled from the
specification (sections 4.E, 4.F and 8 of the spec).  Nodes are natural
numbers; fresh identifiers are drawn from a counter and, as in the spec's
design note, a merge keeps the smaller identifier and relabels the larger one
away everywhere. -/

/-- A labelled edge of the word graph: source node, label, target node. -/
abbrev Edge := Nat × Nat × Nat

/-- First-match lookup of the target of the edge leaving `c` with label `x`;
embeds `WordGraph::unsafe_neighbor`.  On a duplicate-key-free edge list this is
the transition function of the automaton. -/
def lookupEdge : List Edge → Nat → Nat → Option Nat
  | [], _, _ => none
  | (a, y, t) :: rest, c, x => if a = c ∧ y = x then some t else lookupEdge rest c x

/-- Follow the path labelled by a word from a node; `none` when some edge on
the way is undefined.  Embeds `word_graph::follow_path`. -/
def follow (es : List Edge) : Nat → Word → Option Nat
  | c, [] => some c
  | c, x :: w =>
    match lookupEdge es c x with
    | some d => follow es d w
    | none => none

/-- The state of the Stephen word graph: the active nodes in creation order,
the edge list, the next fresh node identifier, and the accept state. -/
structure StState where
  nodes : List Nat
  edges : List Edge
  nxt : Nat
  accept : Nat
deriving DecidableEq

/-- Modelled from the spec: `word_graph::last_node_on_path` as used by
`Stephen::run_impl` — follow the word as far as edges are defined and return
the last node reached together with the unconsumed suffix. -/
def trace (es : List Edge) : Nat → Word → Nat × Word
  | c, [] => (c, [])
  | c, x :: w =>
    match lookupEdge es c x with
    | some d => trace es d w
    | none => (c, x :: w)

/-- Modelled from the spec: `Stephen::complete_path` (spec 4.F cases 3 and 4) —
follow the word while edges are defined, then define fresh nodes and edges for
the unconsumed suffix; returns the new state and the endpoint. -/
def completePath : Word → StState → Nat → StState × Nat
  | [], st, c => (st, c)
  | x :: w, st, c =>
    match lookupEdge st.edges c x with
    | some d => completePath w st d
    | none =>
      completePath w
        { st with
          nodes := st.nodes ++ [st.nxt],
          edges := st.edges ++ [(c, x, st.nxt)],
          nxt := st.nxt + 1 }
        st.nxt

/-- Relabel the single node `b` to `a` (the survivor of a merge). -/
def relNode (a b n : Nat) : Nat := if n = b then a else n

/-- Relabel both endpoints of an edge under a merge of `b` into `a`. -/
def relEdge (a b : Nat) : Edge → Edge
  | (c, x, t) => (relNode a b c, x, relNode a b t)

/-- Modelled from the spec: the node-level effect of
`NodeManagedGraph::merge_nodes` (spec 4.E) — the larger node `b` is folded
onto the smaller survivor `a`: every occurrence of `b` in the node list, the
edge list and the accept state is relabelled to `a`, and entries made
identical by the relabelling collapse. -/
def mergePair (a b : Nat) (st : StState) : StState :=
  { nodes := (st.nodes.map (relNode a b)).dedup,
    edges := (st.edges.map (relEdge a b)).dedup,
    nxt := st.nxt,
    accept := relNode a b st.accept }

/-- Find a determinism conflict: two edges with the same source and label but
different targets.  Such a pair is an induced coincidence of the merge
cascade (spec 4.E step 2, conflict case). -/
def findConflict : List Edge → Option (Nat × Nat)
  | [] => none
  | (c, x, t) :: rest =>
    match lookupEdge rest c x with
    | some u => if t = u then findConflict rest else some (min t u, max t u)
    | none => findConflict rest

/-- Modelled from the spec: the coincidence drain
(`NodeManagedGraph::process_coincidences`, spec 4.E) — repeatedly merge the
endpoints of a determinism conflict until none remains.  Each merge strictly
shrinks the edge list, so the fuel `edges.length + 1` supplied by `coincide`
always suffices. -/
def resolve : Nat → StState → StState
  | 0, st => st
  | fuel + 1, st =>
    match findConflict st.edges with
    | none => st
    | some (a, b) => resolve fuel (mergePair a b st)

/-- Modelled from the spec: schedule the coincidence of two nodes and drain the
cascade (spec 4.E); a no-op when the two nodes already agree. -/
def coincide (st : StState) (d1 d2 : Nat) : StState :=
  if d1 = d2 then st
  else resolve (st.edges.length + 1) (mergePair (min d1 d2) (max d1 d2) st)

/-- Complete the `u` side of a rule from `c`, then the `v` side, and coincide
the two endpoints (the common shape of spec 4.F cases 2-4). -/
def applyAt (st : StState) (c : Nat) (u v : Word) : StState :=
  let r1 := completePath u st c
  let r2 := completePath v r1.1 c
  coincide r2.1 r1.2 r2.2

/-- Modelled from the spec: one rule application at a node (spec 4.F step 2).
Both sides are traced; a complete side is processed first, and when both sides
are stuck the shorter side is defined first, ties broken in rule order (the
left side first). -/
def applyRule (st : StState) (c : Nat) (r : Word × Word) : StState :=
  if (trace st.edges c r.1).2 = [] then
    applyAt st c r.1 r.2
  else if (trace st.edges c r.2).2 = [] then
    applyAt st c r.2 r.1
  else if r.2.length < r.1.length then
    applyAt st c r.2 r.1
  else
    applyAt st c r.1 r.2

/-- Apply every rule of the presentation, in presentation order, at node `c`;
a rule is applied only while `c` is still live (a coincidence raised by an
earlier rule can merge the node currently being visited away). -/
def applyRules (rs : List (Word × Word)) (st : StState) (c : Nat) : StState :=
  rs.foldl (fun s r => if c ∈ s.nodes then applyRule s c r else s) st

/-- The first active node whose identifier is at least `k`.  Node identifiers
are created in increasing order and merges keep the smaller identifier, so
this is exactly the next node in active-list order. -/
def leastActiveGE (st : StState) (k : Nat) : Option Nat :=
  (st.nodes.filter (fun n => k ≤ n)).min?

/-- Modelled from the spec: one pass of `Stephen::run_impl` (spec 4.F) — visit
the active nodes in list order, applying every rule at each; the cursor also
reaches nodes created during the pass.  Fuel bounds the number of node visits;
`none` means the fuel ran out mid-pass. -/
def passFrom (rs : List (Word × Word)) : Nat → StState → Nat → Option StState
  | 0, _, _ => none
  | fuel + 1, st, k =>
    match leastActiveGE st k with
    | none => some st
    | some c => passFrom rs fuel (applyRules rs st c) (c + 1)

/-- Modelled from the spec: the outer loop of `Stephen::run_impl` — run passes
until one is clean (changes nothing); `none` when the fuel ran out first
(Stephen's procedure need not terminate). -/
def runAux (rs : List (Word × Word)) : Nat → StState → Option StState
  | 0, _ => none
  | fuel + 1, st =>
    match passFrom rs (fuel + 1) st 0 with
    | none => none
    | some st2 => if st2 = st then some st else runAux rs fuel st2

/-- The targets of the edges leaving `c`, visited in alphabet order; the
neighbour list of the canonical breadth-first traversal of `standardize`. -/
def neighborsOf (alpha : Word) (es : List Edge) (c : Nat) : List Nat :=
  (alpha.filterMap (fun x => lookupEdge es c x)).dedup

/-- Modelled from the spec: the breadth-first traversal underlying
`Stephen::standardize` (spec 4.E) — `q` is the queue, `disc` the discovery
order accumulated so far (every queued node is already discovered). -/
def bfsAux (alpha : Word) (es : List Edge) : Nat → List Nat → List Nat → List Nat
  | 0, _, disc => disc
  | _ + 1, [], disc => disc
  | fuel + 1, c :: q, disc =>
    bfsAux alpha es fuel (q ++ (neighborsOf alpha es c).filter (fun d => d ∉ disc))
      (disc ++ (neighborsOf alpha es c).filter (fun d => d ∉ disc))

/-- Discovery order of the breadth-first traversal from the start node `0`,
labels in alphabet order.  Each discovery consumes an edge, so the fuel
`edges.length + 2` always empties the queue. -/
def bfsOrder (alpha : Word) (st : StState) : List Nat :=
  bfsAux alpha st.edges (st.edges.length + 2) [0] [0]

/-- Modelled from the spec: `Stephen::standardize` — rename every node to its
position in the breadth-first discovery order (and drop nodes the traversal
never reaches, which the `shrink_to_fit` after the permutation discards). -/
def standardize (alpha : Word) (st : StState) : StState :=
  { nodes := List.range (bfsOrder alpha st).length,
    edges := (st.edges.filter (fun e => e.1 ∈ bfsOrder alpha st)).map
      (fun e => ((bfsOrder alpha st).indexOf e.1, e.2.1, (bfsOrder alpha st).indexOf e.2.2)),
    nxt := (bfsOrder alpha st).length,
    accept := (bfsOrder alpha st).indexOf st.accept }

/-- The rule pairs of a presentation: the flat `rules` vector read two entries
at a time, exactly as `Stephen::run_impl` iterates it. -/
def toPairs : List Word → List (Word × Word)
  | u :: v :: rest => (u, v) :: toPairs rest
  | _ => []

/-- A `Stephen<Presentation<word_type>>` instance: presentation, current word,
word graph state and the `_finished` flag. -/
structure Steph where
  pres : Present
  word : Word
  st : StState
  finished : Bool
deriving DecidableEq

/-- The edges of the linear chain for `w` starting at node `i`. -/
def chainEdges : Nat → Word → List Edge
  | _, [] => []
  | i, x :: w => (i, x, i + 1) :: chainEdges (i + 1) w

/-- The initial word graph for `w` (spec 4.F `set_word`): the linear chain of
`|w| + 1` nodes with the tentative accept state `|w|`. -/
def initChain (w : Word) : StState :=
  { nodes := List.range (w.length + 1),
    edges := chainEdges 0 w,
    nxt := w.length + 1,
    accept := w.length }

/-- Modelled from the spec: `Stephen::set_word` — validate that every letter
of `w` lies in the alphabet (raising `LibsemigroupsException` otherwise,
embedded by the `error` branch, which leaves the instance untouched), then
record the word, clear `_finished` and reset the graph to the linear chain. -/
def setWord (s : Steph) (w : Word) : Except Unit Steph :=
  if w.all (fun a => s.pres.inAlphabet a) then
    .ok { s with word := w, finished := false, st := initChain w }
  else
    .error ()

/-- A freshly initialised Stephen instance for presentation `p` and word `w`
(as after a successful `set_word`). -/
def mkStephen (p : Present) (w : Word) : Steph :=
  { pres := p, word := w, st := initChain w, finished := false }

/-- Modelled from the spec: `Stephen::run` / `run_impl` — saturate the word
graph, then standardise and set `_finished`; `none` when the procedure did not
terminate within the fuel. -/
def runStephen (fuel : Nat) (s : Steph) : Option Steph :=
  match runAux (toPairs s.pres.rules) fuel s.st with
  | none => none
  | some stF =>
    some { s with st := standardize s.pres.alphabet stF, finished := true }

/-- Modelled from the spec: `stephen::accepts` (declared at
stephen.hpp:353-354) — `w` labels a path from node `0` to the accept state. -/
def acceptsW (s : Steph) (u : Word) : Bool :=
  match follow s.st.edges 0 u with
  | some d => d == s.st.accept
  | none => false

/-- Modelled from the spec: `stephen::is_left_factor` (declared at
stephen.hpp:356-357) — `w` labels a path from node `0`. -/
def isLeftFactorW (s : Steph) (u : Word) : Bool :=
  (follow s.st.edges 0 u).isSome

/-- Embedding of `operator==(Stephen const&, Stephen const&)`
(stephen.hpp:416-422): each instance accepts the other's word. -/
def stephenEq (x y : Steph) : Bool :=
  acceptsW x y.word && acceptsW y x.word

/-- The congruence on words generated by the rule pairs of the presentation:
the reflexive-symmetric-transitive closure of applying a rule inside an
arbitrary context.  This is the relation written `u =_P w`. -/
inductive EqP (p : Present) : Word → Word → Prop
  | refl (u : Word) : EqP p u u
  | symm {u v : Word} : EqP p u v → EqP p v u
  | trans {u v w : Word} : EqP p u v → EqP p v w → EqP p u w
  | rel (x y : Word) {u v : Word} : (u, v) ∈ toPairs p.rules →
      EqP p (x ++ u ++ y) (x ++ v ++ y)

/-- An edge-membership path: the word labels a chain of entries of the edge
list from the first node to the second.  Unlike `follow` this does not commit
to a lookup order, so it is stable under relabelling and edge insertion. -/
inductive PathTo (es : List Edge) : Nat → Word → Nat → Prop
  | nil (c : Nat) : PathTo es c [] c
  | cons {c d e : Nat} {x : Nat} {w : Word} :
      (c, x, d) ∈ es → PathTo es d w e → PathTo es c (x :: w) e

/-! ## The path-counting helpers

`stephen::number_of_words_accepted` and `stephen::number_of_left_factors`
(stephen.hpp:396-412) delegate to `number_of_paths` from `paths.hpp`, which is
not among the source files; the counting is modelled from the spec (section 6):
paths with source `0` (and, for accepted words, target the accept state) and
length in `[min, max)`, with an infinite count — `none` below, standing for
`POSITIVE_INFINITY` — exactly when the set of such paths is infinite. -/

/-- The labelled out-edges of a node, in edge-list order. -/
def outEdges (es : List Edge) (c : Nat) : List (Nat × Nat) :=
  es.filterMap (fun e => if e.1 = c then some (e.2.1, e.2.2) else none)

/-- All labelled paths of length at most `fuel` leaving `c`. -/
def pathsFrom (es : List Edge) : Nat → Nat → List Word
  | 0, _ => [[]]
  | fuel + 1, c =>
    [] :: (outEdges es c).flatMap
      (fun xt => (pathsFrom es fuel xt.2).map (fun w => xt.1 :: w))

/-- Does the path satisfy the target condition (`none` = no condition)? -/
def endpointOk (es : List Edge) (source : Nat) (target? : Option Nat)
    (w : Word) : Bool :=
  match target? with
  | some t => follow es source w == some t
  | none => true

/-- Count the paths from `source` of length at most `bound` that satisfy the
length window and the target condition. -/
def countWithin (es : List Edge) (source : Nat) (target? : Option Nat)
    (mn : Nat) (mx : Option Nat) (bound : Nat) : Nat :=
  (((pathsFrom es bound source).dedup).filter (fun w =>
    decide (mn ≤ w.length) &&
      (match mx with | some m => decide (w.length < m) | none => true) &&
      endpointOk es source target? w)).length

/-- Is there a path long enough to force a pumpable cycle (length `numNodes`
for plain paths; length in `[numNodes, 2 numNodes)` reaching the target for
accepted words)?  By the pigeonhole principle this is equivalent to the path
set being infinite. -/
def hasLongPath (es : List Edge) (numNodes source : Nat)
    (target? : Option Nat) : Bool :=
  match target? with
  | none => (pathsFrom es numNodes source).any (fun w => w.length == numNodes)
  | some _ => (pathsFrom es (2 * numNodes) source).any
      (fun w => decide (numNodes ≤ w.length) && endpointOk es source target? w)

/-- Modelled from the spec: `number_of_paths` (paths.hpp, not among the source
files) — the number of paths from `source` with the given target condition and
length in `[mn, mx)`; `none` stands for an infinite count. -/
def numberOfPathsModel (es : List Edge) (numNodes source : Nat)
    (target? : Option Nat) (mn : Nat) (mx : Option Nat) : Option Nat :=
  match mx with
  | none =>
    if hasLongPath es numNodes source target? then none
    else some (countWithin es source target? mn none numNodes)
  | some m => some (countWithin es source target? mn (some m) (m - 1))

/-- Embedding of `stephen::number_of_words_accepted` (stephen.hpp:396-404):
`number_of_paths(word_graph, 0, accept_state, min, max)`. -/
def numberOfWordsAccepted (s : Steph) (mn : Nat) (mx : Option Nat) : Option Nat :=
  numberOfPathsModel s.st.edges s.st.nodes.length 0 (some s.st.accept) mn mx

/-- Embedding of `stephen::number_of_left_factors` (stephen.hpp:406-412):
`number_of_paths(word_graph, 0, min, max)`. -/
def numberOfLeftFactors (s : Steph) (mn : Nat) (mx : Option Nat) : Option Nat :=
  numberOfPathsModel s.st.edges s.st.nodes.length 0 none mn mx

/-! ## Concrete instances used by the end-to-end scenarios -/

/-- The free-semigroup presentation of spec scenario 2: `A = [0, 1]` (`a`, `b`)
and no rules, with a validly built alphabet map. -/
def pFree : Present := ⟨[0, 1], [(0, 0), (1, 1)], []⟩

/-- The terminated Stephen instance for `pFree` and `w = ab = [0, 1]`: the
linear chain of three nodes. -/
def sFree : Steph :=
  { pres := pFree, word := [0, 1],
    st := { nodes := [0, 1, 2], edges := [(0, 0, 1), (1, 1, 2)], nxt := 3, accept := 2 },
    finished := true }

/-- The presentation `A = [0, 1]`, one rule `aa = a` (that is `[0,0] = [0]`),
used to separate the graph's left factors from the congruence's. -/
def pAA : Present := ⟨[0, 1], [(0, 0), (1, 1)], [[0, 0], [0]]⟩

/-- Collapse adjacent duplicate letters `0`: the normal form of words under
the confluent, terminating rewriting system `00 → 0`.  Words relate under
`EqP pAA` only if their normal forms agree. -/
def reduceAA : Word → Word
  | [] => []
  | x :: w => x :: reduceAAGo x w
where
  /-- Tail of the normal form, given the previous letter. -/
  reduceAAGo : Nat → Word → Word
  | _, [] => []
  | prev, y :: w =>
    if y = 0 ∧ prev = 0 then reduceAAGo prev w else y :: reduceAAGo y w

/-- The terminated (and standardised) Stephen instance the model produces for
`pAA` and `w = b = [1]`. -/
def sAA : Steph :=
  { pres := pAA, word := [1],
    st := { nodes := [0, 1, 2, 3],
            edges := [(0, 1, 2), (0, 0, 1), (1, 0, 1), (2, 0, 3), (3, 0, 3)],
            nxt := 4, accept := 2 },
    finished := true }

/-! ## Invariants of the driver (spec section 3, I1-I6) -/

/-- Determinism of the edge list: every entry is the first match for its key.
This is invariant P2 and holds between rule applications (inside the
coincidence drain it is transiently violated and then restored). -/
def NoDupKeys (es : List Edge) : Prop :=
  ∀ c x t, (c, x, t) ∈ es → lookupEdge es c x = some t

/-- The invariant bundle of the Stephen driver, relative to a labelling `η`
of the nodes by representative words: structural facts (I1, I3, I5, I6 of the
spec) together with the soundness labelling — `η 0` is the empty word, the
label of the accept state is congruent to `w`, and every edge `(c, x, t)`
satisfies `η c · x =_P η t`. -/
structure InvF (p : Present) (w : Word) (eta : Nat → Word) (st : StState) : Prop where
  nodesNodup : st.nodes.Nodup
  nodesLt : ∀ n ∈ st.nodes, n < st.nxt
  zeroMem : 0 ∈ st.nodes
  acceptMem : st.accept ∈ st.nodes
  edgesMem : ∀ e ∈ st.edges, e.1 ∈ st.nodes ∧ e.2.2 ∈ st.nodes
  edgesNodup : st.edges.Nodup
  labelsOk : ∀ e ∈ st.edges, e.2.1 ∈ p.alphabet
  wordPath : PathTo st.edges 0 w st.accept
  etaZero : eta 0 = []
  etaAccept : EqP p (eta st.accept) w
  etaEdges : ∀ e ∈ st.edges, EqP p (eta e.1 ++ [e.2.1]) (eta e.2.2)

/-- The invariant at rule-application boundaries: some labelling satisfies
`InvF` and the edge list is duplicate-key free. -/
def InvE (p : Present) (w : Word) (st : StState) : Prop :=
  (∃ eta, InvF p w eta st) ∧ NoDupKeys st.edges

/-- The monotonicity relation of one driver step: either nothing happened, or
a fresh node was allocated, or nodes were merged at unchanged allocation.  A
cycle in this relation forces every step of the cycle to be the identity. -/
def StepM (a b : StState) : Prop :=
  b = a ∨ a.nxt < b.nxt ∨ (a.nxt = b.nxt ∧ b.nodes.length < a.nodes.length)

/-- A saturated state: at every active node, both sides of every rule label
defined paths with a common endpoint.  This is what a clean pass certifies. -/
def Closed (rs : List (Word × Word)) (st : StState) : Prop :=
  ∀ c ∈ st.nodes, ∀ r ∈ rs, ∃ d,
    follow st.edges c r.1 = some d ∧ follow st.edges c r.2 = some d

/-- `k` complete passes of the driver, each certified by some fuel: the states
at pass boundaries reachable from `a` (spec section 5). -/
inductive PassIter (rs : List (Word × Word)) : Nat → StState → StState → Prop
  | zero (st : StState) : PassIter rs 0 st st
  | succ {k : Nat} {a b c : StState} : PassIter rs k a b →
      (∃ f, passFrom rs f b 0 = some c) → PassIter rs (k + 1) a c

/-- Every letter of every rule of the presentation lies in its alphabet
(what `Presentation::validate` checks before a run). -/
def ValidRules (p : Present) : Prop :=
  ∀ r ∈ p.rules, ∀ l ∈ r, l ∈ p.alphabet

/-! ## The sourced word graph (DigraphWithSources, spec 4.C)

`DigraphWithSources` (declared in digraph-with-sources, from which only the
header is among the source files; `add_edge_nc`/`remove_edge_nc` appear
inline, and the bodies of `add_source`, `remove_source`, `swap_nodes`,
`rename_node`, `merge_nodes` and `rebuild_sources` are modelled from spec
4.C/4.E).  The transition table `δ` and the two predecessor tables
`preim_init`/`preim_next` are total maps from node and label to an optional
node; `none` embeds the `UNDEFINED` sentinel. -/

/-- The state of a `DigraphWithSources`: the out-degree, the active-node list
(spec 4.D) and the three tables. -/
@[ext] structure DWS where
  deg : Nat
  active : List Nat
  edge : Nat → Nat → Option Nat
  preimInit : Nat → Nat → Option Nat
  preimNext : Nat → Nat → Option Nat

/-- The walk of the `(·, x)` predecessor list from a given head: follow
`preim_next` until `UNDEFINED`, with fuel against malformed (cyclic)
tables. -/
def chainF (g : DWS) (x : Nat) : Nat → Option Nat → List Nat
  | 0, _ => []
  | _ + 1, none => []
  | fuel + 1, some p => p :: chainF g x fuel (g.preimNext p x)

/-- The `(c, x)` predecessor list: the list headed by `preim_init[c][x]` and
chained through `preim_next` (spec section 3). -/
def chain (g : DWS) (c x : Nat) : List Nat :=
  chainF g x (g.active.length + 1) (g.preimInit c x)

/-- Modelled from the spec: a freshly initialised graph with `m` nodes and
out-degree `n` — all node slots active, all edges undefined, all predecessor
heads `UNDEFINED`. -/
def initDWS (m n : Nat) : DWS :=
  { deg := n, active := List.range m,
    edge := fun _ _ => none,
    preimInit := fun _ _ => none,
    preimNext := fun _ _ => none }

/-- `DigraphWithSources::add_edge_nc` (part_000:87-90): set `δ(c,x) := d` and
`add_source(d, x, c)` — prepend `c` to the `(d, x)` predecessor list. -/
def addEdgeNC (g : DWS) (c d x : Nat) : DWS :=
  { g with
    edge := fun r y => if r = c ∧ y = x then some d else g.edge r y,
    preimNext := fun r y => if r = c ∧ y = x then g.preimInit d x else g.preimNext r y,
    preimInit := fun r y => if r = d ∧ y = x then some c else g.preimInit r y }

/-- Modelled from the spec: the tail of `remove_source` — walk the list from
`q` looking for the element whose successor is `c`, and route that successor
pointer around `c`. -/
def unlinkGo (g : DWS) (x c : Nat) : Nat → Nat → DWS
  | 0, _ => g
  | fuel + 1, q =>
    match g.preimNext q x with
    | some r =>
      if r = c then
        { g with preimNext := fun s y =>
            if s = q ∧ y = x then g.preimNext c x else g.preimNext s y }
      else unlinkGo g x c fuel r
    | none => g

/-- Modelled from the spec: `remove_source(d, x, c)` — unlink `c` from the
`(d, x)` predecessor list: if the head equals `c` update `preim_init`,
otherwise rewrite the `preim_next` of the prior element. -/
def removeSource (g : DWS) (d x c : Nat) : DWS :=
  match g.preimInit d x with
  | some h =>
    if h = c then
      { g with preimInit := fun s y =>
          if s = d ∧ y = x then g.preimNext c x else g.preimInit s y }
    else unlinkGo g x c (g.active.length + 1) h
  | none => g

/-- `DigraphWithSources::remove_edge_nc` (part_000:92-95):
`remove_source(δ(c,x), x, c)` then clear `δ(c,x)`. -/
def removeEdgeNC (g : DWS) (c x : Nat) : DWS :=
  match g.edge c x with
  | some d =>
    let g2 := removeSource g d x c
    { g2 with edge := fun r y => if r = c ∧ y = x then none else g2.edge r y }
  | none => g

/-- The transposition of the two identifiers `c` and `d`. -/
def tau (c d n : Nat) : Nat :=
  if n = c then d else if n = d then c else n

/-- Modelled from the spec: `swap_nodes(c, d)` exchanges the two identifiers
globally — every table cell is read at the exchanged row and its value mapped
through the transposition, covering incoming edges, outgoing rows, both
predecessor tables, self-loops and mutual edges at once. -/
def swapNodes (g : DWS) (c d : Nat) : DWS :=
  { g with
    edge := fun r y => Option.map (tau c d) (g.edge (tau c d r) y),
    preimInit := fun r y => Option.map (tau c d) (g.preimInit (tau c d r) y),
    preimNext := fun r y => Option.map (tau c d) (g.preimNext (tau c d r) y) }

/-- Modelled from the spec: `rename_node(c, d)` with `c` active and `d`
inactive — the one-sided swap: `d` inherits all in- and out-edges of `c`,
`c` ends disconnected and inactive.  Because an inactive node carries no
edges and sits on no list, this is the same table conjugation with the
active list renamed. -/
def renameNode (g : DWS) (c d : Nat) : DWS :=
  { swapNodes g c d with active := g.active.map (tau c d) }

/-- The body of one retargeting step of `merge_nodes` step 1: unlink the
head `p` of `max`'s `(x)`-list, set `δ(p,x) := min`, prepend `p` to `min`'s
`(x)`-list. -/
def retarget (g : DWS) (mi ma p x : Nat) : DWS :=
  { g with
    edge := fun r y => if r = p ∧ y = x then some mi else g.edge r y,
    preimInit := fun r y =>
      if r = ma ∧ y = x then g.preimNext p x
      else if r = mi ∧ y = x then some p
      else g.preimInit r y,
    preimNext := fun r y =>
      if r = p ∧ y = x then g.preimInit mi x else g.preimNext r y }

/-- Modelled from the spec: one step of `merge_nodes` step 1 at label `x` —
pop the head `p` of `max`'s `(x)`-list; if `δ(p,x) = max`, retarget the edge
to `min` and prepend `p` to `min`'s `(x)`-list. -/
def mergeIncGo (mi ma x : Nat) : Nat → DWS → DWS
  | 0, g => g
  | fuel + 1, g =>
    match g.preimInit ma x with
    | none => g
    | some p =>
      if g.edge p x = some ma then
        mergeIncGo mi ma x fuel (retarget g mi ma p x)
      else
        mergeIncGo mi ma x fuel
          { g with preimInit := fun r y =>
              if r = ma ∧ y = x then g.preimNext p x else g.preimInit r y }

/-- The transplant of `merge_nodes` step 2: define `δ(min, x) := t` and
prepend `min` to `t`'s `(x)`-list. -/
def transplant (g2 : DWS) (mi t x : Nat) : DWS :=
  { g2 with
    edge := fun r y => if r = mi ∧ y = x then some t else g2.edge r y,
    preimNext := fun r y =>
      if r = mi ∧ y = x then g2.preimInit t x else g2.preimNext r y,
    preimInit := fun r y =>
      if r = t ∧ y = x then some mi else g2.preimInit r y }

/-- Modelled from the spec: `merge_nodes` step 2 at label `x` — if
`δ(max, x) = t`, unlink `max` from `t`'s `(x)`-list and, when `δ(min, x)` is
undefined, transplant the edge onto `min` (otherwise the target pair is left
to the coincidence stack, outside this structure's state). -/
def mergeOut (mi ma x : Nat) (g : DWS) : DWS :=
  match g.edge ma x with
  | none => g
  | some t =>
    match g.edge mi x with
    | none => transplant (removeSource g t x ma) mi t x
    | some _ => removeSource g t x ma

/-- Modelled from the spec: `merge_nodes(min, max)` — fold `max`'s incoming
edges onto `min` (step 1, per label), unlink/transplant `max`'s outgoing
edges (step 2, per label), then clear `max`'s outgoing row and retire it
(step 3). -/
def mergeNodes (g : DWS) (mi ma : Nat) : DWS :=
  let g1 := (List.range g.deg).foldl
    (fun h x => mergeIncGo mi ma x (h.active.length + 1) h) g
  let g2 := (List.range g.deg).foldl (fun h x => mergeOut mi ma x h) g1
  { g2 with
    edge := fun r y => if r = ma then none else g2.edge r y,
    active := g2.active.erase ma }

/-- The re-insertion of `rebuild_sources`: prepend `c` to `t`'s `(x)`-list
(the edge `δ(c,x) = t` is already in place). -/
def reinsert (g2 : DWS) (c t x : Nat) : DWS :=
  { g2 with
    preimNext := fun r y =>
      if r = c ∧ y = x then g2.preimInit t x else g2.preimNext r y,
    preimInit := fun r y =>
      if r = t ∧ y = x then some c else g2.preimInit r y }

/-- Modelled from the spec: the contribution of one node to
`rebuild_sources` — for each of its outgoing edges, remove it from the
target's predecessor list and re-insert it at the head. -/
def rebuildOne (g : DWS) (c : Nat) : DWS :=
  (List.range g.deg).foldl
    (fun h x =>
      match h.edge c x with
      | some t => reinsert (removeSource h t x c) c t x
      | none => h) g

/-- Modelled from the spec: `rebuild_sources(first, last)` over a list of
node identifiers. -/
def rebuildSources (g : DWS) (cs : List Nat) : DWS :=
  cs.foldl rebuildOne g

/-- The graphs reachable from a freshly initialised graph by the public
mutations, each under its spec precondition. -/
inductive ReachableD : DWS → Prop
  | init (m n : Nat) : ReachableD (initDWS m n)
  | addEdge {g : DWS} (c d x : Nat) : ReachableD g → c ∈ g.active →
      d ∈ g.active → x < g.deg → g.edge c x = none →
      ReachableD (addEdgeNC g c d x)
  | removeEdge {g : DWS} (c x : Nat) : ReachableD g → c ∈ g.active →
      x < g.deg → (g.edge c x).isSome → ReachableD (removeEdgeNC g c x)
  | swap {g : DWS} (c d : Nat) : ReachableD g → c ∈ g.active →
      d ∈ g.active → ReachableD (swapNodes g c d)
  | rename {g : DWS} (c d : Nat) : ReachableD g → c ∈ g.active →
      d ∉ g.active → ReachableD (renameNode g c d)
  | merge {g : DWS} (mi ma : Nat) : ReachableD g → mi ∈ g.active →
      ma ∈ g.active → mi < ma → ReachableD (mergeNodes g mi ma)
  | rebuild {g : DWS} (cs : List Nat) : ReachableD g →
      (∀ c ∈ cs, c ∈ g.active) → ReachableD (rebuildSources g cs)

/-- An abstract derivation that the `(·, x)` list headed at a given cell is a
given finite list: the inductive counterpart of the fueled walk `chainF`,
used to state the invariant without fuel. -/
inductive ChainIs (g : DWS) (x : Nat) : Option Nat → List Nat → Prop
  | nil : ChainIs g x none []
  | cons {p : Nat} {rest : List Nat} :
      ChainIs g x (g.preimNext p x) rest → ChainIs g x (some p) (p :: rest)

/-- The invariant of the sourced word graph: active identifiers are distinct,
`δ` is defined only on active nodes and valid labels with active targets
(I1/I3), and every predecessor list is a duplicate-free finite chain whose
members are exactly the `x`-predecessors (the exactness invariant I2). -/
structure InvD (g : DWS) : Prop where
  activeNodup : g.active.Nodup
  edgeDom : ∀ p x t, g.edge p x = some t →
    p ∈ g.active ∧ t ∈ g.active ∧ x < g.deg
  chains : ∀ c x, ∃ l, ChainIs g x (g.preimInit c x) l ∧ l.Nodup ∧
    ∀ p, p ∈ l ↔ g.edge p x = some c

/-- A concrete sourced graph with a self-loop at `0` and a mutual edge
`0 ↔ 1`, exercising the delicate `swap_nodes` cases. -/
def dwsEx : DWS :=
  { deg := 2, active := [0, 1, 2],
    edge := fun r y =>
      if r = 0 ∧ y = 0 then some 0
      else if r = 0 ∧ y = 1 then some 1
      else if r = 1 ∧ y = 1 then some 0
      else none,
    preimInit := fun r y =>
      if r = 0 ∧ y = 0 then some 0
      else if r = 1 ∧ y = 1 then some 0
      else if r = 0 ∧ y = 1 then some 1
      else none,
    preimNext := fun _ _ => none }

/-! ## Theorems about the presentation embedding -/

section PresentLemmas

theorem assocLookup_buildAlphabetMap_getD (l : Word) (k i : Nat)
    (hnd : l.Nodup) (hi : i < l.length) :
    assocLookup (buildAlphabetMap l k) (l.getD i 0) = some (k + i) := by
  induction l generalizing k i with
  | nil => simp at hi
  | cons a rest ih =>
    cases i with
    | zero => simp [buildAlphabetMap, assocLookup]
    | succ j =>
      have hrest : rest.Nodup := (List.nodup_cons.mp hnd).2
      have hane : a ∉ rest := (List.nodup_cons.mp hnd).1
      have hj : j < rest.length := by simpa using hi
      have hmem : rest.getD j 0 ∈ rest := by
        rw [List.getD_eq_getElem rest 0 hj]
        exact List.getElem_mem hj
      have hne : a ≠ rest.getD j 0 := fun h => hane (h ▸ hmem)
      have := ih (k := k + 1) (i := j) hrest hj
      simp only [buildAlphabetMap, assocLookup, List.getD_cons_succ]
      rw [if_neg hne, this]
      congr 1
      omega

theorem length_foldl_addRule_outer (p : Present) (f : Nat → Word × Word)
    (l : List Nat) :
    (l.foldl (fun q i => q.addRule (f i).1 (f i).2) p).rules
      = p.rules ++ l.flatMap (fun i => [(f i).1, (f i).2]) := by
  induction l generalizing p with
  | nil => simp
  | cons a rest ih =>
    rw [List.foldl_cons, ih]
    simp [Present.addRule]

theorem foldl_addRule_rules (q : Present) (l : List Nat) (f g : Nat → Word) :
    (l.foldl (fun r j => r.addRule (f j) (g j)) q).rules
      = q.rules ++ l.flatMap (fun j => [f j, g j]) := by
  induction l generalizing q with
  | nil => simp
  | cons a rest ih =>
    rw [List.foldl_cons, ih]
    simp [Present.addRule]

theorem foldl_rules_append (p : Present) (l : List Nat)
    (step : Present → Nat → Present) (contrib : Nat → List Word)
    (hstep : ∀ q i, (step q i).rules = q.rules ++ contrib i) :
    (l.foldl step p).rules = p.rules ++ l.flatMap contrib := by
  induction l generalizing p with
  | nil => simp
  | cons a rest ih =>
    rw [List.foldl_cons, ih, hstep]
    simp

theorem sum_map_add_const (l : List Nat) (f : Nat → Nat) (c : Nat) :
    (l.map (fun i => f i + c)).sum = (l.map f).sum + c * l.length := by
  induction l with
  | nil => simp
  | cons a rest ih =>
    simp only [List.map_cons, List.sum_cons, ih, List.length_cons]
    ring

theorem sum_range_two_mul_sub (k : Nat) :
    ((List.range k).map (fun i => 2 * (k - i))).sum = k * (k + 1) := by
  induction k with
  | zero => simp
  | succ k ih =>
    rw [List.range_succ, List.map_append, List.sum_append]
    have hmap : (List.range k).map (fun i => 2 * (k + 1 - i))
        = (List.range k).map (fun i => 2 * (k - i) + 2) := by
      apply List.map_congr_left
      intro i hi
      have : i < k := List.mem_range.mp hi
      omega
    rw [hmap, sum_map_add_const, ih]
    simp only [List.map_cons, List.map_nil, List.sum_cons, List.sum_nil,
      List.length_range]
    have : k + 1 - k = 1 := by omega
    rw [this]
    ring

theorem length_flatMap_pair {α β : Type} (l : List α) (f g : α → List β) :
    (l.flatMap fun a => f a ++ g a).length
      = ((l.map fun a => (f a).length).sum + (l.map fun a => (g a).length).sum) := by
  induction l with
  | nil => simp
  | cons a rest ih => simp [ih]; omega

theorem commRules_length (letters : Word) :
    (commRules letters).length = letters.length * (letters.length - 1) := by
  unfold commRules
  rw [List.length_flatMap]
  simp only [Function.comp_def]
  have hmap : (List.range (letters.length - 1)).map
        (fun i => ((List.range' (i + 1) (letters.length - (i + 1))).flatMap fun j =>
          [[letters.getD i 0, letters.getD j 0], [letters.getD j 0, letters.getD i 0]]).length)
      = (List.range (letters.length - 1)).map
        (fun i => 2 * ((letters.length - 1) - i)) := by
    apply List.map_congr_left
    intro i _
    rw [List.length_flatMap]
    simp only [Function.comp_def]
    have hconst : ∀ (l : List Nat),
        (l.map fun j => ([[letters.getD i 0, letters.getD j 0],
          [letters.getD j 0, letters.getD i 0]] : List Word).length).sum = 2 * l.length := by
      intro l
      induction l with
      | nil => simp
      | cons b rest ih => simp [ih]; ring
    rw [hconst, List.length_range']
    omega
  rw [hmap, sum_range_two_mul_sub]
  cases letters.length with
  | zero => simp
  | succ m => simp [Nat.succ_sub_one]; ring

theorem subOneSizeT_of_pos (n : Nat) (h1 : 1 ≤ n) (h2 : n < sizeTCard) :
    subOneSizeT n = n - 1 := by
  unfold subOneSizeT
  have hcard : 1 ≤ sizeTCard := by unfold sizeTCard; norm_num
  have : n + (sizeTCard - 1) = sizeTCard + (n - 1) := by omega
  rw [this, Nat.add_mod_left]
  exact Nat.mod_eq_of_lt (by omega)

/-- C10: for non-empty `letters` of length `n` (at most `size_t` can hold),
`add_commutes_rules` appends exactly the rule pair
`(letters[i] letters[j], letters[j] letters[i])` for each `0 ≤ i < j < n` —
`n * (n - 1)` flat entries, that is `n * (n - 1) / 2` rules — and every index
the two loops access lies inside `letters`.  The final conjunct exhibits the
underflow that makes the non-emptiness precondition necessary: the `size_t`
loop bound `n - 1` evaluates to `2 ^ 64 - 1` when `n = 0`. -/
theorem addCommutesRules_spec (p : Present) (letters : Word)
    (h : letters ≠ []) (hlen : letters.length < sizeTCard) :
    (addCommutesRules p letters).rules = p.rules ++ commRules letters ∧
    (addCommutesRules p letters).rules.length
      = p.rules.length + letters.length * (letters.length - 1) ∧
    (∀ i ∈ List.range (subOneSizeT letters.length), i < letters.length ∧
      ∀ j ∈ List.range' (i + 1) (letters.length - (i + 1)), j < letters.length) ∧
    subOneSizeT 0 = 2 ^ 64 - 1 := by
  have hpos : 1 ≤ letters.length := by
    cases letters with
    | nil => exact absurd rfl h
    | cons a rest => simp
  have hsub := subOneSizeT_of_pos letters.length hpos hlen
  have hrules : (addCommutesRules p letters).rules = p.rules ++ commRules letters := by
    unfold addCommutesRules commRules
    rw [hsub]
    exact foldl_rules_append p _ _ _ (fun q i => foldl_addRule_rules q _ _ _)
  refine ⟨hrules, ?_, ?_, ?_⟩
  · rw [hrules, List.length_append, commRules_length]
  · intro i hi
    rw [hsub] at hi
    have hik : i < letters.length - 1 := List.mem_range.mp hi
    refine ⟨by omega, ?_⟩
    intro j hj
    have := List.mem_range'_1.mp hj
    omega
  · unfold subOneSizeT sizeTCard
    norm_num

/-- Concrete instance of `addCommutesRules_spec` at `letters = [1, 2, 3]`. -/
theorem addCommutesRules_spec_witness :
    (([1, 2, 3] : Word) ≠ [] ∧ ([1, 2, 3] : Word).length < sizeTCard) ∧
    ((addCommutesRules ⟨[1, 2, 3], [], []⟩ [1, 2, 3]).rules
        = [] ++ commRules [1, 2, 3] ∧
      (addCommutesRules ⟨[1, 2, 3], [], []⟩ [1, 2, 3]).rules.length
        = ([] : List Word).length + 3 * (3 - 1) ∧
      (∀ i ∈ List.range (subOneSizeT 3), i < 3 ∧
        ∀ j ∈ List.range' (i + 1) (3 - (i + 1)), j < 3) ∧
      subOneSizeT 0 = 2 ^ 64 - 1) := by
  refine ⟨⟨by decide, by norm_num [sizeTCard]⟩, ?_⟩
  exact addCommutesRules_spec ⟨[1, 2, 3], [], []⟩ [1, 2, 3] (by decide)
    (by norm_num [sizeTCard])

/-- C9: on a presentation whose alphabet was validly set, `letter` and `index`
are mutually inverse on positions below the alphabet size, such a letter is in
the alphabet, and the failure branch of the unchecked `index` lookup is reached
exactly on values outside the alphabet. -/
theorem letter_index_roundtrip (p : Present) (i : Nat)
    (hv : ValidAlphabet p) (hi : i < p.alphabet.length) :
    p.index (p.letter i) = some i ∧ p.inAlphabet (p.letter i) = true ∧
      (∀ val, (p.index val).isSome = p.inAlphabet val) := by
  obtain ⟨hnd, hmap⟩ := hv
  have hkey : p.index (p.letter i) = some i := by
    rw [Present.index, Present.letter, hmap]
    simpa using assocLookup_buildAlphabetMap_getD p.alphabet 0 i hnd hi
  refine ⟨hkey, ?_, fun val => rfl⟩
  rw [Present.inAlphabet]
  have : assocLookup p.alphabetMap (p.letter i) = some i := hkey
  rw [this]
  rfl

/-! ## The linear chain -/

theorem lookupEdge_chainEdges_lt (w : Word) (i c x : Nat) (hc : c < i) :
    lookupEdge (chainEdges i w) c x = none := by
  induction w generalizing i with
  | nil => rfl
  | cons a rest ih =>
    simp only [chainEdges, lookupEdge]
    rw [if_neg, ih (i + 1) (by omega)]
    rintro ⟨h1, -⟩
    omega

theorem lookupEdge_chainEdges (w : Word) (i k x : Nat) :
    lookupEdge (chainEdges i w) (i + k) x
      = if k < w.length ∧ x = w.getD k 0 then some (i + k + 1) else none := by
  induction w generalizing i k with
  | nil => simp [chainEdges, lookupEdge]
  | cons a rest ih =>
    simp only [chainEdges, lookupEdge]
    cases k with
    | zero =>
      by_cases hx : a = x
      · rw [if_pos ⟨by omega, hx⟩, if_pos ⟨by simp, by simp [hx]⟩]
      · rw [if_neg (fun h => hx h.2),
          lookupEdge_chainEdges_lt rest (i + 1) (i + 0) x (by omega),
          if_neg (fun h => hx (by simpa using h.2.symm))]
    | succ k2 =>
      rw [if_neg (by rintro ⟨h1, -⟩; omega)]
      have harg : i + (k2 + 1) = (i + 1) + k2 := by omega
      rw [harg, ih (i + 1) k2]
      by_cases hcond : k2 < rest.length ∧ x = rest.getD k2 0
      · rw [if_pos hcond,
          if_pos ⟨by simpa using hcond.1, by simpa using hcond.2⟩]
      · rw [if_neg hcond,
          if_neg (fun h => hcond ⟨by simpa using h.1, by simpa using h.2⟩)]

theorem follow_chainEdges (w : Word) (i : Nat) :
    ∀ (u : Word) (k : Nat), k ≤ w.length →
    follow (chainEdges i w) (i + k) u
      = if u = (w.drop k).take u.length ∧ k + u.length ≤ w.length
        then some (i + k + u.length) else none := by
  intro u
  induction u with
  | nil =>
    intro k hk
    simp only [follow, List.take_nil, List.length_nil]
    rw [if_pos ⟨rfl, by omega⟩]
    rfl
  | cons x u ih =>
    intro k hk
    rcases hl : lookupEdge (chainEdges i w) (i + k) x with _ | d
    · have hP : ¬(k < w.length ∧ x = w.getD k 0) := by
        intro h
        rw [lookupEdge_chainEdges, if_pos h] at hl
        exact absurd hl (by simp)
      simp only [follow, hl]
      rw [eq_comm, if_neg]
      rintro ⟨h1, h2⟩
      rcases Nat.lt_or_ge k w.length with hkl | hkl
      · have hdrop : w.drop k = w.getD k 0 :: w.drop (k + 1) := by
          rw [List.getD_eq_getElem w 0 hkl]
          exact List.drop_eq_getElem_cons hkl
        rw [hdrop] at h1
        simp only [List.length_cons, List.take_succ_cons, List.cons.injEq] at h1
        exact hP ⟨hkl, h1.1⟩
      · simp only [List.length_cons] at h2
        omega
    · have hl2 := hl
      rw [lookupEdge_chainEdges] at hl2
      have hP : k < w.length ∧ x = w.getD k 0 := by
        by_contra h
        rw [if_neg h] at hl2
        exact absurd hl2 (by simp)
      rw [if_pos hP] at hl2
      have hd : d = i + (k + 1) := by
        injection hl2 with h
        omega
      simp only [follow, hl]
      rw [hd, ih (k + 1) (by omega)]
      have hdrop : w.drop k = w.getD k 0 :: w.drop (k + 1) := by
        rw [List.getD_eq_getElem w 0 hP.1]
        exact List.drop_eq_getElem_cons hP.1
      by_cases hc : u = (w.drop (k + 1)).take u.length ∧ (k + 1) + u.length ≤ w.length
      · rw [if_pos hc, if_pos]
        · simp only [List.length_cons]
          congr 1
          omega
        · constructor
          · rw [hdrop]
            simp only [List.length_cons, List.take_succ_cons]
            rw [← hc.1, ← hP.2]
          · simp only [List.length_cons]
            omega
      · rw [if_neg hc, if_neg]
        rintro ⟨h1, h2⟩
        rw [hdrop] at h1
        simp only [List.length_cons, List.take_succ_cons, List.cons.injEq] at h1
        simp only [List.length_cons] at h2
        exact hc ⟨h1.2, by omega⟩

theorem follow_initChain (w : Word) :
    follow (initChain w).edges 0 w = some w.length := by
  have h := follow_chainEdges w 0 w 0 (by omega)
  simpa using h

/-! ## C6: set_word -/

/-- C6: `set_word` raises exactly when some letter of `w` is outside the
alphabet; a valid word is recorded with `finished` cleared and the graph reset
to the linear chain of `|w| + 1` nodes whose path from `0` labelled `w` ends
at the tentative accept state `|w|`; and after a failed call the (untouched)
instance accepts a subsequent valid word as if fresh. -/
theorem setWord_spec (s : Steph) (w : Word) :
    (setWord s w = Except.error () ↔ ∃ a ∈ w, s.pres.inAlphabet a = false) ∧
    ((∀ a ∈ w, s.pres.inAlphabet a = true) →
      setWord s w = Except.ok { s with word := w, finished := false, st := initChain w } ∧
      (initChain w).nodes.length = w.length + 1 ∧
      (initChain w).edges = chainEdges 0 w ∧
      (initChain w).accept = w.length ∧
      follow (initChain w).edges 0 w = some w.length) ∧
    (setWord s w = Except.error () →
      ∀ w2, (∀ a ∈ w2, s.pres.inAlphabet a = true) →
        setWord s w2
          = Except.ok { s with word := w2, finished := false, st := initChain w2 }) := by
  refine ⟨?_, ?_, ?_⟩
  · unfold setWord
    by_cases hall : w.all (fun a => s.pres.inAlphabet a) = true
    · rw [if_pos hall]
      constructor
      · intro h
        exact absurd h (by simp)
      · rintro ⟨a, ha, hfa⟩
        have := List.all_eq_true.mp hall a ha
        rw [hfa] at this
        exact absurd this (by simp)
    · rw [if_neg hall]
      constructor
      · intro _
        rw [List.all_eq_true] at hall
        push_neg at hall
        obtain ⟨a, ha, hfa⟩ := hall
        exact ⟨a, ha, by simpa using hfa⟩
      · intro _
        rfl
  · intro hall
    have hall2 : w.all (fun a => s.pres.inAlphabet a) = true := List.all_eq_true.mpr hall
    refine ⟨by unfold setWord; rw [if_pos hall2], by simp [initChain], rfl, rfl,
      follow_initChain w⟩
  · intro _ w2 hall2
    unfold setWord
    rw [if_pos (List.all_eq_true.mpr hall2)]

/-- Concrete instance of `setWord_spec`: on `pFree`, setting the word `[0, 2]`
(letter `2` outside the alphabet) fails, and then setting `[0, 1]` succeeds. -/
theorem setWord_spec_witness :
    (setWord (mkStephen pFree []) [0, 2] = Except.error ()
      ↔ ∃ a ∈ ([0, 2] : Word), pFree.inAlphabet a = false) ∧
    ((∀ a ∈ ([0, 2] : Word), pFree.inAlphabet a = true) →
      setWord (mkStephen pFree []) [0, 2]
          = Except.ok { (mkStephen pFree []) with
                        word := [0, 2], finished := false, st := initChain [0, 2] } ∧
        (initChain ([0, 2] : Word)).nodes.length = ([0, 2] : Word).length + 1 ∧
        (initChain ([0, 2] : Word)).edges = chainEdges 0 [0, 2] ∧
        (initChain ([0, 2] : Word)).accept = ([0, 2] : Word).length ∧
        follow (initChain ([0, 2] : Word)).edges 0 [0, 2]
          = some ([0, 2] : Word).length) ∧
    (setWord (mkStephen pFree []) [0, 2] = Except.error () →
      ∀ w2, (∀ a ∈ w2, pFree.inAlphabet a = true) →
        setWord (mkStephen pFree []) w2
          = Except.ok { (mkStephen pFree []) with
                        word := w2, finished := false, st := initChain w2 }) :=
  setWord_spec (mkStephen pFree []) [0, 2]

/-! ## Basic properties of lookups, paths and the congruence -/

theorem lookupEdge_mem {es : List Edge} {c x t : Nat}
    (h : lookupEdge es c x = some t) : (c, x, t) ∈ es := by
  induction es with
  | nil => simp [lookupEdge] at h
  | cons e rest ih =>
    obtain ⟨a, y, u⟩ := e
    simp only [lookupEdge] at h
    by_cases hc : a = c ∧ y = x
    · rw [if_pos hc] at h
      injection h with h
      subst h
      obtain ⟨rfl, rfl⟩ := hc
      exact List.mem_cons_self _ _
    · rw [if_neg hc] at h
      exact List.mem_cons_of_mem _ (ih h)

theorem lookupEdge_none {es : List Edge} {c x : Nat}
    (h : lookupEdge es c x = none) : ∀ t, (c, x, t) ∉ es := by
  induction es with
  | nil => simp
  | cons e rest ih =>
    obtain ⟨a, y, u⟩ := e
    simp only [lookupEdge] at h
    by_cases hc : a = c ∧ y = x
    · rw [if_pos hc] at h
      exact absurd h (by simp)
    · rw [if_neg hc] at h
      intro t ht
      rcases List.mem_cons.mp ht with he | he
      · simp only [Prod.mk.injEq] at he
        exact hc ⟨he.1.symm, he.2.1.symm⟩
      · exact ih h t he

theorem follow_toPathTo {es : List Edge} :
    ∀ {u : Word} {c d : Nat}, follow es c u = some d → PathTo es c u d := by
  intro u
  induction u with
  | nil =>
    intro c d h
    simp only [follow] at h
    injection h with h
    subst h
    exact PathTo.nil c
  | cons x w ih =>
    intro c d h
    simp only [follow] at h
    split at h
    · rename_i d2 he
      exact PathTo.cons (lookupEdge_mem he) (ih h)
    · exact Option.noConfusion h

theorem pathTo_follow {es : List Edge} (hnd : NoDupKeys es) :
    ∀ {c u d}, PathTo es c u d → follow es c u = some d := by
  intro c u d h
  induction h with
  | nil => rfl
  | cons hmem _ ih =>
    simp only [follow]
    rw [hnd _ _ _ hmem]
    exact ih

theorem pathTo_mono {es es2 : List Edge} (hsub : ∀ e ∈ es, e ∈ es2) :
    ∀ {c u d}, PathTo es c u d → PathTo es2 c u d := by
  intro c u d h
  induction h with
  | nil => exact PathTo.nil _
  | cons hmem _ ih => exact PathTo.cons (hsub _ hmem) ih

theorem follow_append (es : List Edge) (u : Word) :
    ∀ (c : Nat) (v : Word),
    follow es c (u ++ v) = (follow es c u).bind (fun d => follow es d v) := by
  induction u with
  | nil => intro c v; simp [follow]
  | cons x w ih =>
    intro c v
    simp only [List.cons_append, follow]
    cases he : lookupEdge es c x with
    | none => simp
    | some d => simp [ih]

theorem follow_mem_nodes {st : StState}
    (hmem : ∀ e ∈ st.edges, e.1 ∈ st.nodes ∧ e.2.2 ∈ st.nodes) :
    ∀ {u : Word} {c d : Nat}, c ∈ st.nodes → follow st.edges c u = some d →
      d ∈ st.nodes := by
  intro u
  induction u with
  | nil =>
    intro c d hc h
    simp only [follow] at h
    injection h with h
    subst h
    exact hc
  | cons x w ih =>
    intro c d hc h
    simp only [follow] at h
    split at h
    · rename_i d2 he
      exact ih (hmem _ (lookupEdge_mem he)).2 h
    · exact Option.noConfusion h

theorem eqp_append_right {p : Present} {u v : Word} (z : Word) (h : EqP p u v) :
    EqP p (u ++ z) (v ++ z) := by
  induction h with
  | refl u => exact EqP.refl _
  | symm _ ih => exact EqP.symm ih
  | trans _ _ ih1 ih2 => exact EqP.trans ih1 ih2
  | rel x y hm =>
    have := EqP.rel (p := p) x (y ++ z) hm
    simpa [List.append_assoc] using this

theorem eqp_append_left {p : Present} {u v : Word} (z : Word) (h : EqP p u v) :
    EqP p (z ++ u) (z ++ v) := by
  induction h with
  | refl u => exact EqP.refl _
  | symm _ ih => exact EqP.symm ih
  | trans _ _ ih1 ih2 => exact EqP.trans ih1 ih2
  | rel x y hm =>
    have := EqP.rel (p := p) (z ++ x) y hm
    simpa [List.append_assoc] using this

theorem eqp_of_rule {p : Present} {u v : Word} (hm : (u, v) ∈ toPairs p.rules) :
    EqP p u v := by
  have := EqP.rel (p := p) [] [] hm
  simpa using this

theorem toPairs_mem : ∀ {l : List Word} {u v : Word},
    (u, v) ∈ toPairs l → u ∈ l ∧ v ∈ l
  | [], u, v, h => by simp [toPairs] at h
  | [w0], u, v, h => by simp [toPairs] at h
  | w0 :: w1 :: rest, u, v, h => by
    simp only [toPairs, List.mem_cons, Prod.mk.injEq] at h
    rcases h with ⟨h1, h2⟩ | h
    · subst h1
      subst h2
      exact ⟨by simp, by simp⟩
    · have := toPairs_mem h
      exact ⟨List.mem_cons_of_mem _ (List.mem_cons_of_mem _ this.1),
        List.mem_cons_of_mem _ (List.mem_cons_of_mem _ this.2)⟩

/-! ## Path completion -/

theorem lookupEdge_append_some {es es2 : List Edge} {c x t : Nat}
    (h : lookupEdge es c x = some t) : lookupEdge (es ++ es2) c x = some t := by
  induction es with
  | nil => simp [lookupEdge] at h
  | cons e rest ih =>
    obtain ⟨a, y, u⟩ := e
    simp only [lookupEdge, List.cons_append] at h ⊢
    by_cases hc : a = c ∧ y = x
    · rwa [if_pos hc] at h ⊢
    · rw [if_neg hc] at h ⊢
      exact ih h

theorem lookupEdge_append_none {es es2 : List Edge} {c x : Nat}
    (h : lookupEdge es c x = none) :
    lookupEdge (es ++ es2) c x = lookupEdge es2 c x := by
  induction es with
  | nil => simp
  | cons e rest ih =>
    obtain ⟨a, y, u⟩ := e
    simp only [lookupEdge, List.cons_append] at h ⊢
    by_cases hc : a = c ∧ y = x
    · rw [if_pos hc] at h
      exact absurd h (by simp)
    · rw [if_neg hc] at h ⊢
      exact ih h

theorem completePath_cons_some {st : StState} {c x d : Nat} (v : Word)
    (hl : lookupEdge st.edges c x = some d) :
    completePath (x :: v) st c = completePath v st d := by
  simp only [completePath, hl]

theorem completePath_cons_none {st : StState} {c x : Nat} (v : Word)
    (hl : lookupEdge st.edges c x = none) :
    completePath (x :: v) st c
      = completePath v
          { st with
            nodes := st.nodes ++ [st.nxt],
            edges := st.edges ++ [(c, x, st.nxt)],
            nxt := st.nxt + 1 }
          st.nxt := by
  simp only [completePath, hl]

theorem completePath_nxt_le (u : Word) :
    ∀ (st : StState) (c : Nat), st.nxt ≤ (completePath u st c).1.nxt := by
  induction u with
  | nil => intro st c; exact le_refl _
  | cons x w ih =>
    intro st c
    cases hl : lookupEdge st.edges c x with
    | some d =>
      rw [completePath_cons_some w hl]
      exact ih st d
    | none =>
      rw [completePath_cons_none w hl]
      exact le_trans (Nat.le_succ _)
        (ih { st with
              nodes := st.nodes ++ [st.nxt],
              edges := st.edges ++ [(c, x, st.nxt)],
              nxt := st.nxt + 1 } st.nxt)

theorem completePath_of_eq (u : Word) :
    ∀ (st : StState) (c : Nat), (completePath u st c).1 = st →
    follow st.edges c u = some (completePath u st c).2 := by
  induction u with
  | nil => intro st c _; rfl
  | cons x w ih =>
    intro st c h
    cases hl : lookupEdge st.edges c x with
    | some d =>
      rw [completePath_cons_some w hl] at h ⊢
      simp only [follow, hl]
      exact ih st d h
    | none =>
      rw [completePath_cons_none w hl] at h
      exfalso
      have hle := completePath_nxt_le w { st with
        nodes := st.nodes ++ [st.nxt],
        edges := st.edges ++ [(c, x, st.nxt)],
        nxt := st.nxt + 1 } st.nxt
      rw [h] at hle
      simp only at hle
      omega

theorem completePath_spec (p : Present) (w : Word) (u : Word) :
    ∀ (st : StState) (c : Nat) (eta : Nat → Word),
    InvF p w eta st → NoDupKeys st.edges → c ∈ st.nodes →
    (∀ l ∈ u, l ∈ p.alphabet) →
    ∃ eta2,
      InvF p w eta2 (completePath u st c).1 ∧
      NoDupKeys (completePath u st c).1.edges ∧
      (∀ n, n < st.nxt → eta2 n = eta n) ∧
      EqP p (eta2 (completePath u st c).2) (eta c ++ u) ∧
      (completePath u st c).2 ∈ (completePath u st c).1.nodes ∧
      st.nxt ≤ (completePath u st c).1.nxt ∧
      ((completePath u st c).1 = st ∨ st.nxt < (completePath u st c).1.nxt) ∧
      (∀ e ∈ st.edges, e ∈ (completePath u st c).1.edges) ∧
      (∀ n ∈ st.nodes, n ∈ (completePath u st c).1.nodes) := by
  induction u with
  | nil =>
    intro st c eta hinv hnd hc _
    refine ⟨eta, hinv, hnd, fun n _ => rfl, ?_, hc, le_refl _, Or.inl rfl,
      fun e he => he, fun n hn => hn⟩
    simp only [completePath]
    simpa using EqP.refl (p := p) (eta c)
  | cons x v ih =>
    intro st c eta hinv hnd hc hu
    have hx : x ∈ p.alphabet := hu x (by simp)
    have hv : ∀ l ∈ v, l ∈ p.alphabet := fun l hl => hu l (by simp [hl])
    cases hl : lookupEdge st.edges c x with
    | some d =>
      rw [completePath_cons_some v hl]
      have hdmem : d ∈ st.nodes := (hinv.edgesMem _ (lookupEdge_mem hl)).2
      obtain ⟨eta2, h1, h2, h3, h4, h5, h6, h7, h8, h9⟩ :=
        ih st d eta hinv hnd hdmem hv
      refine ⟨eta2, h1, h2, h3, ?_, h5, h6, h7, h8, h9⟩
      have hedge : EqP p (eta c ++ [x]) (eta d) :=
        hinv.etaEdges _ (lookupEdge_mem hl)
      have hstep : EqP p ((eta c ++ [x]) ++ v) (eta d ++ v) :=
        eqp_append_right v hedge
      have : EqP p (eta2 (completePath v st d).2) ((eta c ++ [x]) ++ v) :=
        EqP.trans h4 (EqP.symm hstep)
      simpa [List.append_assoc] using this
    | none =>
      set st2 : StState := { st with
        nodes := st.nodes ++ [st.nxt],
        edges := st.edges ++ [(c, x, st.nxt)],
        nxt := st.nxt + 1 } with hst2
      rw [completePath_cons_none v hl, ← hst2]
      set eta1 : Nat → Word := Function.update eta st.nxt (eta c ++ [x]) with heta1
      have hclt : c < st.nxt := hinv.nodesLt c hc
      have hinv2 : InvF p w eta1 st2 := by
        refine ⟨?_, ?_, ?_, ?_, ?_, ?_, ?_, ?_, ?_, ?_, ?_⟩
        · exact hinv.nodesNodup.append (by simp)
            (fun n hn hn2 => by
              have := hinv.nodesLt n hn
              simp only [List.mem_singleton] at hn2
              omega)
        · intro n hn
          rcases List.mem_append.mp hn with h | h
          · have := hinv.nodesLt n h
            simp only [hst2]
            omega
          · simp only [List.mem_singleton] at h
            simp only [hst2]
            omega
        · exact List.mem_append_left _ hinv.zeroMem
        · exact List.mem_append_left _ hinv.acceptMem
        · intro e he
          rcases List.mem_append.mp he with h | h
          · exact ⟨List.mem_append_left _ (hinv.edgesMem e h).1,
              List.mem_append_left _ (hinv.edgesMem e h).2⟩
          · simp only [List.mem_singleton] at h
            subst h
            exact ⟨List.mem_append_left _ hc, List.mem_append_right _ (by simp)⟩
        · refine hinv.edgesNodup.append (by simp) ?_
          intro e he he2
          simp only [List.mem_singleton] at he2
          subst he2
          have := (hinv.edgesMem _ he).2
          have := hinv.nodesLt _ this
          simp only at this
          omega
        · intro e he
          rcases List.mem_append.mp he with h | h
          · exact hinv.labelsOk e h
          · simp only [List.mem_singleton] at h
            subst h
            exact hx
        · exact pathTo_mono (fun e he => List.mem_append_left _ he) hinv.wordPath
        · rw [heta1, Function.update_noteq (by omega)]
          exact hinv.etaZero
        · rw [heta1, Function.update_noteq]
          · exact hinv.etaAccept
          · show st.accept ≠ st.nxt
            have := hinv.nodesLt _ hinv.acceptMem
            omega
        · intro e he
          rcases List.mem_append.mp he with h | h
          · have h1 := hinv.nodesLt _ (hinv.edgesMem e h).1
            have h2 := hinv.nodesLt _ (hinv.edgesMem e h).2
            rw [heta1, Function.update_noteq (by omega),
              Function.update_noteq (by omega)]
            exact hinv.etaEdges e h
          · simp only [List.mem_singleton] at h
            subst h
            simp only [heta1]
            rw [Function.update_noteq (by omega), Function.update_same]
            exact EqP.refl _
      have hnd2 : NoDupKeys st2.edges := by
        intro c2 x2 t2 ht2
        rcases List.mem_append.mp ht2 with h | h
        · exact lookupEdge_append_some (hnd _ _ _ h)
        · simp only [List.mem_singleton, Prod.mk.injEq] at h
          obtain ⟨rfl, rfl, rfl⟩ := h
          rw [lookupEdge_append_none hl]
          simp [lookupEdge]
      have hnmem : st.nxt ∈ st2.nodes := List.mem_append_right _ (by simp)
      obtain ⟨eta2, h1, h2, h3, h4, h5, h6, h7, h8, h9⟩ :=
        ih st2 st.nxt eta1 hinv2 hnd2 hnmem hv
      refine ⟨eta2, h1, h2, ?_, ?_, h5, ?_, ?_, ?_, ?_⟩
      · intro n hn
        rw [h3 n (by simp only [hst2]; omega), heta1,
          Function.update_noteq (by omega)]
      · have heq : eta1 st.nxt = eta c ++ [x] := by
          rw [heta1, Function.update_same]
        rw [heq] at h4
        have : EqP p (eta2 (completePath v st2 st.nxt).2) ((eta c ++ [x]) ++ v) := h4
        simpa [List.append_assoc] using this
      · have h62 : st2.nxt = st.nxt + 1 := rfl
        omega
      · right
        have h62 : st2.nxt = st.nxt + 1 := rfl
        omega
      · intro e he
        exact h8 e (List.mem_append_left _ he)
      · intro n hn
        exact h9 n (List.mem_append_left _ hn)

/-! ## Merging and the coincidence drain -/

theorem dedup_length_lt {α : Type} [DecidableEq α] {l : List α}
    (h : ¬ l.Nodup) : l.dedup.length < l.length := by
  rcases Nat.lt_or_ge l.dedup.length l.length with hl | hl
  · exact hl
  · exfalso
    have hsub := List.dedup_sublist l
    have heq := hsub.eq_of_length (le_antisymm hsub.length_le hl)
    exact h (heq ▸ List.nodup_dedup l)

theorem relNode_self (a b : Nat) : relNode a b b = a := by
  simp [relNode]

theorem relNode_of_ne {a b n : Nat} (h : n ≠ b) : relNode a b n = n := by
  simp [relNode, h]

theorem pathTo_relabel {es : List Edge} {a b : Nat} :
    ∀ {c u d}, PathTo es c u d →
    PathTo ((es.map (relEdge a b)).dedup) (relNode a b c) u (relNode a b d) := by
  intro c u d h
  induction h with
  | nil => exact PathTo.nil _
  | cons hmem _ ih =>
    refine PathTo.cons ?_ ih
    rw [List.mem_dedup]
    exact List.mem_map_of_mem _ hmem

theorem mergePair_invF {p : Present} {w : Word} {eta : Nat → Word}
    {st : StState} {a b : Nat}
    (hinv : InvF p w eta st) (hab : a < b) (ha : a ∈ st.nodes) (hb : b ∈ st.nodes)
    (heq : EqP p (eta a) (eta b)) :
    InvF p w eta (mergePair a b st) ∧
    (mergePair a b st).nodes.length < st.nodes.length ∧
    (mergePair a b st).nxt = st.nxt := by
  have hbne : b ≠ 0 := by omega
  have hzero : relNode a b 0 = 0 := relNode_of_ne (fun h => hbne h.symm)
  have hrel : ∀ n, EqP p (eta (relNode a b n)) (eta n) := by
    intro n
    by_cases hn : n = b
    · subst hn
      rw [relNode_self]
      exact heq
    · rw [relNode_of_ne hn]
      exact EqP.refl _
  have hrelmem : ∀ n ∈ st.nodes, relNode a b n ∈ (mergePair a b st).nodes := by
    intro n hn
    simp only [mergePair, List.mem_dedup]
    exact List.mem_map_of_mem _ hn
  refine ⟨⟨?_, ?_, ?_, ?_, ?_, ?_, ?_, ?_, ?_, ?_, ?_⟩, ?_, rfl⟩
  · exact List.nodup_dedup _
  · intro n hn
    simp only [mergePair, List.mem_dedup, List.mem_map] at hn
    obtain ⟨m, hm, rfl⟩ := hn
    have hmlt := hinv.nodesLt m hm
    have halt := hinv.nodesLt a ha
    simp only [mergePair]
    unfold relNode
    split <;> omega
  · have := hrelmem 0 hinv.zeroMem
    rwa [hzero] at this
  · exact hrelmem _ hinv.acceptMem
  · intro e he
    simp only [mergePair, List.mem_dedup, List.mem_map] at he
    obtain ⟨⟨c, x, t⟩, hm, rfl⟩ := he
    exact ⟨hrelmem _ (hinv.edgesMem _ hm).1, hrelmem _ (hinv.edgesMem _ hm).2⟩
  · exact List.nodup_dedup _
  · intro e he
    simp only [mergePair, List.mem_dedup, List.mem_map] at he
    obtain ⟨⟨c, x, t⟩, hm, rfl⟩ := he
    exact hinv.labelsOk (c, x, t) hm
  · have := pathTo_relabel (a := a) (b := b) hinv.wordPath
    rw [hzero] at this
    exact this
  · exact hinv.etaZero
  · exact EqP.trans (hrel st.accept) hinv.etaAccept
  · intro e he
    simp only [mergePair, List.mem_dedup, List.mem_map] at he
    obtain ⟨⟨c, x, t⟩, hm, rfl⟩ := he
    have h1 : EqP p (eta (relNode a b c) ++ [x]) (eta c ++ [x]) :=
      eqp_append_right _ (hrel c)
    have h2 : EqP p (eta c ++ [x]) (eta t) := hinv.etaEdges _ hm
    exact EqP.trans (EqP.trans h1 h2) (EqP.symm (hrel t))
  · have hmap : ¬ (st.nodes.map (relNode a b)).Nodup := by
      intro hnd
      have h2 := List.inj_on_of_nodup_map hnd ha hb
      rw [relNode_of_ne (show a ≠ b by omega), relNode_self] at h2
      exact absurd (h2 rfl) (by omega)
    have := dedup_length_lt hmap
    simpa [mergePair] using this

theorem findConflict_some {es : List Edge} {a b : Nat}
    (h : findConflict es = some (a, b)) :
    ∃ c x t u, (c, x, t) ∈ es ∧ (c, x, u) ∈ es ∧ t ≠ u ∧
      a = min t u ∧ b = max t u := by
  induction es with
  | nil => simp [findConflict] at h
  | cons e rest ih =>
    obtain ⟨c0, x0, t0⟩ := e
    simp only [findConflict] at h
    split at h
    · rename_i u0 hl
      by_cases ht : t0 = u0
      · rw [if_pos ht] at h
        obtain ⟨c, x, t, u, h1, h2, h3, h4, h5⟩ := ih h
        exact ⟨c, x, t, u, List.mem_cons_of_mem _ h1,
          List.mem_cons_of_mem _ h2, h3, h4, h5⟩
      · rw [if_neg ht] at h
        injection h with h
        simp only [Prod.mk.injEq] at h
        exact ⟨c0, x0, t0, u0, List.mem_cons_self _ _,
          List.mem_cons_of_mem _ (lookupEdge_mem hl), ht, h.1.symm, h.2.symm⟩
    · rename_i hl
      obtain ⟨c, x, t, u, h1, h2, h3, h4, h5⟩ := ih h
      exact ⟨c, x, t, u, List.mem_cons_of_mem _ h1,
        List.mem_cons_of_mem _ h2, h3, h4, h5⟩

theorem findConflict_none_noDupKeys {es : List Edge} (hnd : es.Nodup)
    (h : findConflict es = none) : NoDupKeys es := by
  induction es with
  | nil => intro c x t ht; simp at ht
  | cons e rest ih =>
    obtain ⟨c0, x0, t0⟩ := e
    simp only [findConflict] at h
    split at h
    · rename_i u0 hl
      by_cases ht : t0 = u0
      · subst ht
        exact absurd (lookupEdge_mem hl) (List.nodup_cons.mp hnd).1
      · rw [if_neg ht] at h
        exact absurd h (by simp)
    · rename_i hl
      have ihh := ih (List.nodup_cons.mp hnd).2 h
      intro c x t ht
      rcases List.mem_cons.mp ht with he | he
      · simp only [Prod.mk.injEq] at he
        obtain ⟨rfl, rfl, rfl⟩ := he
        simp [lookupEdge]
      · simp only [lookupEdge]
        by_cases hc : c0 = c ∧ x0 = x
        · obtain ⟨rfl, rfl⟩ := hc
          exact absurd he (lookupEdge_none hl t)
        · rw [if_neg hc]
          exact ihh c x t he

theorem resolve_succ_none {f : Nat} {st : StState}
    (hc : findConflict st.edges = none) : resolve (f + 1) st = st := by
  simp [resolve, hc]

theorem resolve_succ_some {f : Nat} {st : StState} {a b : Nat}
    (hc : findConflict st.edges = some (a, b)) :
    resolve (f + 1) st = resolve f (mergePair a b st) := by
  simp [resolve, hc]

theorem relNode_minmax (t u : Nat) (htu : t ≠ u) :
    relNode (min t u) (max t u) t = min t u ∧
    relNode (min t u) (max t u) u = min t u := by
  rcases Nat.le_total t u with hle | hle
  · rw [Nat.min_eq_left hle, Nat.max_eq_right hle]
    exact ⟨relNode_of_ne htu, relNode_self t u⟩
  · rw [Nat.min_eq_right hle, Nat.max_eq_left hle]
    exact ⟨relNode_self u t, relNode_of_ne (Ne.symm htu)⟩

theorem conflict_merge_edges_lt {es : List Edge} {c x t u : Nat}
    (h1 : (c, x, t) ∈ es) (h2 : (c, x, u) ∈ es) (htu : t ≠ u) :
    ((es.map (relEdge (min t u) (max t u))).dedup).length < es.length := by
  have hne : (c, x, t) ≠ (c, x, u) := by
    simp only [Ne, Prod.mk.injEq]
    rintro ⟨-, -, h⟩
    exact htu h
  have hmap : ¬ (es.map (relEdge (min t u) (max t u))).Nodup := by
    intro hnd
    have hinj := List.inj_on_of_nodup_map hnd h1 h2
    apply hne
    apply hinj
    show relEdge (min t u) (max t u) (c, x, t)
      = relEdge (min t u) (max t u) (c, x, u)
    obtain ⟨hq1, hq2⟩ := relNode_minmax t u htu
    simp [relEdge, hq1, hq2]
  have := dedup_length_lt hmap
  have hlen : (es.map (relEdge (min t u) (max t u))).length = es.length :=
    List.length_map _ _
  omega

theorem minmax_mem {t u : Nat} {l : List Nat} (ht : t ∈ l) (hu : u ∈ l) :
    min t u ∈ l ∧ max t u ∈ l := by
  rcases Nat.le_total t u with h | h
  · rw [Nat.min_eq_left h, Nat.max_eq_right h]
    exact ⟨ht, hu⟩
  · rw [Nat.min_eq_right h, Nat.max_eq_left h]
    exact ⟨hu, ht⟩

theorem eqp_minmax {p : Present} {eta : Nat → Word} {t u : Nat}
    (h : EqP p (eta t) (eta u)) :
    EqP p (eta (min t u)) (eta (max t u)) := by
  rcases Nat.le_total t u with hle | hle
  · rwa [Nat.min_eq_left hle, Nat.max_eq_right hle]
  · rw [Nat.min_eq_right hle, Nat.max_eq_left hle]
    exact EqP.symm h

theorem resolve_spec {p : Present} {w : Word} :
    ∀ (fuel : Nat) (st : StState) (eta : Nat → Word), InvF p w eta st →
    InvF p w eta (resolve fuel st) ∧
    (resolve fuel st).nxt = st.nxt ∧
    (resolve fuel st).nodes.length ≤ st.nodes.length ∧
    (resolve fuel st).edges.length ≤ st.edges.length ∧
    (st.edges.length < fuel → findConflict (resolve fuel st).edges = none) := by
  intro fuel
  induction fuel with
  | zero =>
    intro st eta hinv
    exact ⟨hinv, rfl, le_refl _, le_refl _, fun h => absurd h (by omega)⟩
  | succ f ih =>
    intro st eta hinv
    cases hc : findConflict st.edges with
    | none =>
      rw [resolve_succ_none hc]
      exact ⟨hinv, rfl, le_refl _, le_refl _, fun _ => hc⟩
    | some ab =>
      obtain ⟨a, b⟩ := ab
      rw [resolve_succ_some hc]
      obtain ⟨c, x, t, u, hm1, hm2, htu, ha, hb⟩ := findConflict_some hc
      subst ha
      subst hb
      have htm : t ∈ st.nodes := (hinv.edgesMem _ hm1).2
      have hum : u ∈ st.nodes := (hinv.edgesMem _ hm2).2
      have hlt : min t u < max t u := min_lt_max.mpr htu
      obtain ⟨hamem, hbmem⟩ := minmax_mem htm hum
      have heq : EqP p (eta (min t u)) (eta (max t u)) := by
        apply eqp_minmax
        exact EqP.trans (EqP.symm (hinv.etaEdges _ hm1)) (hinv.etaEdges _ hm2)
      obtain ⟨hinv2, hlen2, hnxt2⟩ := mergePair_invF hinv hlt hamem hbmem heq
      obtain ⟨ih1, ih2, ih3, ih4, ih5⟩ :=
        ih (mergePair (min t u) (max t u) st) eta hinv2
      have hedlt : (mergePair (min t u) (max t u) st).edges.length
          < st.edges.length := conflict_merge_edges_lt hm1 hm2 htu
      refine ⟨ih1, by omega, by omega, by omega, ?_⟩
      intro hfuel
      exact ih5 (by omega)

theorem coincide_spec {p : Present} {w : Word} {eta : Nat → Word} {st : StState}
    {d1 d2 : Nat} (hinv : InvF p w eta st) (h1 : d1 ∈ st.nodes)
    (h2 : d2 ∈ st.nodes) (heq : EqP p (eta d1) (eta d2)) :
    InvF p w eta (coincide st d1 d2) ∧
    (coincide st d1 d2).nxt = st.nxt ∧
    (coincide st d1 d2).nodes.length ≤ st.nodes.length ∧
    (d1 = d2 → coincide st d1 d2 = st) ∧
    (d1 ≠ d2 → (coincide st d1 d2).nodes.length < st.nodes.length) ∧
    (d1 ≠ d2 → findConflict (coincide st d1 d2).edges = none) := by
  by_cases hd : d1 = d2
  · unfold coincide
    rw [if_pos hd]
    exact ⟨hinv, rfl, le_refl _, fun _ => rfl, fun h => absurd hd h,
      fun h => absurd hd h⟩
  · unfold coincide
    rw [if_neg hd]
    have hlt : min d1 d2 < max d1 d2 := min_lt_max.mpr hd
    obtain ⟨hamem, hbmem⟩ := minmax_mem h1 h2
    obtain ⟨hinv2, hlen2, hnxt2⟩ :=
      mergePair_invF hinv hlt hamem hbmem (eqp_minmax heq)
    obtain ⟨r1, r2, r3, r4, r5⟩ := resolve_spec (st.edges.length + 1)
      (mergePair (min d1 d2) (max d1 d2) st) eta hinv2
    have hmlen : (mergePair (min d1 d2) (max d1 d2) st).edges.length
        ≤ st.edges.length := by
      have hsub := (List.dedup_sublist
        (st.edges.map (relEdge (min d1 d2) (max d1 d2)))).length_le
      have hmap := List.length_map st.edges (relEdge (min d1 d2) (max d1 d2))
      simp only [mergePair]
      omega
    exact ⟨r1, by omega, by omega, fun h => absurd h hd, fun _ => by omega,
      fun _ => r5 (by omega)⟩

/-! ## Rule application -/

theorem applyAt_spec {p : Present} {w : Word} {st : StState} {c : Nat}
    {u v : Word} (hInv : InvE p w st) (hc : c ∈ st.nodes)
    (hrule : EqP p u v)
    (hu : ∀ l ∈ u, l ∈ p.alphabet) (hv : ∀ l ∈ v, l ∈ p.alphabet) :
    InvE p w (applyAt st c u v) ∧ StepM st (applyAt st c u v) ∧
    (applyAt st c u v = st →
      ∃ d, follow st.edges c u = some d ∧ follow st.edges c v = some d) := by
  obtain ⟨⟨eta, hinv⟩, hnd⟩ := hInv
  obtain ⟨eta2, a1, a2, a3, a4, a5, a6, a7, a8, a9⟩ :=
    completePath_spec p w u st c eta hinv hnd hc hu
  obtain ⟨eta3, b1, b2, b3, b4, b5, b6, b7, b8, b9⟩ :=
    completePath_spec p w v (completePath u st c).1 c eta2 a1 a2 (a9 c hc) hv
  have hclt : c < st.nxt := hinv.nodesLt c hc
  have hd1lt : (completePath u st c).2 < (completePath u st c).1.nxt :=
    a1.nodesLt _ a5
  have heq13 : EqP p (eta3 (completePath u st c).2)
      (eta3 (completePath v (completePath u st c).1 c).2) := by
    have e1 : eta3 (completePath u st c).2 = eta2 (completePath u st c).2 :=
      b3 _ hd1lt
    have e2 : eta2 c = eta c := a3 c hclt
    have h1 : EqP p (eta3 (completePath u st c).2) (eta c ++ u) := by
      rw [e1]
      exact a4
    have h2 : EqP p (eta c ++ u) (eta c ++ v) := eqp_append_left _ hrule
    have h3 : EqP p (eta c ++ v)
        (eta3 (completePath v (completePath u st c).1 c).2) := by
      rw [← e2]
      exact EqP.symm b4
    exact EqP.trans (EqP.trans h1 h2) h3
  obtain ⟨c1, c2, c3, c4, c5, c6⟩ := coincide_spec b1 (b9 _ a5) b5 heq13
  have happ : applyAt st c u v
      = coincide (completePath v (completePath u st c).1 c).1
          (completePath u st c).2 (completePath v (completePath u st c).1 c).2 :=
    rfl
  rw [happ]
  refine ⟨?_, ?_, ?_⟩
  · refine ⟨⟨eta3, c1⟩, ?_⟩
    by_cases hd : (completePath u st c).2
        = (completePath v (completePath u st c).1 c).2
    · rw [c4 hd]
      exact b2
    · exact findConflict_none_noDupKeys c1.edgesNodup (c6 hd)
  · by_cases hd : (completePath u st c).2
      = (completePath v (completePath u st c).1 c).2
    · have hfin := c4 hd
      rcases a7 with ha | ha
      · rcases b7 with hb | hb
        · left
          exact hfin.trans (hb.trans ha)
        · right
          left
          have ha2 : (completePath u st c).1.nxt = st.nxt := by rw [ha]
          have hfin2 : (coincide (completePath v (completePath u st c).1 c).1
              (completePath u st c).2
              (completePath v (completePath u st c).1 c).2).nxt
              = (completePath v (completePath u st c).1 c).1.nxt := by rw [hfin]
          omega
      · right
        left
        have h6b := b6
        omega
    · have h5 := c5 hd
      rcases a7 with ha | ha
      · rcases b7 with hb | hb
        · right
          right
          have e1 : (completePath v (completePath u st c).1 c).1 = st :=
            hb.trans ha
          have e2 : (completePath v (completePath u st c).1 c).1.nodes.length
              = st.nodes.length := by rw [e1]
          have e3 : (completePath v (completePath u st c).1 c).1.nxt
              = st.nxt := by rw [e1]
          exact ⟨by omega, by omega⟩
        · right
          left
          have ha2 : (completePath u st c).1.nxt = st.nxt := by rw [ha]
          omega
      · right
        left
        omega
  · intro hfix
    have hnxtfin : (coincide (completePath v (completePath u st c).1 c).1
        (completePath u st c).2
        (completePath v (completePath u st c).1 c).2).nxt = st.nxt := by
      rw [hfix]
    have h1 : (completePath u st c).1 = st := by
      rcases a7 with h | h
      · exact h
      · omega
    have h2 : (completePath v (completePath u st c).1 c).1
        = (completePath u st c).1 := by
      rcases b7 with h | h
      · exact h
      · have ha2 : (completePath u st c).1.nxt = st.nxt := by rw [h1]
        omega
    by_cases hd : (completePath u st c).2
        = (completePath v (completePath u st c).1 c).2
    · have hf1 : follow st.edges c u = some (completePath u st c).2 :=
        completePath_of_eq u st c h1
      have hf2 := completePath_of_eq v (completePath u st c).1 c h2
      have hedge : (completePath u st c).1.edges = st.edges := by rw [h1]
      rw [hedge] at hf2
      refine ⟨(completePath u st c).2, hf1, ?_⟩
      rw [hd]
      exact hf2
    · exfalso
      have h5 := c5 hd
      rw [hfix] at h5
      have e2 : (completePath v (completePath u st c).1 c).1.nodes.length
          = st.nodes.length := by rw [h2, h1]
      omega

theorem applyRule_spec {p : Present} {w : Word} {st : StState} {c : Nat}
    {r : Word × Word} (hInv : InvE p w st) (hc : c ∈ st.nodes)
    (hr : r ∈ toPairs p.rules) (hval : ValidRules p) :
    InvE p w (applyRule st c r) ∧ StepM st (applyRule st c r) ∧
    (applyRule st c r = st →
      ∃ d, follow st.edges c r.1 = some d ∧ follow st.edges c r.2 = some d) := by
  obtain ⟨u, v⟩ := r
  have hmem := toPairs_mem hr
  have hu : ∀ l ∈ u, l ∈ p.alphabet := hval _ hmem.1
  have hv : ∀ l ∈ v, l ∈ p.alphabet := hval _ hmem.2
  have heq : EqP p u v := eqp_of_rule hr
  unfold applyRule
  split_ifs with h1 h2 h3
  · exact applyAt_spec hInv hc heq hu hv
  · obtain ⟨q1, q2, q3⟩ := applyAt_spec hInv hc (EqP.symm heq) hv hu
    exact ⟨q1, q2, fun hfix => (q3 hfix).imp (fun d hd => ⟨hd.2, hd.1⟩)⟩
  · obtain ⟨q1, q2, q3⟩ := applyAt_spec hInv hc (EqP.symm heq) hv hu
    exact ⟨q1, q2, fun hfix => (q3 hfix).imp (fun d hd => ⟨hd.2, hd.1⟩)⟩
  · exact applyAt_spec hInv hc heq hu hv

theorem stepM_trans {a b c : StState} (h1 : StepM a b) (h2 : StepM b c) :
    StepM a c := by
  rcases h1 with rfl | h1 | h1
  · exact h2
  · rcases h2 with rfl | h2 | h2
    · right; left; exact h1
    · right; left; omega
    · right; left; omega
  · rcases h2 with rfl | h2 | h2
    · right; right; exact h1
    · right; left; omega
    · right; right; constructor <;> omega

theorem stepM_antisymm {a b : StState} (h1 : StepM a b) (h2 : StepM b a) :
    b = a := by
  rcases h1 with rfl | h1 | h1
  · rfl
  · rcases h2 with rfl | h2 | h2
    · rfl
    · omega
    · omega
  · rcases h2 with h2 | h2 | h2
    · exact h2.symm
    · omega
    · omega

theorem applyRules_spec {p : Present} {w : Word} (hval : ValidRules p) :
    ∀ (rs : List (Word × Word)), (∀ r ∈ rs, r ∈ toPairs p.rules) →
    ∀ (st : StState) (c : Nat), InvE p w st →
    InvE p w (applyRules rs st c) ∧ StepM st (applyRules rs st c) ∧
    (applyRules rs st c = st → c ∈ st.nodes → ∀ r ∈ rs, applyRule st c r = st) := by
  intro rs
  induction rs with
  | nil =>
    intro _ st c h
    exact ⟨h, Or.inl rfl, fun _ _ r hr => absurd hr (by simp)⟩
  | cons r rest ih =>
    intro hrs st c hInv
    have hstep : applyRules (r :: rest) st c
        = applyRules rest (if c ∈ st.nodes then applyRule st c r else st) c := by
      simp only [applyRules, List.foldl_cons]
    rw [hstep]
    have hrs2 : ∀ r2 ∈ rest, r2 ∈ toPairs p.rules :=
      fun r2 hr2 => hrs r2 (by simp [hr2])
    by_cases hc : c ∈ st.nodes
    · rw [if_pos hc]
      obtain ⟨h1, h2, -⟩ := applyRule_spec hInv hc (hrs r (by simp)) hval
      obtain ⟨ih1, ih2, ih3⟩ := ih hrs2 (applyRule st c r) c h1
      refine ⟨ih1, stepM_trans h2 ih2, ?_⟩
      intro hfix _ r2 hr2
      have hb : applyRule st c r = st := by
        have ih2b := ih2
        rw [hfix] at ih2b
        exact stepM_antisymm h2 ih2b
      rcases List.mem_cons.mp hr2 with rfl | hr2
      · exact hb
      · rw [hb] at ih3 hfix
        exact ih3 hfix hc r2 hr2
    · rw [if_neg hc]
      obtain ⟨ih1, ih2, ih3⟩ := ih hrs2 st c hInv
      exact ⟨ih1, ih2, fun hfix hc2 => absurd hc2 hc⟩

/-! ## The pass and the outer loop -/

theorem leastActiveGE_none {st : StState} {k : Nat}
    (h : leastActiveGE st k = none) : ∀ n ∈ st.nodes, n < k := by
  unfold leastActiveGE at h
  rw [List.min?_eq_none_iff] at h
  intro n hn
  by_contra hlt
  have hmem : n ∈ st.nodes.filter (fun n => decide (k ≤ n)) := by
    rw [List.mem_filter]
    exact ⟨hn, by simpa using Nat.le_of_not_lt hlt⟩
  rw [h] at hmem
  simp at hmem

theorem leastActiveGE_some {st : StState} {k c : Nat}
    (h : leastActiveGE st k = some c) :
    c ∈ st.nodes ∧ k ≤ c ∧ ∀ n ∈ st.nodes, k ≤ n → c ≤ n := by
  unfold leastActiveGE at h
  have hmem := List.min?_mem (fun a b => by omega) h
  have hmf := List.mem_filter.mp hmem
  have hle := (List.le_min?_iff (fun a b c => by omega) h).mp (le_refl c)
  refine ⟨hmf.1, by simpa using hmf.2, ?_⟩
  intro n hn hkn
  exact hle n (List.mem_filter.mpr ⟨hn, by simpa using hkn⟩)

theorem passFrom_spec {p : Present} {w : Word} (hval : ValidRules p) :
    ∀ (fuel : Nat) (st : StState) (k : Nat) (out : StState),
    passFrom (toPairs p.rules) fuel st k = some out → InvE p w st →
    InvE p w out ∧ StepM st out := by
  intro fuel
  induction fuel with
  | zero =>
    intro st k out h _
    simp [passFrom] at h
  | succ f ih =>
    intro st k out h hInv
    cases hc : leastActiveGE st k with
    | none =>
      simp only [passFrom, hc] at h
      injection h with h
      subst h
      exact ⟨hInv, Or.inl rfl⟩
    | some c =>
      simp only [passFrom, hc] at h
      obtain ⟨a1, a2, -⟩ :=
        applyRules_spec hval (toPairs p.rules) (fun r hr => hr) st c hInv
      obtain ⟨b1, b2⟩ := ih (applyRules (toPairs p.rules) st c) (c + 1) out h a1
      exact ⟨b1, stepM_trans a2 b2⟩

theorem passFrom_fix {p : Present} {w : Word} (hval : ValidRules p) :
    ∀ (fuel : Nat) (st : StState) (k : Nat),
    passFrom (toPairs p.rules) fuel st k = some st → InvE p w st →
    ∀ c ∈ st.nodes, k ≤ c → ∀ r ∈ toPairs p.rules, applyRule st c r = st := by
  intro fuel
  induction fuel with
  | zero =>
    intro st k h
    simp [passFrom] at h
  | succ f ih =>
    intro st k h hInv c hc hkc r hr
    cases hl : leastActiveGE st k with
    | none => exact absurd (leastActiveGE_none hl c hc) (by omega)
    | some c0 =>
      simp only [passFrom, hl] at h
      obtain ⟨hc0mem, hkc0, hc0min⟩ := leastActiveGE_some hl
      obtain ⟨a1, a2, a3⟩ :=
        applyRules_spec hval (toPairs p.rules) (fun r2 hr2 => hr2) st c0 hInv
      obtain ⟨b1, b2⟩ := passFrom_spec hval f
        (applyRules (toPairs p.rules) st c0) (c0 + 1) st h a1
      have hfix : applyRules (toPairs p.rules) st c0 = st := stepM_antisymm a2 b2
      rw [hfix] at h
      rcases Nat.lt_or_ge c (c0 + 1) with hlt | hge
      · have hle := hc0min c hc hkc
        have hceq : c = c0 := by omega
        subst hceq
        exact a3 hfix hc r hr
      · exact ih st (c0 + 1) h hInv c hc hge r hr

theorem runAux_spec {p : Present} {w : Word} (hval : ValidRules p) :
    ∀ (fuel : Nat) (st : StState) (out : StState),
    runAux (toPairs p.rules) fuel st = some out → InvE p w st →
    InvE p w out ∧
    (∀ c ∈ out.nodes, ∀ r ∈ toPairs p.rules, applyRule out c r = out) := by
  intro fuel
  induction fuel with
  | zero =>
    intro st out h
    simp [runAux] at h
  | succ f ih =>
    intro st out h hInv
    cases hp : passFrom (toPairs p.rules) (f + 1) st 0 with
    | none =>
      simp only [runAux, hp] at h
      exact Option.noConfusion h
    | some st2 =>
      simp only [runAux, hp] at h
      by_cases he : st2 = st
      · rw [if_pos he] at h
        injection h with h
        subst h
        subst he
        refine ⟨hInv, ?_⟩
        intro c hc r hr
        exact passFrom_fix hval (f + 1) st2 0 hp hInv c hc (by omega) r hr
      · rw [if_neg he] at h
        obtain ⟨a1, -⟩ := passFrom_spec hval (f + 1) st 0 st2 hp hInv
        exact ih st2 out h a1

theorem closed_of_runAux {p : Present} {w : Word} (hval : ValidRules p)
    {fuel : Nat} {st out : StState}
    (h : runAux (toPairs p.rules) fuel st = some out) (hInv : InvE p w st) :
    InvE p w out ∧ Closed (toPairs p.rules) out := by
  obtain ⟨h1, h2⟩ := runAux_spec hval fuel st out h hInv
  refine ⟨h1, ?_⟩
  intro c hc r hr
  obtain ⟨-, -, q3⟩ := applyRule_spec h1 hc hr hval
  exact q3 (h2 c hc r hr)

/-! ## Soundness and completeness at a saturated state -/

theorem pathTo_eta {p : Present} {eta : Nat → Word} {es : List Edge}
    (hedges : ∀ e ∈ es, EqP p (eta e.1 ++ [e.2.1]) (eta e.2.2)) :
    ∀ {c u d}, PathTo es c u d → EqP p (eta c ++ u) (eta d) := by
  intro c u d h
  induction h with
  | nil =>
    rename_i c2
    simpa using EqP.refl (p := p) (eta c2)
  | @cons c2 d2 e2 x2 w2 hmem hp ih =>
    have h1 : EqP p (eta c2 ++ [x2]) (eta d2) := hedges _ hmem
    have h2 : EqP p ((eta c2 ++ [x2]) ++ w2) (eta d2 ++ w2) := eqp_append_right _ h1
    have h3 := EqP.trans h2 ih
    simpa [List.append_assoc] using h3

theorem sound_accept {p : Present} {w : Word} {eta : Nat → Word} {st : StState}
    (hinv : InvF p w eta st) {z : Word}
    (hacc : follow st.edges 0 z = some st.accept) : EqP p z w := by
  have hp := follow_toPathTo hacc
  have h1 := pathTo_eta hinv.etaEdges hp
  rw [hinv.etaZero] at h1
  simp only [List.nil_append] at h1
  exact EqP.trans h1 hinv.etaAccept

theorem closed_congr {p : Present} {st : StState}
    (hmem : ∀ e ∈ st.edges, e.1 ∈ st.nodes ∧ e.2.2 ∈ st.nodes)
    (hzero : 0 ∈ st.nodes)
    (hclosed : Closed (toPairs p.rules) st) {z z2 : Word}
    (h : EqP p z z2) : follow st.edges 0 z = follow st.edges 0 z2 := by
  induction h with
  | refl u => rfl
  | symm _ ih => exact ih.symm
  | trans _ _ ih1 ih2 => exact ih1.trans ih2
  | @rel x y u v hm =>
    rw [follow_append st.edges (x ++ u) 0 y, follow_append st.edges x 0 u,
      follow_append st.edges (x ++ v) 0 y, follow_append st.edges x 0 v]
    cases hx : follow st.edges 0 x with
    | none => simp
    | some c1 =>
      have hc1 : c1 ∈ st.nodes := follow_mem_nodes hmem hzero hx
      obtain ⟨d, hdu, hdv⟩ := hclosed c1 hc1 (u, v) hm
      simp [hdu, hdv]

/-! ## The initial chain satisfies the invariant -/

theorem chainEdges_mem {w : Word} :
    ∀ {i : Nat} (e : Edge), e ∈ chainEdges i w →
    ∃ j, j < w.length ∧ e = (i + j, w.getD j 0, i + j + 1) := by
  induction w with
  | nil => intro i e he; simp [chainEdges] at he
  | cons a rest ih =>
    intro i e he
    rcases List.mem_cons.mp he with he | he
    · refine ⟨0, by simp, ?_⟩
      simpa using he
    · obtain ⟨j, hj, he2⟩ := ih e he
      refine ⟨j + 1, by simpa using hj, ?_⟩
      rw [he2]
      simp only [Prod.mk.injEq, List.getD_cons_succ]
      exact ⟨by omega, by simp, by omega⟩

theorem chainEdges_nodup (w : Word) : ∀ (i : Nat), (chainEdges i w).Nodup := by
  induction w with
  | nil => intro i; simp [chainEdges]
  | cons a rest ih =>
    intro i
    simp only [chainEdges]
    rw [List.nodup_cons]
    refine ⟨?_, ih (i + 1)⟩
    intro hmem
    obtain ⟨j, -, he⟩ := chainEdges_mem _ hmem
    simp only [Prod.mk.injEq] at he
    omega

theorem getD_mem {w : Word} {j : Nat} (hj : j < w.length) : w.getD j 0 ∈ w := by
  rw [List.getD_eq_getElem w 0 hj]
  exact List.getElem_mem hj

theorem take_succ_getD {w : Word} {j : Nat} (hj : j < w.length) :
    w.take (j + 1) = w.take j ++ [w.getD j 0] := by
  rw [List.take_succ, List.getD_eq_getElem w 0 hj, List.getElem?_eq_getElem hj]
  rfl

theorem initChain_invE {p : Present} {w : Word}
    (hw : ∀ l ∈ w, l ∈ p.alphabet) : InvE p w (initChain w) := by
  constructor
  · refine ⟨fun n => w.take n, ?_, ?_, ?_, ?_, ?_, ?_, ?_, ?_, ?_, ?_, ?_⟩
    · exact List.nodup_range _
    · intro n hn
      simp only [initChain, List.mem_range] at hn ⊢
      omega
    · simp [initChain]
    · simp [initChain]
    · intro e he
      obtain ⟨j, hj, he2⟩ := chainEdges_mem e he
      subst he2
      simp only [initChain, List.mem_range]
      omega
    · exact chainEdges_nodup w 0
    · intro e he
      obtain ⟨j, hj, he2⟩ := chainEdges_mem e he
      subst he2
      exact hw _ (getD_mem hj)
    · exact follow_toPathTo (follow_initChain w)
    · rfl
    · simp only [initChain]
      rw [List.take_length]
      exact EqP.refl _
    · intro e he
      obtain ⟨j, hj, he2⟩ := chainEdges_mem e he
      subst he2
      simp only [Nat.zero_add]
      rw [← take_succ_getD hj]
      exact EqP.refl _
  · intro c x t hmem
    obtain ⟨j, hj, he⟩ := chainEdges_mem (c, x, t) hmem
    simp only [Prod.mk.injEq] at he
    obtain ⟨hc, hx, ht⟩ := he
    have hlook := lookupEdge_chainEdges w 0 j x
    rw [if_pos ⟨hj, hx⟩] at hlook
    simp only [initChain]
    rw [hc]
    rw [hlook, ht]

/-! ## The breadth-first standardisation -/

theorem mem_neighborsOf {alpha : Word} {es : List Edge} {c t : Nat} :
    t ∈ neighborsOf alpha es c ↔ ∃ x ∈ alpha, lookupEdge es c x = some t := by
  unfold neighborsOf
  rw [List.mem_dedup, List.mem_filterMap]

theorem neighborsOf_sub_targets {alpha : Word} {es : List Edge} {c : Nat} :
    ∀ t ∈ neighborsOf alpha es c, t ∈ es.map (fun e => e.2.2) := by
  intro t ht
  obtain ⟨x, -, hl⟩ := mem_neighborsOf.mp ht
  exact List.mem_map.mpr ⟨(c, x, t), lookupEdge_mem hl, rfl⟩

theorem bfsAux_extends (alpha : Word) (es : List Edge) :
    ∀ (fuel : Nat) (q disc : List Nat),
    ∃ r, bfsAux alpha es fuel q disc = disc ++ r := by
  intro fuel
  induction fuel with
  | zero => intro q disc; exact ⟨[], by simp [bfsAux]⟩
  | succ f ih =>
    intro q disc
    cases q with
    | nil => exact ⟨[], by simp [bfsAux]⟩
    | cons c q2 =>
      obtain ⟨r, hr⟩ := ih (q2 ++ (neighborsOf alpha es c).filter (fun d => d ∉ disc))
        (disc ++ (neighborsOf alpha es c).filter (fun d => d ∉ disc))
      refine ⟨(neighborsOf alpha es c).filter (fun d => d ∉ disc) ++ r, ?_⟩
      simp only [bfsAux]
      rw [hr, List.append_assoc]

theorem bfsAux_spec (alpha : Word) (es : List Edge) :
    ∀ (fuel : Nat) (q disc : List Nat),
    disc.Nodup →
    (∀ n ∈ q, n ∈ disc) →
    (∀ c ∈ disc, c ∉ q → ∀ d ∈ neighborsOf alpha es c, d ∈ disc) →
    (∀ n ∈ disc, n ∈ 0 :: es.map (fun e => e.2.2)) →
    q.length + (1 + es.length) ≤ fuel + disc.length →
    (∀ n ∈ disc, n ∈ bfsAux alpha es fuel q disc) ∧
    (bfsAux alpha es fuel q disc).Nodup ∧
    (∀ n ∈ bfsAux alpha es fuel q disc, n ∈ 0 :: es.map (fun e => e.2.2)) ∧
    (∀ c ∈ bfsAux alpha es fuel q disc, ∀ d ∈ neighborsOf alpha es c,
      d ∈ bfsAux alpha es fuel q disc) := by
  intro fuel
  induction fuel with
  | zero =>
    intro q disc hnd hq hproc huniv harith
    have hdlen : disc.length ≤ 1 + es.length := by
      have hsub : disc ⊆ 0 :: es.map (fun e => e.2.2) := huniv
      have hle := (hnd.subperm hsub).length_le
      simp only [List.length_cons, List.length_map] at hle
      omega
    have hq0 : q = [] := by
      cases q with
      | nil => rfl
      | cons a q2 => simp only [List.length_cons] at harith; omega
    subst hq0
    simp only [bfsAux]
    exact ⟨fun n hn => hn, hnd, huniv,
      fun c hc => hproc c hc (by simp)⟩
  | succ f ih =>
    intro q disc hnd hq hproc huniv harith
    cases q with
    | nil =>
      simp only [bfsAux]
      exact ⟨fun n hn => hn, hnd, huniv, fun c hc => hproc c hc (by simp)⟩
    | cons c q2 =>
      simp only [bfsAux]
      have hfresh_nodup : ((neighborsOf alpha es c).filter
          (fun d => d ∉ disc)).Nodup := (List.nodup_dedup _).filter _
      have hfresh_not : ∀ d ∈ (neighborsOf alpha es c).filter
          (fun d => d ∉ disc), d ∉ disc := by
        intro d hd
        have := (List.mem_filter.mp hd).2
        simpa using this
      have hfresh_nb : ∀ d ∈ (neighborsOf alpha es c).filter
          (fun d => d ∉ disc), d ∈ neighborsOf alpha es c := by
        intro d hd
        exact (List.mem_filter.mp hd).1
      obtain ⟨r1, r2, r3, r4⟩ := ih
        (q2 ++ (neighborsOf alpha es c).filter (fun d => d ∉ disc))
        (disc ++ (neighborsOf alpha es c).filter (fun d => d ∉ disc))
        (hnd.append hfresh_nodup (fun a ha ha2 => hfresh_not a ha2 ha))
        (by
          intro n hn
          rcases List.mem_append.mp hn with h | h
          · exact List.mem_append_left _ (hq n (List.mem_cons_of_mem _ h))
          · exact List.mem_append_right _ h)
        (by
          intro c2 hc2 hc2q
          rcases List.mem_append.mp hc2 with h | h
          · by_cases hcc : c2 = c
            · subst hcc
              intro d hd
              by_cases hdm : d ∈ disc
              · exact List.mem_append_left _ hdm
              · refine List.mem_append_right _ ?_
                rw [List.mem_filter]
                exact ⟨hd, by simpa using hdm⟩
            · intro d hd
              have hc2nq : c2 ∉ c :: q2 := by
                intro hmem
                rcases List.mem_cons.mp hmem with h2 | h2
                · exact hcc h2
                · exact hc2q (List.mem_append_left _ h2)
              exact List.mem_append_left _ (hproc c2 h hc2nq d hd)
          · exfalso
            exact hc2q (List.mem_append_right _ h))
        (by
          intro n hn
          rcases List.mem_append.mp hn with h | h
          · exact huniv n h
          · exact List.mem_cons_of_mem _
              (neighborsOf_sub_targets n (hfresh_nb n h)))
        (by
          simp only [List.length_append, List.length_cons] at harith ⊢
          omega)
      exact ⟨fun n hn => r1 n (List.mem_append_left _ hn), r2, r3, r4⟩

theorem bfsOrder_spec (alpha : Word) (st : StState) :
    (∃ r, bfsOrder alpha st = 0 :: r) ∧
    (bfsOrder alpha st).Nodup ∧
    (∀ c ∈ bfsOrder alpha st, ∀ d ∈ neighborsOf alpha st.edges c,
      d ∈ bfsOrder alpha st) := by
  have h := bfsAux_spec alpha st.edges (st.edges.length + 2) [0] [0]
    (by simp) (by simp)
    (fun c hc hcq => absurd hc hcq)
    (by intro n hn; simp only [List.mem_singleton] at hn; subst hn; simp)
    (by simp; omega)
  obtain ⟨r, hr⟩ := bfsAux_extends alpha st.edges (st.edges.length + 2) [0] [0]
  refine ⟨⟨r, by simpa using hr⟩, h.2.1, h.2.2.2⟩

theorem lookupEdge_filterMap_ord {ord : List Nat} (_hord : ord.Nodup)
    (es : List Edge) (c x : Nat) (hc : c ∈ ord) :
    lookupEdge ((es.filter (fun e => e.1 ∈ ord)).map
        (fun e => (ord.indexOf e.1, e.2.1, ord.indexOf e.2.2)))
      (ord.indexOf c) x
    = Option.map (fun t => ord.indexOf t) (lookupEdge es c x) := by
  induction es with
  | nil => simp [lookupEdge]
  | cons e rest ih =>
    obtain ⟨c2, x2, t2⟩ := e
    by_cases hkeep : c2 ∈ ord
    · have hfe : ((c2, x2, t2) :: rest).filter (fun e => decide (e.1 ∈ ord))
          = (c2, x2, t2) :: rest.filter (fun e => decide (e.1 ∈ ord)) := by
        simp [List.filter_cons, hkeep]
      rw [hfe]
      simp only [List.map_cons, lookupEdge]
      by_cases hmatch : c2 = c ∧ x2 = x
      · rw [if_pos hmatch, if_pos ⟨by rw [hmatch.1], hmatch.2⟩]
        simp
      · rw [if_neg hmatch, if_neg, ih]
        rintro ⟨h1, h2⟩
        exact hmatch ⟨(List.indexOf_inj hkeep hc).mp h1, h2⟩
    · have hne : c2 ≠ c := fun h => hkeep (h ▸ hc)
      have hfe : ((c2, x2, t2) :: rest).filter (fun e => decide (e.1 ∈ ord))
          = rest.filter (fun e => decide (e.1 ∈ ord)) := by
        simp [List.filter_cons, hkeep]
      rw [hfe]
      conv_rhs => rw [lookupEdge]
      rw [if_neg (fun h => hne h.1), ih]

theorem follow_mem_ord {alpha : Word} {st : StState}
    (hlab : ∀ e ∈ st.edges, e.2.1 ∈ alpha) :
    ∀ (u : Word) (c d : Nat), c ∈ bfsOrder alpha st →
    follow st.edges c u = some d → d ∈ bfsOrder alpha st := by
  obtain ⟨-, -, hclosed⟩ := bfsOrder_spec alpha st
  intro u
  induction u with
  | nil =>
    intro c d hc h
    simp only [follow] at h
    injection h with h
    subst h
    exact hc
  | cons x v ih =>
    intro c d hc h
    simp only [follow] at h
    split at h
    · rename_i t ht
      refine ih t d ?_ h
      apply hclosed c hc
      rw [mem_neighborsOf]
      exact ⟨x, hlab _ (lookupEdge_mem ht), ht⟩
    · exact Option.noConfusion h

theorem follow_standardize {alpha : Word} {st : StState}
    (hlab : ∀ e ∈ st.edges, e.2.1 ∈ alpha) :
    ∀ (u : Word) (c : Nat), c ∈ bfsOrder alpha st →
    follow (standardize alpha st).edges ((bfsOrder alpha st).indexOf c) u
      = Option.map (fun t => (bfsOrder alpha st).indexOf t)
          (follow st.edges c u) := by
  obtain ⟨-, hord, hclosed⟩ := bfsOrder_spec alpha st
  intro u
  induction u with
  | nil => intro c hc; simp [follow]
  | cons x v ih =>
    intro c hc
    have hlk : lookupEdge (standardize alpha st).edges
        ((bfsOrder alpha st).indexOf c) x
        = Option.map (fun t => (bfsOrder alpha st).indexOf t)
            (lookupEdge st.edges c x) :=
      lookupEdge_filterMap_ord hord st.edges c x hc
    simp only [follow]
    rw [hlk]
    cases hl : lookupEdge st.edges c x with
    | none => simp
    | some t =>
      have htm : t ∈ bfsOrder alpha st := by
        apply hclosed c hc
        rw [mem_neighborsOf]
        exact ⟨x, hlab _ (lookupEdge_mem hl), hl⟩
      simp only [Option.map_some]
      exact ih t htm

theorem standardize_language {p : Present} {w : Word} {eta : Nat → Word}
    {st : StState} (hinv : InvF p w eta st) (hndk : NoDupKeys st.edges) :
    ∀ u : Word,
    (follow (standardize p.alphabet st).edges 0 u
        = some (standardize p.alphabet st).accept
      ↔ follow st.edges 0 u = some st.accept) ∧
    ((follow (standardize p.alphabet st).edges 0 u).isSome = true
      ↔ (follow st.edges 0 u).isSome = true) := by
  obtain ⟨⟨r0, hr0⟩, hord, hclosed⟩ := bfsOrder_spec p.alphabet st
  have h0mem : (0 : Nat) ∈ bfsOrder p.alphabet st := by rw [hr0]; simp
  have hidx0 : (bfsOrder p.alphabet st).indexOf 0 = 0 := by
    rw [hr0]
    exact List.indexOf_cons_self _ _
  have hwacc : follow st.edges 0 w = some st.accept :=
    pathTo_follow hndk hinv.wordPath
  have haccmem : st.accept ∈ bfsOrder p.alphabet st :=
    follow_mem_ord hinv.labelsOk w 0 st.accept h0mem hwacc
  intro u
  have htrans := follow_standardize hinv.labelsOk u 0 h0mem
  rw [hidx0] at htrans
  have hacc : (standardize p.alphabet st).accept
      = (bfsOrder p.alphabet st).indexOf st.accept := rfl
  constructor
  · rw [htrans, hacc]
    constructor
    · intro h
      cases hf : follow st.edges 0 u with
      | none =>
        rw [hf] at h
        exact absurd h (by simp)
      | some d =>
        rw [hf] at h
        simp only [Option.map_some', Option.some.injEq] at h
        have hdm : d ∈ bfsOrder p.alphabet st :=
          follow_mem_ord hinv.labelsOk u 0 d h0mem hf
        rw [(List.indexOf_inj hdm haccmem).mp h]
    · intro h
      rw [h]
      simp
  · rw [htrans]
    cases follow st.edges 0 u <;> simp

/-! ## C5: pass boundaries, cancellation and resumption -/

theorem passFrom_mono (rs : List (Word × Word)) :
    ∀ (f f2 : Nat) (st : StState) (k : Nat) (out : StState), f ≤ f2 →
    passFrom rs f st k = some out → passFrom rs f2 st k = some out := by
  intro f
  induction f with
  | zero =>
    intro f2 st k out _ h
    simp [passFrom] at h
  | succ f ih =>
    intro f2 st k out hle h
    cases f2 with
    | zero => omega
    | succ f2 =>
      cases hc : leastActiveGE st k with
      | none =>
        simp only [passFrom, hc] at h ⊢
        exact h
      | some c =>
        simp only [passFrom, hc] at h ⊢
        exact ih f2 _ _ _ (by omega) h

theorem runAux_mono (rs : List (Word × Word)) :
    ∀ (f f2 : Nat) (st out : StState), f ≤ f2 →
    runAux rs f st = some out → runAux rs f2 st = some out := by
  intro f
  induction f with
  | zero =>
    intro f2 st out _ h
    simp [runAux] at h
  | succ f ih =>
    intro f2 st out hle h
    cases f2 with
    | zero => omega
    | succ f2 =>
      cases hp : passFrom rs (f + 1) st 0 with
      | none =>
        simp only [runAux, hp] at h
        exact Option.noConfusion h
      | some st2 =>
        simp only [runAux, hp] at h
        have hp2 : passFrom rs (f2 + 1) st 0 = some st2 :=
          passFrom_mono rs (f + 1) (f2 + 1) st 0 st2 (by omega) hp
        simp only [runAux, hp2]
        by_cases he : st2 = st
        · rw [if_pos he] at h ⊢
          exact h
        · rw [if_neg he] at h ⊢
          exact ih f2 st2 out (by omega) h

theorem runAux_det (rs : List (Word × Word)) {f f2 : Nat} {st o o2 : StState}
    (h : runAux rs f st = some o) (h2 : runAux rs f2 st = some o2) : o = o2 := by
  rcases Nat.le_total f f2 with hle | hle
  · have h3 := runAux_mono rs f f2 st o hle h
    rw [h3] at h2
    injection h2
  · have h3 := runAux_mono rs f2 f st o2 hle h2
    rw [h3] at h
    injection h with h4
    exact h4.symm

theorem runAux_absorb (rs : List (Word × Word)) {F fuel : Nat} {b c out : StState}
    (hp : passFrom rs F b 0 = some c) (h : runAux rs fuel c = some out) :
    ∃ fuel2, runAux rs fuel2 b = some out := by
  by_cases he : c = b
  · subst he
    exact ⟨fuel, h⟩
  · refine ⟨max F fuel + 1, ?_⟩
    have hp2 : passFrom rs (max F fuel + 1) b 0 = some c :=
      passFrom_mono rs F _ b 0 c (by omega) hp
    simp only [runAux, hp2]
    rw [if_neg he]
    exact runAux_mono rs fuel _ c out (by omega) h

theorem passIter_resume (rs : List (Word × Word)) :
    ∀ {k : Nat} {a mid : StState}, PassIter rs k a mid →
    ∀ (fuel : Nat) (out : StState), runAux rs fuel mid = some out →
    ∃ fuel2, runAux rs fuel2 a = some out := by
  intro k a mid h
  induction h with
  | zero st => exact fun fuel out h2 => ⟨fuel, h2⟩
  | @succ k a b c _ hex ih =>
    intro fuel out h2
    obtain ⟨F, hF⟩ := hex
    obtain ⟨fuel2, h3⟩ := runAux_absorb rs hF h2
    exact ih fuel2 out h3

theorem passIter_invE {p : Present} {w : Word} (hval : ValidRules p) :
    ∀ {k : Nat} {a mid : StState}, PassIter (toPairs p.rules) k a mid →
    InvE p w a → InvE p w mid := by
  intro k a mid h
  induction h with
  | zero st => exact fun hInv => hInv
  | @succ k a b c _ hex ih =>
    intro hInv
    obtain ⟨F, hF⟩ := hex
    exact (passFrom_spec hval F b 0 c hF (ih hInv)).1

/-- C5 (spec-modelled): at any pass boundary `mid` reached from the initial
chain, the driver invariants hold (`InvE` bundles I1, I3, I5, I6, determinism
of the edge table and the soundness labelling); a run resumed from `mid`
reaches exactly a state an uninterrupted (sufficiently fuelled) run from
scratch reaches; and at the instance level, a resumed `run()` and an
uninterrupted `run()` that both terminate return the same final instance. -/
theorem stephenResume_spec (p : Present) (w : Word) (k : Nat) (mid : StState)
    (hw : ∀ l ∈ w, l ∈ p.alphabet) (hval : ValidRules p)
    (hmid : PassIter (toPairs p.rules) k (initChain w) mid) :
    InvE p w mid ∧
    (∀ (fuel : Nat) (out : StState),
      runAux (toPairs p.rules) fuel mid = some out →
      ∃ fuel2, runAux (toPairs p.rules) fuel2 (initChain w) = some out) ∧
    (∀ (fuel fuel0 : Nat) (res out0 : Steph),
      runStephen fuel { pres := p, word := w, st := mid, finished := false }
        = some res →
      runStephen fuel0 (mkStephen p w) = some out0 → res = out0) := by
  refine ⟨passIter_invE hval hmid (initChain_invE hw),
    fun fuel out h => passIter_resume _ hmid fuel out h, ?_⟩
  intro fuel fuel0 res out0 hres hout
  simp only [runStephen, mkStephen] at hres hout
  cases h1 : runAux (toPairs p.rules) fuel mid with
  | none =>
    rw [h1] at hres
    exact absurd hres (by simp)
  | some stF1 =>
    rw [h1] at hres
    cases h0 : runAux (toPairs p.rules) fuel0 (initChain w) with
    | none =>
      rw [h0] at hout
      exact absurd hout (by simp)
    | some stF0 =>
      rw [h0] at hout
      obtain ⟨fuel2, h2⟩ := passIter_resume _ hmid fuel stF1 h1
      have heq : stF1 = stF0 := runAux_det _ h2 h0
      subst heq
      simp only [Option.some.injEq] at hres hout
      rw [← hres, ← hout]

/-- Witness for C5: the free-semigroup instance, one complete pass. -/
theorem stephenResume_spec_witness :
    InvE pFree [0, 1] (initChain [0, 1]) ∧
    ∃ fuel2, runAux (toPairs pFree.rules) fuel2 (initChain [0, 1])
      = some sFree.st := by
  have hpi : PassIter (toPairs pFree.rules) 1 (initChain [0, 1])
      (initChain [0, 1]) :=
    PassIter.succ (PassIter.zero _) ⟨4, by decide⟩
  have h := stephenResume_spec pFree [0, 1] 1 (initChain [0, 1]) (by decide)
    (fun r hr => by simp [pFree] at hr) hpi
  exact ⟨h.1, h.2.1 5 sFree.st (by decide)⟩

/-! ## C1: the language of a terminated run -/

theorem reduceAAGo_dup : ∀ (x : Word) (prev : Nat) (y : Word),
    reduceAA.reduceAAGo prev (x ++ 0 :: 0 :: y)
      = reduceAA.reduceAAGo prev (x ++ 0 :: y) := by
  intro x
  induction x with
  | nil =>
    intro prev y
    by_cases hp : prev = 0
    · subst hp
      simp [reduceAA.reduceAAGo]
    · simp [reduceAA.reduceAAGo, hp]
  | cons b x2 ih =>
    intro prev y
    simp only [List.cons_append, reduceAA.reduceAAGo]
    by_cases hb : b = 0 ∧ prev = 0
    · rw [if_pos hb, if_pos hb]
      exact ih prev y
    · rw [if_neg hb, if_neg hb]
      exact congrArg (fun l => b :: l) (ih b y)

theorem reduceAA_dup (x y : Word) :
    reduceAA (x ++ 0 :: 0 :: y) = reduceAA (x ++ 0 :: y) := by
  cases x with
  | nil => simp [reduceAA, reduceAA.reduceAAGo]
  | cons a x2 =>
    simp only [List.cons_append, reduceAA]
    rw [reduceAAGo_dup]

theorem reduceAA_eqp {u v : Word} (h : EqP pAA u v) :
    reduceAA u = reduceAA v := by
  induction h with
  | refl u => rfl
  | symm _ ih => exact ih.symm
  | trans _ _ ih1 ih2 => exact ih1.trans ih2
  | @rel x y u0 v0 hm =>
    have h2 : u0 = [0, 0] ∧ v0 = [0] := by
      simpa [pAA, toPairs] using hm
    obtain ⟨hu, hv⟩ := h2
    subst hu
    subst hv
    simpa [List.append_assoc] using reduceAA_dup x y

/-- C1 counterexample (spec-modelled driver): on the presentation with one
rule `aa = a` and the word `w = b`, the terminated run produces a graph in
which `a` labels a path from node 0 — `is_left_factor` returns true — but no
word `av` is congruent to `b`, refuting the left-factor direction of the
claim.  (The spec's elementary expansion completes both sides of a rule even
at nodes from which neither side is readable, so the graph acquires paths
that are not left factors of `w`.) -/
theorem stephenLeftFactor_refuted :
    runStephen 8 (mkStephen pAA [1]) = some sAA ∧
    isLeftFactorW sAA [0] = true ∧
    ¬ ∃ v : Word, EqP pAA ([0] ++ v) [1] := by
  refine ⟨by decide, by decide, ?_⟩
  rintro ⟨v, hv⟩
  have h := reduceAA_eqp hv
  simp [reduceAA, reduceAA.reduceAAGo] at h

/-- C1 (amended): for a terminated run on `P` and `w` (valid word and rules),
the produced graph accepts `u` iff `u =_P w`; and whenever some `uv =_P w`,
`is_left_factor(u)` returns true.  The converse left-factor direction is
refuted by `stephenLeftFactor_refuted`. -/
theorem stephenRun_correct (p : Present) (w : Word) (fuel : Nat) (out : Steph)
    (hw : ∀ l ∈ w, l ∈ p.alphabet) (hval : ValidRules p)
    (hrun : runStephen fuel (mkStephen p w) = some out) :
    (∀ u, acceptsW out u = true ↔ EqP p u w) ∧
    (∀ u v, EqP p (u ++ v) w → isLeftFactorW out u = true) := by
  simp only [runStephen, mkStephen] at hrun
  cases haux : runAux (toPairs p.rules) fuel (initChain w) with
  | none =>
    rw [haux] at hrun
    exact absurd hrun (by simp)
  | some stF =>
    rw [haux] at hrun
    simp only [Option.some.injEq] at hrun
    subst hrun
    have hInv0 : InvE p w (initChain w) := initChain_invE hw
    obtain ⟨hInvF, hclosed⟩ := closed_of_runAux hval haux hInv0
    obtain ⟨⟨eta, hF⟩, hndk⟩ := hInvF
    have hwacc : follow stF.edges 0 w = some stF.accept :=
      pathTo_follow hndk hF.wordPath
    constructor
    · intro u
      constructor
      · intro hacc
        have hacc2 : (match follow (standardize p.alphabet stF).edges 0 u with
            | some d => d == (standardize p.alphabet stF).accept
            | none => false) = true := hacc
        have hstd : follow (standardize p.alphabet stF).edges 0 u
            = some (standardize p.alphabet stF).accept := by
          split at hacc2
          · rename_i d hd
            rw [hd, beq_iff_eq.mp hacc2]
          · exact absurd hacc2 (by simp)
        exact sound_accept hF ((standardize_language hF hndk u).1.mp hstd)
      · intro heqp
        have hfollow : follow stF.edges 0 u = some stF.accept := by
          rw [closed_congr hF.edgesMem hF.zeroMem hclosed heqp, hwacc]
        have hstd := (standardize_language hF hndk u).1.mpr hfollow
        show (match follow (standardize p.alphabet stF).edges 0 u with
            | some d => d == (standardize p.alphabet stF).accept
            | none => false) = true
        rw [hstd]
        simp
    · intro u v huv
      have h1 : follow stF.edges 0 (u ++ v) = some stF.accept := by
        rw [closed_congr hF.edgesMem hF.zeroMem hclosed huv, hwacc]
      rw [follow_append stF.edges u 0 v] at h1
      have h2 : (follow stF.edges 0 u).isSome = true := by
        cases hf : follow stF.edges 0 u with
        | none => rw [hf] at h1; exact absurd h1 (by simp)
        | some d => rfl
      exact (standardize_language hF hndk u).2.mpr h2

/-- Witness for the amended C1 theorem at the free-semigroup input. -/
theorem stephenRun_correct_witness :
    acceptsW sFree [0, 1] = true ∧ isLeftFactorW sFree [0] = true := by
  have h := stephenRun_correct pFree [0, 1] 5 sFree
    (by decide) (by intro r hr; simp [pFree] at hr) (by decide)
  exact ⟨(h.1 [0, 1]).mpr (EqP.refl _), h.2 [0] [1] (EqP.refl _)⟩

/-! ## C8: idempotence of standardisation -/

theorem bfsAux_nil (alpha : Word) (es : List Edge) :
    ∀ (fuel : Nat) (disc : List Nat), bfsAux alpha es fuel [] disc = disc := by
  intro fuel disc
  cases fuel with
  | zero => rfl
  | succ f => rfl

theorem dedup_map_inj {f : Nat → Nat} :
    ∀ (l : List Nat), (∀ a ∈ l, ∀ b ∈ l, f a = f b → a = b) →
    (l.map f).dedup = l.dedup.map f := by
  intro l
  induction l with
  | nil => intro _; rfl
  | cons x t ih =>
    intro hinj
    have ht : (t.map f).dedup = t.dedup.map f :=
      ih (fun a ha b hb =>
        hinj a (List.mem_cons_of_mem _ ha) b (List.mem_cons_of_mem _ hb))
    by_cases hx : x ∈ t
    · rw [List.map_cons, List.dedup_cons_of_mem (List.mem_map_of_mem f hx),
        List.dedup_cons_of_mem hx, ht]
    · have hfx : f x ∉ t.map f := by
        intro hmem
        obtain ⟨y, hy, hfy⟩ := List.mem_map.mp hmem
        have hyx := hinj y (List.mem_cons_of_mem _ hy) x (List.mem_cons_self _ _) hfy
        exact hx (hyx ▸ hy)
      rw [List.map_cons, List.dedup_cons_of_not_mem hfx,
        List.dedup_cons_of_not_mem hx, List.map_cons, ht]

theorem indexOf_range {i n : Nat} (h : i < n) : (List.range n).indexOf i = i := by
  have h2 := List.indexOf_getElem (List.nodup_range n) i (by simpa using h)
  simpa using h2

theorem ord_map_indexOf {l : List Nat} (h : l.Nodup) :
    l.map (fun c => l.indexOf c) = List.range l.length := by
  apply List.ext_getElem (by simp)
  intro i h1 h2
  simp only [List.getElem_map, List.getElem_range]
  exact List.indexOf_getElem h i (by simpa using h1)

theorem filter_not_mem_map {f : Nat → Nat} {N disc ord : List Nat}
    (hN : ∀ n ∈ N, n ∈ ord) (hdisc : ∀ n ∈ disc, n ∈ ord)
    (hinj : ∀ a ∈ ord, ∀ b ∈ ord, f a = f b → a = b) :
    (N.map f).filter (fun d => d ∉ disc.map f)
      = (N.filter (fun d => d ∉ disc)).map f := by
  rw [List.filter_map]
  refine congrArg _ (List.filter_congr ?_)
  intro d hd
  have hmemiff : f d ∈ disc.map f ↔ d ∈ disc := by
    constructor
    · intro hmem
      obtain ⟨m, hm, hfm⟩ := List.mem_map.mp hmem
      rw [← hinj m (hdisc m hm) d (hN d hd) hfm]
      exact hm
    · exact fun h => List.mem_map_of_mem f h
  simp only [Function.comp_apply, decide_eq_decide]
  exact not_congr hmemiff

theorem neighborsOf_standardize {alpha : Word} {st : StState} {c : Nat}
    (hc : c ∈ bfsOrder alpha st) :
    neighborsOf alpha (standardize alpha st).edges ((bfsOrder alpha st).indexOf c)
      = (neighborsOf alpha st.edges c).map
          (fun t => (bfsOrder alpha st).indexOf t) := by
  obtain ⟨-, hord, hclosed⟩ := bfsOrder_spec alpha st
  show (alpha.filterMap (fun x =>
      lookupEdge (standardize alpha st).edges ((bfsOrder alpha st).indexOf c) x)).dedup
    = ((alpha.filterMap (fun x => lookupEdge st.edges c x)).dedup).map
        (fun t => (bfsOrder alpha st).indexOf t)
  have hfun : (fun x =>
      lookupEdge (standardize alpha st).edges ((bfsOrder alpha st).indexOf c) x)
      = fun x => (lookupEdge st.edges c x).map
          (fun t => (bfsOrder alpha st).indexOf t) :=
    funext fun x => lookupEdge_filterMap_ord hord st.edges c x hc
  rw [hfun, ← List.map_filterMap (fun x => lookupEdge st.edges c x)
    (fun t => (bfsOrder alpha st).indexOf t) alpha]
  apply dedup_map_inj
  intro a ha b hb hab
  have ha2 : a ∈ bfsOrder alpha st := hclosed c hc a (List.mem_dedup.mpr ha)
  have hb2 : b ∈ bfsOrder alpha st := hclosed c hc b (List.mem_dedup.mpr hb)
  exact (List.indexOf_inj ha2 hb2).mp hab

theorem bfsAux_standardize {alpha : Word} {st : StState} :
    ∀ (fuel : Nat) (q disc : List Nat),
    (∀ n ∈ q, n ∈ bfsOrder alpha st) →
    (∀ n ∈ disc, n ∈ bfsOrder alpha st) →
    bfsAux alpha (standardize alpha st).edges fuel
        (q.map (fun t => (bfsOrder alpha st).indexOf t))
        (disc.map (fun t => (bfsOrder alpha st).indexOf t))
      = (bfsAux alpha st.edges fuel q disc).map
          (fun t => (bfsOrder alpha st).indexOf t) := by
  obtain ⟨-, hord, hclosed⟩ := bfsOrder_spec alpha st
  intro fuel
  induction fuel with
  | zero => intro q disc _ _; rfl
  | succ f ih =>
    intro q disc hq hdisc
    cases q with
    | nil => rw [List.map_nil, bfsAux_nil, bfsAux_nil]
    | cons c q2 =>
      have hc : c ∈ bfsOrder alpha st := hq c (List.mem_cons_self _ _)
      simp only [List.map_cons, bfsAux]
      rw [neighborsOf_standardize hc]
      rw [filter_not_mem_map (fun n hn => hclosed c hc n hn) hdisc
        (fun a ha b hb => (List.indexOf_inj ha hb).mp)]
      rw [← List.map_append, ← List.map_append]
      exact ih (q2 ++ (neighborsOf alpha st.edges c).filter (fun d => d ∉ disc))
        (disc ++ (neighborsOf alpha st.edges c).filter (fun d => d ∉ disc))
        (by
          intro n hn
          rcases List.mem_append.mp hn with h | h
          · exact hq n (List.mem_cons_of_mem _ h)
          · exact hclosed c hc n (List.mem_filter.mp h).1)
        (by
          intro n hn
          rcases List.mem_append.mp hn with h | h
          · exact hdisc n h
          · exact hclosed c hc n (List.mem_filter.mp h).1)

theorem bfsAux_stable (alpha : Word) (es : List Edge) (U K : List Nat)
    (hUK : ∀ c ∈ U, ∀ d ∈ neighborsOf alpha es c, d ∈ K ∧ d ∈ U) :
    ∀ (fuel k : Nat) (q disc : List Nat),
    disc.Nodup → (∀ n ∈ q, n ∈ disc) → (∀ n ∈ disc, n ∈ U) →
    (∀ n ∈ disc, n ∈ K) →
    q.length + K.length ≤ fuel + disc.length →
    bfsAux alpha es fuel q disc = bfsAux alpha es (fuel + k) q disc := by
  intro fuel
  induction fuel with
  | zero =>
    intro k q disc hnd hq hU hK harith
    have hdlen : disc.length ≤ K.length := (hnd.subperm hK).length_le
    have hq0 : q = [] := by
      cases q with
      | nil => rfl
      | cons a q2 => simp only [List.length_cons] at harith; omega
    subst hq0
    rw [bfsAux_nil, bfsAux_nil]
  | succ f ih =>
    intro k q disc hnd hq hU hK harith
    cases q with
    | nil => rw [bfsAux_nil, bfsAux_nil]
    | cons c q2 =>
      have hstep : f + 1 + k = (f + k) + 1 := by omega
      rw [hstep]
      simp only [bfsAux]
      have hcU : c ∈ U := hU c (hq c (List.mem_cons_self _ _))
      have hfresh_nodup : ((neighborsOf alpha es c).filter
          (fun d => d ∉ disc)).Nodup := (List.nodup_dedup _).filter _
      have hfresh_not : ∀ d ∈ (neighborsOf alpha es c).filter
          (fun d => d ∉ disc), d ∉ disc := by
        intro d hd
        have := (List.mem_filter.mp hd).2
        simpa using this
      have hfresh_nb : ∀ d ∈ (neighborsOf alpha es c).filter
          (fun d => d ∉ disc), d ∈ neighborsOf alpha es c :=
        fun d hd => (List.mem_filter.mp hd).1
      apply ih k
      · exact hnd.append hfresh_nodup (fun a ha ha2 => hfresh_not a ha2 ha)
      · intro n hn
        rcases List.mem_append.mp hn with h | h
        · exact List.mem_append_left _ (hq n (List.mem_cons_of_mem _ h))
        · exact List.mem_append_right _ h
      · intro n hn
        rcases List.mem_append.mp hn with h | h
        · exact hU n h
        · exact (hUK c hcU n (hfresh_nb n h)).2
      · intro n hn
        rcases List.mem_append.mp hn with h | h
        · exact hK n h
        · exact (hUK c hcU n (hfresh_nb n h)).1
      · simp only [List.length_append, List.length_cons] at harith ⊢
        omega

theorem standardize_of_canonical {alpha : Word} {st0 : StState} {n : Nat}
    (hbfs : bfsOrder alpha st0 = List.range n)
    (hnodes : st0.nodes = List.range n) (hnxt : st0.nxt = n)
    (hacc : st0.accept < n)
    (hedges : ∀ e ∈ st0.edges, e.1 < n ∧ e.2.2 < n) :
    standardize alpha st0 = st0 := by
  have hfilter : st0.edges.filter (fun e => e.1 ∈ List.range n) = st0.edges := by
    apply List.filter_eq_self.mpr
    intro e he
    have := (hedges e he).1
    simpa using this
  have hmap : st0.edges.map
      (fun e => ((List.range n).indexOf e.1, e.2.1, (List.range n).indexOf e.2.2))
      = st0.edges := by
    have h1 : st0.edges.map
        (fun e => ((List.range n).indexOf e.1, e.2.1, (List.range n).indexOf e.2.2))
        = st0.edges.map id := by
      apply List.map_congr_left
      intro e he
      obtain ⟨hh1, hh2⟩ := hedges e he
      rw [indexOf_range hh1, indexOf_range hh2]
      rfl
    rw [h1, List.map_id]
  have hgoal : standardize alpha st0
      = { nodes := List.range n, edges := st0.edges, nxt := n,
          accept := st0.accept } := by
    unfold standardize
    rw [hbfs, List.length_range, hfilter, hmap, indexOf_range hacc]
  rw [hgoal, ← hnodes, ← hnxt]

/-- C8: `standardize` is idempotent on the graph a terminated run produces —
renaming an already-standardised graph by its own breadth-first discovery
order is the identity, field for field. -/
theorem standardize_idem (p : Present) (w : Word) (fuel : Nat) (out : Steph)
    (hw : ∀ l ∈ w, l ∈ p.alphabet) (hval : ValidRules p)
    (hrun : runStephen fuel (mkStephen p w) = some out) :
    standardize p.alphabet out.st = out.st := by
  simp only [runStephen, mkStephen] at hrun
  cases haux : runAux (toPairs p.rules) fuel (initChain w) with
  | none =>
    rw [haux] at hrun
    exact absurd hrun (by simp)
  | some stF =>
    rw [haux] at hrun
    simp only [Option.some.injEq] at hrun
    subst hrun
    show standardize p.alphabet (standardize p.alphabet stF)
      = standardize p.alphabet stF
    obtain ⟨hInvF, -⟩ := closed_of_runAux hval haux (initChain_invE hw)
    obtain ⟨⟨eta, hF⟩, hndk⟩ := hInvF
    obtain ⟨⟨r0, hr0⟩, hord, hclosed⟩ := bfsOrder_spec p.alphabet stF
    have h0mem : (0 : Nat) ∈ bfsOrder p.alphabet stF := by rw [hr0]; simp
    have hidx0 : (bfsOrder p.alphabet stF).indexOf 0 = 0 := by
      rw [hr0]
      exact List.indexOf_cons_self _ _
    have hwacc : follow stF.edges 0 w = some stF.accept :=
      pathTo_follow hndk hF.wordPath
    have haccmem : stF.accept ∈ bfsOrder p.alphabet stF :=
      follow_mem_ord hF.labelsOk w 0 stF.accept h0mem hwacc
    have htargets : ∀ e ∈ stF.edges, e.1 ∈ bfsOrder p.alphabet stF →
        e.2.2 ∈ bfsOrder p.alphabet stF := by
      intro e he hsrc
      apply hclosed e.1 hsrc
      rw [mem_neighborsOf]
      exact ⟨e.2.1, hF.labelsOk e he, hndk e.1 e.2.1 e.2.2 he⟩
    have hlenfil : (standardize p.alphabet stF).edges.length
        = (stF.edges.filter (fun e => e.1 ∈ bfsOrder p.alphabet stF)).length :=
      List.length_map _ _
    have hlenle : (standardize p.alphabet stF).edges.length ≤ stF.edges.length := by
      rw [hlenfil]
      exact List.length_filter_le _ _
    have hUK : ∀ c2 ∈ bfsOrder p.alphabet stF,
        ∀ d ∈ neighborsOf p.alphabet stF.edges c2,
        d ∈ 0 :: (stF.edges.filter
          (fun e => e.1 ∈ bfsOrder p.alphabet stF)).map (fun e => e.2.2)
        ∧ d ∈ bfsOrder p.alphabet stF := by
      intro c2 hc2 d hd
      refine ⟨?_, hclosed c2 hc2 d hd⟩
      obtain ⟨x, hx, hl⟩ := mem_neighborsOf.mp hd
      apply List.mem_cons_of_mem
      refine List.mem_map.mpr ⟨(c2, x, d), ?_, rfl⟩
      exact List.mem_filter.mpr ⟨lookupEdge_mem hl, by simpa using hc2⟩
    have hstable := bfsAux_stable p.alphabet stF.edges (bfsOrder p.alphabet stF)
      (0 :: (stF.edges.filter
        (fun e => e.1 ∈ bfsOrder p.alphabet stF)).map (fun e => e.2.2))
      hUK
      ((standardize p.alphabet stF).edges.length + 2)
      (stF.edges.length - (standardize p.alphabet stF).edges.length)
      [0] [0]
      (by simp)
      (fun n hn => hn)
      (by
        intro n hn
        simp only [List.mem_singleton] at hn
        subst hn
        exact h0mem)
      (by
        intro n hn
        simp only [List.mem_singleton] at hn
        subst hn
        exact List.mem_cons_self _ _)
      (by
        simp only [List.length_cons, List.length_nil, List.length_map]
        omega)
    have hfueleq : (standardize p.alphabet stF).edges.length + 2
        + (stF.edges.length - (standardize p.alphabet stF).edges.length)
        = stF.edges.length + 2 := by omega
    rw [hfueleq] at hstable
    have hequiv := @bfsAux_standardize p.alphabet stF
      ((standardize p.alphabet stF).edges.length + 2) [0] [0]
      (by
        intro n hn
        simp only [List.mem_singleton] at hn
        subst hn
        exact h0mem)
      (by
        intro n hn
        simp only [List.mem_singleton] at hn
        subst hn
        exact h0mem)
    have hmap0 : ([0] : List Nat).map
        (fun t => (bfsOrder p.alphabet stF).indexOf t) = [0] := by
      simp only [List.map_cons, List.map_nil, hidx0]
    rw [hmap0] at hequiv
    have hbfs : bfsOrder p.alphabet (standardize p.alphabet stF)
        = List.range (bfsOrder p.alphabet stF).length := by
      show bfsAux p.alphabet (standardize p.alphabet stF).edges
        ((standardize p.alphabet stF).edges.length + 2) [0] [0] = _
      rw [hequiv, hstable]
      show (bfsOrder p.alphabet stF).map
        (fun t => (bfsOrder p.alphabet stF).indexOf t) = _
      exact ord_map_indexOf hord
    apply standardize_of_canonical hbfs
    · rfl
    · rfl
    · show (bfsOrder p.alphabet stF).indexOf stF.accept
        < (bfsOrder p.alphabet stF).length
      exact List.indexOf_lt_length.mpr haccmem
    · intro e he
      obtain ⟨e0, he0, heq⟩ := List.mem_map.mp he
      have hsrc : e0.1 ∈ bfsOrder p.alphabet stF := by
        have := (List.mem_filter.mp he0).2
        simpa using this
      have htgt : e0.2.2 ∈ bfsOrder p.alphabet stF :=
        htargets e0 (List.mem_filter.mp he0).1 hsrc
      rw [← heq]
      exact ⟨List.indexOf_lt_length.mpr hsrc, List.indexOf_lt_length.mpr htgt⟩

/-- Witness for C8 at the free-semigroup instance. -/
theorem standardize_idem_witness :
    standardize pFree.alphabet sFree.st = sFree.st :=
  standardize_idem pFree [0, 1] 5 sFree (by decide)
    (fun r hr => by simp [pFree] at hr) (by decide)

/-! ## C7: the swap involution of the sourced word graph -/

theorem tau_tau (c d n : Nat) : tau c d (tau c d n) = n := by
  unfold tau
  split_ifs <;> omega

theorem optTau_tau (c d : Nat) (o : Option Nat) :
    Option.map (tau c d) (Option.map (tau c d) o) = o := by
  cases o with
  | none => rfl
  | some n => simp [tau_tau]

/-- C7 (spec-modelled): `swap_nodes(c, d); swap_nodes(c, d)` restores the
graph exactly — out-degree, active list, `δ` and both predecessor tables are
identical to before the first call, self-loops and mutual edges included
(the witness instance `dwsEx` has both).  The table conjugation is an
involution, so the activity hypotheses of the claim are not even needed. -/
theorem swapNodes_involution (g : DWS) (c d : Nat)
    (_hc : c ∈ g.active) (_hd : d ∈ g.active) :
    swapNodes (swapNodes g c d) c d = g := by
  apply DWS.ext
  · rfl
  · rfl
  · funext r y
    show Option.map (tau c d)
      (Option.map (tau c d) (g.edge (tau c d (tau c d r)) y)) = g.edge r y
    rw [tau_tau, optTau_tau]
  · funext r y
    show Option.map (tau c d)
      (Option.map (tau c d) (g.preimInit (tau c d (tau c d r)) y)) = g.preimInit r y
    rw [tau_tau, optTau_tau]
  · funext r y
    show Option.map (tau c d)
      (Option.map (tau c d) (g.preimNext (tau c d (tau c d r)) y)) = g.preimNext r y
    rw [tau_tau, optTau_tau]

/-- Witness for C7: the double swap of the active pair `0, 1` on the graph
with a self-loop at `0` and the mutual edge `0 ↔ 1`. -/
theorem swapNodes_involution_witness :
    (0 ∈ dwsEx.active ∧ 1 ∈ dwsEx.active) ∧
    swapNodes (swapNodes dwsEx 0 1) 0 1 = dwsEx :=
  ⟨⟨by decide, by decide⟩,
    swapNodes_involution dwsEx 0 1 (by decide) (by decide)⟩

/-! ## C3: exactness of the predecessor index -/

theorem tau_injective (c d : Nat) : Function.Injective (tau c d) := by
  intro a b hab
  have h := congrArg (tau c d) hab
  rwa [tau_tau, tau_tau] at h

theorem chainIs_none {g : DWS} {x : Nat} {l : List Nat}
    (h : ChainIs g x none l) : l = [] := by
  cases h
  rfl

theorem chainIs_some {g : DWS} {x p : Nat} {l : List Nat}
    (h : ChainIs g x (some p) l) :
    ∃ rest, l = p :: rest ∧ ChainIs g x (g.preimNext p x) rest := by
  cases h with
  | cons h2 => exact ⟨_, rfl, h2⟩

theorem chainIs_det {g : DWS} {x : Nat} :
    ∀ {o : Option Nat} {l1 : List Nat}, ChainIs g x o l1 →
    ∀ {l2 : List Nat}, ChainIs g x o l2 → l1 = l2 := by
  intro o l1 h1
  induction h1 with
  | nil =>
    intro l2 h2
    exact (chainIs_none h2).symm
  | @cons p rest hrest ih =>
    intro l2 h2
    obtain ⟨rest2, hr2, hc2⟩ := chainIs_some h2
    rw [hr2, ih hc2]

theorem chainIs_frame {g g' : DWS} {x : Nat} {o : Option Nat} {l : List Nat}
    (h : ChainIs g x o l)
    (hnext : ∀ p ∈ l, g'.preimNext p x = g.preimNext p x) :
    ChainIs g' x o l := by
  induction h with
  | nil => exact ChainIs.nil
  | @cons p rest hrest ih =>
    apply ChainIs.cons
    rw [hnext p (List.mem_cons_self _ _)]
    exact ih (fun q hq => hnext q (List.mem_cons_of_mem _ hq))

theorem chainF_of_chainIs {g : DWS} {x : Nat} :
    ∀ {o : Option Nat} {l : List Nat}, ChainIs g x o l →
    ∀ fuel, l.length ≤ fuel → chainF g x fuel o = l := by
  intro o l h
  induction h with
  | nil =>
    intro fuel hf
    cases fuel <;> rfl
  | @cons p rest hrest ih =>
    intro fuel hf
    cases fuel with
    | zero => simp at hf
    | succ f =>
      show p :: chainF g x f (g.preimNext p x) = p :: rest
      rw [ih f (by simp only [List.length_cons] at hf; omega)]

theorem chainIs_conj {g : DWS} {c d x : Nat} {o : Option Nat} {l : List Nat}
    (h : ChainIs g x o l) :
    ChainIs (swapNodes g c d) x (Option.map (tau c d) o)
      (l.map (tau c d)) := by
  induction h with
  | nil => exact ChainIs.nil
  | @cons p rest hrest ih =>
    show ChainIs _ x (some (tau c d p)) (tau c d p :: rest.map (tau c d))
    apply ChainIs.cons
    have h1 : (swapNodes g c d).preimNext (tau c d p) x
        = Option.map (tau c d) (g.preimNext p x) := by
      show Option.map (tau c d) (g.preimNext (tau c d (tau c d p)) x) = _
      rw [tau_tau]
    rw [h1]
    exact ih

/-! ### Preservation: the initial graph and `add_edge_nc` -/

theorem invD_init (m n : Nat) : InvD (initDWS m n) := by
  refine ⟨List.nodup_range m, ?_, ?_⟩
  · intro p x t h
    exact Option.noConfusion h
  · intro c x
    exact ⟨[], ChainIs.nil, List.nodup_nil, fun p => by simp [initDWS]⟩

theorem invD_addEdge {g : DWS} {c d x : Nat} (hInv : InvD g)
    (hc : c ∈ g.active) (hd : d ∈ g.active) (hx : x < g.deg)
    (he : g.edge c x = none) : InvD (addEdgeNC g c d x) := by
  obtain ⟨hnd, hdom, hch⟩ := hInv
  refine ⟨hnd, ?_, ?_⟩
  · intro p y t h
    have h' : (if p = c ∧ y = x then some d else g.edge p y) = some t := h
    split at h'
    · rename_i hcond
      obtain ⟨hp, hy⟩ := hcond
      subst hp
      subst hy
      injection h' with h'
      subst h'
      exact ⟨hc, hd, hx⟩
    · exact hdom p y t h'
  · intro c2 y
    by_cases hy : y = x
    · subst hy
      by_cases hc2 : c2 = d
      · subst hc2
        obtain ⟨l, hl, hlnd, hlm⟩ := hch c2 y
        have hcl : c ∉ l := by
          intro hmem
          have h2 := (hlm c).mp hmem
          rw [he] at h2
          exact Option.noConfusion h2
        refine ⟨c :: l, ?_, List.nodup_cons.mpr ⟨hcl, hlnd⟩, ?_⟩
        · have h1 : (addEdgeNC g c c2 y).preimInit c2 y = some c := by
            simp [addEdgeNC]
          rw [h1]
          apply ChainIs.cons
          have h2 : (addEdgeNC g c c2 y).preimNext c y = g.preimInit c2 y := by
            simp [addEdgeNC]
          rw [h2]
          apply chainIs_frame hl
          intro p hp
          have hpc : p ≠ c := fun hh => hcl (hh ▸ hp)
          simp [addEdgeNC, hpc]
        · intro p
          constructor
          · intro hp
            rcases List.mem_cons.mp hp with hp | hp
            · subst hp
              simp [addEdgeNC]
            · have hpc : p ≠ c := fun hh => hcl (hh ▸ hp)
              have h2 := (hlm p).mp hp
              simp [addEdgeNC, hpc, h2]
          · intro hp
            by_cases hpc : p = c
            · subst hpc
              exact List.mem_cons_self _ _
            · have h2 : (addEdgeNC g c c2 y).edge p y = g.edge p y := by
                simp [addEdgeNC, hpc]
              rw [h2] at hp
              exact List.mem_cons_of_mem _ ((hlm p).mpr hp)
      · obtain ⟨l, hl, hlnd, hlm⟩ := hch c2 y
        have hcl : c ∉ l := by
          intro hmem
          have h2 := (hlm c).mp hmem
          rw [he] at h2
          exact Option.noConfusion h2
        refine ⟨l, ?_, hlnd, ?_⟩
        · have h1 : (addEdgeNC g c d y).preimInit c2 y = g.preimInit c2 y := by
            simp [addEdgeNC, hc2]
          rw [h1]
          apply chainIs_frame hl
          intro p hp
          have hpc : p ≠ c := fun hh => hcl (hh ▸ hp)
          simp [addEdgeNC, hpc]
        · intro p
          by_cases hpc : p = c
          · subst hpc
            constructor
            · intro hmem
              exact absurd hmem hcl
            · intro hh
              have h2 : (addEdgeNC g p d y).edge p y = some d := by
                simp [addEdgeNC]
              rw [h2] at hh
              injection hh with hh
              exact absurd hh.symm hc2
          · have h2 : (addEdgeNC g c d y).edge p y = g.edge p y := by
              simp [addEdgeNC, hpc]
            rw [h2]
            exact hlm p
    · obtain ⟨l, hl, hlnd, hlm⟩ := hch c2 y
      refine ⟨l, ?_, hlnd, ?_⟩
      · have h1 : (addEdgeNC g c d x).preimInit c2 y = g.preimInit c2 y := by
          simp [addEdgeNC, hy]
        rw [h1]
        apply chainIs_frame hl
        intro p hp
        simp [addEdgeNC, hy]
      · intro p
        have h2 : (addEdgeNC g c d x).edge p y = g.edge p y := by
          simp [addEdgeNC, hy]
        rw [h2]
        exact hlm p

/-! ### Preservation: `remove_source` and `remove_edge_nc` -/

theorem chainIs_cons_inv {g : DWS} {x : Nat} {o : Option Nat} {r : Nat}
    {rest : List Nat} (h : ChainIs g x o (r :: rest)) :
    o = some r ∧ ChainIs g x (g.preimNext r x) rest := by
  cases h with
  | cons h2 => exact ⟨rfl, h2⟩

theorem unlinkGo_spec {g : DWS} {x c : Nat} :
    ∀ (fuel : Nat) (h0 : Nat) (l : List Nat),
    ChainIs g x (some h0) l → l.Nodup → c ∈ l → c ≠ h0 → l.length ≤ fuel →
    ∃ q l', q ∈ l ∧ q ≠ c ∧
      unlinkGo g x c fuel h0 = { g with preimNext := fun s y =>
        if s = q ∧ y = x then g.preimNext c x else g.preimNext s y } ∧
      ChainIs (unlinkGo g x c fuel h0) x (some h0) l' ∧ l'.Nodup ∧
      (∀ p, p ∈ l' ↔ (p ∈ l ∧ p ≠ c)) := by
  intro fuel
  induction fuel with
  | zero =>
    intro h0 l hch hnd hc hch0 hlen
    obtain ⟨rest, hr, -⟩ := chainIs_some hch
    subst hr
    simp only [List.length_cons] at hlen
    omega
  | succ f ih =>
    intro h0 l hch hnd hc hch0 hlen
    obtain ⟨rest, hr, hchrest⟩ := chainIs_some hch
    subst hr
    have hcrest : c ∈ rest := by
      rcases List.mem_cons.mp hc with h | h
      · exact absurd h hch0
      · exact h
    cases rest with
    | nil => exact absurd hcrest (List.not_mem_nil c)
    | cons r rest2 =>
      obtain ⟨hnexth0, hchrest2⟩ := chainIs_cons_inv hchrest
      by_cases hrc : r = c
      · rw [hrc] at hnexth0 hchrest2 hnd ⊢
        have hh0ne : h0 ∉ c :: rest2 := (List.nodup_cons.mp hnd).1
        have hndtail : (c :: rest2).Nodup := (List.nodup_cons.mp hnd).2
        have hcnr2 : c ∉ rest2 := (List.nodup_cons.mp hndtail).1
        have hndr2 : rest2.Nodup := (List.nodup_cons.mp hndtail).2
        have hh0r2 : h0 ∉ rest2 := fun hh => hh0ne (List.mem_cons_of_mem _ hh)
        have hh0c : h0 ≠ c := fun hh => hch0 hh.symm
        have hresult : unlinkGo g x c (f + 1) h0 = { g with preimNext := fun s y => if s = h0 ∧ y = x then g.preimNext c x else g.preimNext s y } := by
          simp [unlinkGo, hnexth0]
        refine ⟨h0, h0 :: rest2, List.mem_cons_self _ _, hh0c, hresult, ?_, ?_, ?_⟩
        · rw [hresult]
          apply ChainIs.cons
          have h1 : ({ g with preimNext := fun s y => if s = h0 ∧ y = x then g.preimNext c x else g.preimNext s y } : DWS).preimNext h0 x = g.preimNext c x := by simp
          rw [h1]
          apply chainIs_frame hchrest2
          intro p hp
          have hph0 : p ≠ h0 := fun hh => hh0r2 (hh ▸ hp)
          simp [hph0]
        · exact List.nodup_cons.mpr ⟨hh0r2, hndr2⟩
        · intro p
          constructor
          · intro hp
            rcases List.mem_cons.mp hp with h | h
            · refine ⟨?_, ?_⟩
              · rw [h]
                exact List.mem_cons_self _ _
              · rw [h]
                exact hh0c
            · exact ⟨List.mem_cons_of_mem _ (List.mem_cons_of_mem _ h),
                fun hh => hcnr2 (hh ▸ h)⟩
          · rintro ⟨hp, hpc⟩
            rcases List.mem_cons.mp hp with h | h
            · rw [h]
              exact List.mem_cons_self _ _
            · rcases List.mem_cons.mp h with h2 | h2
              · exact absurd h2 hpc
              · exact List.mem_cons_of_mem _ h2
      · have hcr : c ≠ r := fun hh => hrc hh.symm
        have hndtail : (r :: rest2).Nodup := (List.nodup_cons.mp hnd).2
        have hh0tail : h0 ∉ r :: rest2 := (List.nodup_cons.mp hnd).1
        have hresult : unlinkGo g x c (f + 1) h0 = unlinkGo g x c f r := by
          simp [unlinkGo, hnexth0, hrc]
        have hchr : ChainIs g x (some r) (r :: rest2) := by
          rw [← hnexth0]
          exact hchrest
        obtain ⟨q, l', hql, hqc, heq, hch', hnd', hm'⟩ := ih r (r :: rest2)
          hchr hndtail hcrest hcr
          (by simp only [List.length_cons] at hlen ⊢; omega)
        refine ⟨q, h0 :: l', List.mem_cons_of_mem _ hql, hqc, ?_, ?_, ?_, ?_⟩
        · rw [hresult]
          exact heq
        · rw [hresult]
          apply ChainIs.cons
          have hh0q : h0 ≠ q := fun hh => hh0tail (hh ▸ hql)
          have h1 : (unlinkGo g x c f r).preimNext h0 x = g.preimNext h0 x := by
            rw [heq]
            show (if h0 = q ∧ x = x then g.preimNext c x else g.preimNext h0 x)
              = g.preimNext h0 x
            rw [if_neg (fun hh => hh0q hh.1)]
          rw [h1, hnexth0]
          exact hch'
        · apply List.nodup_cons.mpr
          refine ⟨?_, hnd'⟩
          intro hmem
          exact hh0tail ((hm' h0).mp hmem).1
        · intro p
          constructor
          · intro hp
            rcases List.mem_cons.mp hp with h | h
            · refine ⟨?_, ?_⟩
              · rw [h]
                exact List.mem_cons_self _ _
              · rw [h]
                exact fun hh => hch0 hh.symm
            · have h2 := (hm' p).mp h
              exact ⟨List.mem_cons_of_mem _ h2.1, h2.2⟩
          · rintro ⟨hp, hpc⟩
            rcases List.mem_cons.mp hp with h | h
            · rw [h]
              exact List.mem_cons_self _ _
            · exact List.mem_cons_of_mem _ ((hm' p).mpr ⟨h, hpc⟩)

theorem removeSource_spec' {g : DWS} {d x c : Nat} {l : List Nat}
    (hl : ChainIs g x (g.preimInit d x) l) (hnd : l.Nodup) (hc : c ∈ l)
    (hfuel : l.length ≤ g.active.length + 1) :
    ∃ q, q ∈ l ∧
      (removeSource g d x c).deg = g.deg ∧
      (removeSource g d x c).active = g.active ∧
      (removeSource g d x c).edge = g.edge ∧
      (∀ c2 y, ¬(c2 = d ∧ y = x) →
        (removeSource g d x c).preimInit c2 y = g.preimInit c2 y) ∧
      (∀ p y, ¬(p = q ∧ y = x) →
        (removeSource g d x c).preimNext p y = g.preimNext p y) ∧
      ∃ l', ChainIs (removeSource g d x c) x
          ((removeSource g d x c).preimInit d x) l' ∧ l'.Nodup ∧
        ∀ p, p ∈ l' ↔ (p ∈ l ∧ p ≠ c) := by
  cases l with
  | nil => exact absurd hc (List.not_mem_nil c)
  | cons h0 rest =>
    obtain ⟨hinit, hchrest⟩ := chainIs_cons_inv hl
    by_cases hh0c : h0 = c
    · rw [hh0c] at hinit hchrest hnd ⊢
      have hresult : removeSource g d x c = { g with preimInit := fun s y => if s = d ∧ y = x then g.preimNext c x else g.preimInit s y } := by
        simp [removeSource, hinit]
      refine ⟨c, List.mem_cons_self _ _, ?_, ?_, ?_, ?_, ?_, ?_⟩
      · rw [hresult]
      · rw [hresult]
      · rw [hresult]
      · intro c2 y hcond
        rw [hresult]
        show (if c2 = d ∧ y = x then g.preimNext c x else g.preimInit c2 y)
          = g.preimInit c2 y
        rw [if_neg hcond]
      · intro p y _hcond
        rw [hresult]
      · refine ⟨rest, ?_, (List.nodup_cons.mp hnd).2, ?_⟩
        · rw [hresult]
          have h1 : ({ g with preimInit := fun s y => if s = d ∧ y = x then g.preimNext c x else g.preimInit s y } : DWS).preimInit d x = g.preimNext c x := by simp
          rw [h1]
          exact chainIs_frame hchrest (fun p hp => rfl)
        · intro p
          constructor
          · intro hp
            exact ⟨List.mem_cons_of_mem _ hp,
              fun hh => (List.nodup_cons.mp hnd).1 (hh ▸ hp)⟩
          · rintro ⟨hp, hpc⟩
            rcases List.mem_cons.mp hp with h | h
            · exact absurd h hpc
            · exact h
    · have hch0 : c ≠ h0 := fun hh => hh0c hh.symm
      have hl2 : ChainIs g x (some h0) (h0 :: rest) := by
        rw [← hinit]
        exact hl
      have hresult : removeSource g d x c
          = unlinkGo g x c (g.active.length + 1) h0 := by
        simp [removeSource, hinit, hh0c]
      obtain ⟨q, l', hql, hqc, heq, hch', hnd', hm'⟩ := unlinkGo_spec
        (g.active.length + 1) h0 (h0 :: rest) hl2 hnd hc hch0 hfuel
      refine ⟨q, hql, ?_, ?_, ?_, ?_, ?_, ?_⟩
      · rw [hresult, heq]
      · rw [hresult, heq]
      · rw [hresult, heq]
      · intro c2 y _hcond
        rw [hresult, heq]
      · intro p y hcond
        rw [hresult, heq]
        show (if p = q ∧ y = x then g.preimNext c x else g.preimNext p y)
          = g.preimNext p y
        rw [if_neg hcond]
      · refine ⟨l', ?_, hnd', hm'⟩
        rw [hresult]
        have h1 : (unlinkGo g x c (g.active.length + 1) h0).preimInit d x
            = some h0 := by
          rw [heq]
          exact hinit
        rw [h1]
        exact hch'

theorem invD_removeEdge {g : DWS} {c x : Nat} (hInv : InvD g)
    (hsome : (g.edge c x).isSome) : InvD (removeEdgeNC g c x) := by
  obtain ⟨d, he⟩ := Option.isSome_iff_exists.mp hsome
  obtain ⟨l, hl, hlnd, hlm⟩ := hInv.chains d x
  have hcl : c ∈ l := (hlm c).mpr he
  have hsub : ∀ p ∈ l, p ∈ g.active :=
    fun p hp => (hInv.edgeDom p x d ((hlm p).mp hp)).1
  have hfuel : l.length ≤ g.active.length + 1 := by
    have := (hlnd.subperm hsub).length_le
    omega
  obtain ⟨q, hql, hdeg, hact, hedge, hinitf, hnextf, l', hch', hnd', hm'⟩ :=
    removeSource_spec' hl hlnd hcl hfuel
  have hqe : g.edge q x = some d := (hlm q).mp hql
  have hred : removeEdgeNC g c x = { removeSource g d x c with edge := fun r y => if r = c ∧ y = x then none else (removeSource g d x c).edge r y } := by
    simp [removeEdgeNC, he]
  rw [hred]
  refine ⟨?_, ?_, ?_⟩
  · show (removeSource g d x c).active.Nodup
    rw [hact]
    exact hInv.activeNodup
  · intro p y t h
    have h' : (if p = c ∧ y = x then none
        else (removeSource g d x c).edge p y) = some t := h
    split at h'
    · exact Option.noConfusion h'
    · rw [hedge] at h'
      have h2 := hInv.edgeDom p y t h'
      refine ⟨?_, ?_, ?_⟩
      · show p ∈ (removeSource g d x c).active
        rw [hact]
        exact h2.1
      · show t ∈ (removeSource g d x c).active
        rw [hact]
        exact h2.2.1
      · show y < (removeSource g d x c).deg
        rw [hdeg]
        exact h2.2.2
  · intro c2 y
    by_cases hy : y = x
    · subst hy
      by_cases hc2 : c2 = d
      · subst hc2
        refine ⟨l', ?_, hnd', ?_⟩
        · exact chainIs_frame hch' (fun p hp => rfl)
        · intro p
          rw [hm' p]
          constructor
          · rintro ⟨hp, hpc⟩
            have h2 := (hlm p).mp hp
            show (if p = c ∧ y = y then none
              else (removeSource g c2 y c).edge p y) = some c2
            rw [if_neg (fun hh => hpc hh.1), hedge]
            exact h2
          · intro hp
            have h3 : (if p = c ∧ y = y then none
                else (removeSource g c2 y c).edge p y) = some c2 := hp
            split at h3
            · exact absurd h3 (by simp)
            · rename_i hcond
              rw [hedge] at h3
              refine ⟨(hlm p).mpr h3, ?_⟩
              intro hh
              exact hcond ⟨hh, rfl⟩
      · obtain ⟨l2, hl2, hl2nd, hl2m⟩ := hInv.chains c2 y
        have hqnot : q ∉ l2 := by
          intro hmem
          have h2 := (hl2m q).mp hmem
          rw [hqe] at h2
          injection h2 with h2
          exact hc2 h2.symm
        refine ⟨l2, ?_, hl2nd, ?_⟩
        · have h1 : ({ removeSource g d y c with edge := fun r y2 => if r = c ∧ y2 = y then none else (removeSource g d y c).edge r y2 } : DWS).preimInit c2 y = g.preimInit c2 y := hinitf c2 y (fun hh => hc2 hh.1)
          rw [h1]
          apply chainIs_frame hl2
          intro p hp
          have hpq : p ≠ q := fun hh => hqnot (hh ▸ hp)
          exact hnextf p y (fun hh => hpq hh.1)
        · intro p
          rw [hl2m p]
          by_cases hpc : p = c
          · subst hpc
            constructor
            · intro hmem
              rw [he] at hmem
              injection hmem with hmem
              exact absurd hmem.symm hc2
            · intro hmem
              have h3 : (if p = p ∧ y = y then none
                  else (removeSource g d y p).edge p y) = some c2 := hmem
              rw [if_pos ⟨rfl, rfl⟩] at h3
              exact Option.noConfusion h3
          · constructor
            · intro hmem
              show (if p = c ∧ y = y then none
                else (removeSource g d y c).edge p y) = some c2
              rw [if_neg (fun hh => hpc hh.1), hedge]
              exact hmem
            · intro hmem
              have h3 : (if p = c ∧ y = y then none
                  else (removeSource g d y c).edge p y) = some c2 := hmem
              rw [if_neg (fun hh => hpc hh.1), hedge] at h3
              exact h3
    · obtain ⟨l2, hl2, hl2nd, hl2m⟩ := hInv.chains c2 y
      refine ⟨l2, ?_, hl2nd, ?_⟩
      · have h1 : ({ removeSource g d x c with edge := fun r y => if r = c ∧ y = x then none else (removeSource g d x c).edge r y } : DWS).preimInit c2 y = g.preimInit c2 y := hinitf c2 y (fun hh => hy hh.2)
        rw [h1]
        apply chainIs_frame hl2
        intro p hp
        exact hnextf p y (fun hh => hy hh.2)
      · intro p
        rw [hl2m p]
        constructor
        · intro hmem
          show (if p = c ∧ y = x then none
            else (removeSource g d x c).edge p y) = some c2
          rw [if_neg (fun hh => hy hh.2), hedge]
          exact hmem
        · intro hmem
          have h3 : (if p = c ∧ y = x then none
              else (removeSource g d x c).edge p y) = some c2 := hmem
          rw [if_neg (fun hh => hy hh.2), hedge] at h3
          exact h3

/-! ### Preservation: `swap_nodes` and `rename_node` -/

theorem invD_conj {g : DWS} (hInv : InvD g) (c d : Nat) (act2 : List Nat)
    (hnd2 : act2.Nodup) (hiff : ∀ p, p ∈ act2 ↔ tau c d p ∈ g.active) :
    InvD { swapNodes g c d with active := act2 } := by
  obtain ⟨hnd, hdom, hch⟩ := hInv
  refine ⟨hnd2, ?_, ?_⟩
  · intro p y t h
    have h' : Option.map (tau c d) (g.edge (tau c d p) y) = some t := h
    cases hg : g.edge (tau c d p) y with
    | none =>
      rw [hg] at h'
      exact Option.noConfusion h'
    | some t0 =>
      rw [hg] at h'
      simp only [Option.map_some', Option.some.injEq] at h'
      obtain ⟨h1, h2b, h3⟩ := hdom (tau c d p) y t0 hg
      refine ⟨(hiff p).mpr h1, ?_, h3⟩
      rw [← h']
      apply (hiff (tau c d t0)).mpr
      rw [tau_tau]
      exact h2b
  · intro c2 y
    obtain ⟨l, hl, hlnd, hlm⟩ := hch (tau c d c2) y
    refine ⟨l.map (tau c d), ?_, List.Nodup.map (tau_injective c d) hlnd, ?_⟩
    · have h1 : ({ swapNodes g c d with active := act2 } : DWS).preimInit c2 y
          = Option.map (tau c d) (g.preimInit (tau c d c2) y) := rfl
      rw [h1]
      exact chainIs_frame (chainIs_conj hl) (fun p hp => rfl)
    · intro p
      constructor
      · intro hp
        obtain ⟨p0, hp0, hpeq⟩ := List.mem_map.mp hp
        have h2 := (hlm p0).mp hp0
        show Option.map (tau c d) (g.edge (tau c d p) y) = some c2
        rw [← hpeq, tau_tau, h2]
        show some (tau c d (tau c d c2)) = some c2
        rw [tau_tau]
      · intro hp
        have hp' : Option.map (tau c d) (g.edge (tau c d p) y) = some c2 := hp
        have h2 : g.edge (tau c d p) y = some (tau c d c2) := by
          cases hg : g.edge (tau c d p) y with
          | none =>
            rw [hg] at hp'
            exact Option.noConfusion hp'
          | some t0 =>
            rw [hg] at hp'
            simp only [Option.map_some', Option.some.injEq] at hp'
            rw [← hp', tau_tau]
        have hp0 : tau c d p ∈ l := (hlm (tau c d p)).mpr h2
        have h3 := List.mem_map_of_mem (tau c d) hp0
        rwa [tau_tau] at h3

theorem invD_swap {g : DWS} (hInv : InvD g) {c d : Nat}
    (hc : c ∈ g.active) (hd : d ∈ g.active) : InvD (swapNodes g c d) := by
  have h := invD_conj hInv c d g.active hInv.activeNodup ?_
  · exact h
  · intro p
    constructor
    · intro hp
      unfold tau
      split_ifs with h1 h2
      · exact hd
      · exact hc
      · exact hp
    · intro hp
      by_cases hpc : p = c
      · rw [hpc]
        exact hc
      · by_cases hpd : p = d
        · rw [hpd]
          exact hd
        · unfold tau at hp
          rw [if_neg hpc, if_neg hpd] at hp
          exact hp

theorem invD_rename {g : DWS} (hInv : InvD g) {c d : Nat} :
    InvD (renameNode g c d) := by
  apply invD_conj hInv c d (g.active.map (tau c d))
    (List.Nodup.map (tau_injective c d) hInv.activeNodup)
  intro p
  constructor
  · intro hp
    obtain ⟨p0, hp0, hpeq⟩ := List.mem_map.mp hp
    rw [← hpeq, tau_tau]
    exact hp0
  · intro hp
    have h2 := List.mem_map_of_mem (tau c d) hp
    rwa [tau_tau] at h2

/-! ### Preservation: `merge_nodes` step 1 -/

theorem retarget_edge (g : DWS) (mi ma p x r y : Nat) :
    (retarget g mi ma p x).edge r y
      = if r = p ∧ y = x then some mi else g.edge r y := rfl

theorem retarget_init (g : DWS) (mi ma p x r y : Nat) :
    (retarget g mi ma p x).preimInit r y
      = if r = ma ∧ y = x then g.preimNext p x
        else if r = mi ∧ y = x then some p
        else g.preimInit r y := rfl

theorem retarget_next (g : DWS) (mi ma p x r y : Nat) :
    (retarget g mi ma p x).preimNext r y
      = if r = p ∧ y = x then g.preimInit mi x else g.preimNext r y := rfl

theorem invD_retarget {g : DWS} {mi ma p x : Nat} (hne : mi ≠ ma)
    (hInv : InvD g) (hmi : mi ∈ g.active) (hpe : g.edge p x = some ma)
    {rest : List Nat} (hchrest : ChainIs g x (g.preimNext p x) rest)
    (hndl : (p :: rest).Nodup)
    (hlm : ∀ q, q ∈ p :: rest ↔ g.edge q x = some ma) :
    InvD (retarget g mi ma p x) ∧
    ChainIs (retarget g mi ma p x) x
      ((retarget g mi ma p x).preimInit ma x) rest := by
  have hpnr : p ∉ rest := (List.nodup_cons.mp hndl).1
  have hndrest : rest.Nodup := (List.nodup_cons.mp hndl).2
  have hchmaNew : ChainIs (retarget g mi ma p x) x
      ((retarget g mi ma p x).preimInit ma x) rest := by
    have h1 : (retarget g mi ma p x).preimInit ma x = g.preimNext p x := by
      rw [retarget_init, if_pos ⟨rfl, rfl⟩]
    rw [h1]
    apply chainIs_frame hchrest
    intro q hq
    have hqp : q ≠ p := fun hh => hpnr (hh ▸ hq)
    rw [retarget_next, if_neg (fun hh => hqp hh.1)]
  refine ⟨⟨hInv.activeNodup, ?_, ?_⟩, hchmaNew⟩
  · intro q y t h
    rw [retarget_edge] at h
    split at h
    · rename_i hcond
      obtain ⟨hq, hy⟩ := hcond
      subst hq
      subst hy
      injection h with h
      subst h
      exact ⟨(hInv.edgeDom q y ma hpe).1, hmi, (hInv.edgeDom q y ma hpe).2.2⟩
    · exact hInv.edgeDom q y t h
  · intro c2 y
    by_cases hy : y = x
    · subst hy
      by_cases hc2 : c2 = ma
      · rw [hc2]
        refine ⟨rest, hchmaNew, hndrest, ?_⟩
        intro q
        constructor
        · intro hq
          have hqp : q ≠ p := fun hh => hpnr (hh ▸ hq)
          rw [retarget_edge, if_neg (fun hh => hqp hh.1)]
          exact (hlm q).mp (List.mem_cons_of_mem _ hq)
        · intro hq
          rw [retarget_edge] at hq
          split at hq
          · injection hq with hq
            exact absurd hq hne
          · rename_i hcond
            have hql := (hlm q).mpr hq
            rcases List.mem_cons.mp hql with h | h
            · exact absurd ⟨h, rfl⟩ hcond
            · exact h
      · by_cases hc2mi : c2 = mi
        · rw [hc2mi]
          obtain ⟨lmi, hlmi, hndmi, hmmi⟩ := hInv.chains mi y
          have hpnlmi : p ∉ lmi := by
            intro hmem
            have h2 := (hmmi p).mp hmem
            rw [hpe] at h2
            injection h2 with h2
            exact hne h2.symm
          refine ⟨p :: lmi, ?_, List.nodup_cons.mpr ⟨hpnlmi, hndmi⟩, ?_⟩
          · have h1 : (retarget g mi ma p y).preimInit mi y = some p := by
              rw [retarget_init, if_neg (fun hh => hne hh.1),
                if_pos ⟨rfl, rfl⟩]
            rw [h1]
            apply ChainIs.cons
            have h2 : (retarget g mi ma p y).preimNext p y
                = g.preimInit mi y := by
              rw [retarget_next, if_pos ⟨rfl, rfl⟩]
            rw [h2]
            apply chainIs_frame hlmi
            intro q hq
            have hqp : q ≠ p := fun hh => hpnlmi (hh ▸ hq)
            rw [retarget_next, if_neg (fun hh => hqp hh.1)]
          · intro q
            constructor
            · intro hq
              rcases List.mem_cons.mp hq with h | h
              · rw [h, retarget_edge, if_pos ⟨rfl, rfl⟩]
              · have hqp : q ≠ p := fun hh => hpnlmi (hh ▸ h)
                rw [retarget_edge, if_neg (fun hh => hqp hh.1)]
                exact (hmmi q).mp h
            · intro hq
              rw [retarget_edge] at hq
              split at hq
              · rename_i hcond
                rw [hcond.1]
                exact List.mem_cons_self _ _
              · exact List.mem_cons_of_mem _ ((hmmi q).mpr hq)
        · obtain ⟨l2, hl2, hnd2, hm2⟩ := hInv.chains c2 y
          have hpnl2 : p ∉ l2 := by
            intro hmem
            have h2 := (hm2 p).mp hmem
            rw [hpe] at h2
            injection h2 with h2
            exact hc2 h2.symm
          refine ⟨l2, ?_, hnd2, ?_⟩
          · have h1 : (retarget g mi ma p y).preimInit c2 y
                = g.preimInit c2 y := by
              rw [retarget_init, if_neg (fun hh => hc2 hh.1),
                if_neg (fun hh => hc2mi hh.1)]
            rw [h1]
            apply chainIs_frame hl2
            intro q hq
            have hqp : q ≠ p := fun hh => hpnl2 (hh ▸ hq)
            rw [retarget_next, if_neg (fun hh => hqp hh.1)]
          · intro q
            constructor
            · intro hq
              have hqp : q ≠ p := fun hh => hpnl2 (hh ▸ hq)
              rw [retarget_edge, if_neg (fun hh => hqp hh.1)]
              exact (hm2 q).mp hq
            · intro hq
              rw [retarget_edge] at hq
              split at hq
              · injection hq with hq
                exact absurd hq.symm hc2mi
              · exact (hm2 q).mpr hq
    · obtain ⟨l2, hl2, hnd2, hm2⟩ := hInv.chains c2 y
      refine ⟨l2, ?_, hnd2, ?_⟩
      · have h1 : (retarget g mi ma p x).preimInit c2 y = g.preimInit c2 y := by
          rw [retarget_init, if_neg (fun hh => hy hh.2),
            if_neg (fun hh => hy hh.2)]
        rw [h1]
        apply chainIs_frame hl2
        intro q hq
        rw [retarget_next, if_neg (fun hh => hy hh.2)]
      · intro q
        rw [retarget_edge, if_neg (fun hh => hy hh.2)]
        exact hm2 q

theorem mergeIncGo_spec {mi ma : Nat} (hne : mi ≠ ma) (x : Nat) :
    ∀ (fuel : Nat) (g : DWS), InvD g → mi ∈ g.active →
    (∀ l, ChainIs g x (g.preimInit ma x) l → l.length ≤ fuel) →
    InvD (mergeIncGo mi ma x fuel g) ∧
    (mergeIncGo mi ma x fuel g).active = g.active ∧
    (mergeIncGo mi ma x fuel g).deg = g.deg ∧
    (∀ p, (mergeIncGo mi ma x fuel g).edge p x ≠ some ma) ∧
    (∀ p y, y ≠ x → (mergeIncGo mi ma x fuel g).edge p y = g.edge p y) := by
  intro fuel
  induction fuel with
  | zero =>
    intro g hInv hmi hfuel
    obtain ⟨l, hl, hlnd, hlm⟩ := hInv.chains ma x
    have hl0 : l = [] := List.length_eq_zero.mp (Nat.le_zero.mp (hfuel l hl))
    subst hl0
    refine ⟨hInv, rfl, rfl, ?_, fun p y _ => rfl⟩
    intro p hp
    exact absurd ((hlm p).mpr hp) (List.not_mem_nil p)
  | succ f ih =>
    intro g hInv hmi hfuel
    obtain ⟨l, hl, hlnd, hlm⟩ := hInv.chains ma x
    cases hini : g.preimInit ma x with
    | none =>
      have hres : mergeIncGo mi ma x (f + 1) g = g := by
        simp [mergeIncGo, hini]
      rw [hres]
      rw [hini] at hl
      have hl0 : l = [] := chainIs_none hl
      subst hl0
      refine ⟨hInv, rfl, rfl, ?_, fun p y _ => rfl⟩
      intro p hp
      exact absurd ((hlm p).mpr hp) (List.not_mem_nil p)
    | some p =>
      rw [hini] at hl
      obtain ⟨rest, hr, hchrest⟩ := chainIs_some hl
      subst hr
      have hpe : g.edge p x = some ma := (hlm p).mp (List.mem_cons_self _ _)
      have hstep : mergeIncGo mi ma x (f + 1) g
          = mergeIncGo mi ma x f (retarget g mi ma p x) := by
        simp [mergeIncGo, hini, hpe]
      rw [hstep]
      obtain ⟨hInv', hchrest'⟩ :=
        invD_retarget hne hInv hmi hpe hchrest hlnd hlm
      have hfuel' : ∀ l2, ChainIs (retarget g mi ma p x) x
          ((retarget g mi ma p x).preimInit ma x) l2 → l2.length ≤ f := by
        intro l2 h2
        rw [chainIs_det h2 hchrest']
        have h3 := hfuel (p :: rest) (by rw [hini]; exact hl)
        simp only [List.length_cons] at h3
        omega
      obtain ⟨a1, a2, a3, a4, a5⟩ := ih (retarget g mi ma p x) hInv' hmi hfuel'
      refine ⟨a1, ?_, ?_, a4, ?_⟩
      · rw [a2]
        rfl
      · rw [a3]
        rfl
      · intro p2 y hy
        rw [a5 p2 y hy, retarget_edge, if_neg (fun hh => hy hh.2)]

theorem mergeInc_fold {mi ma : Nat} (hne : mi ≠ ma) :
    ∀ (ys : List Nat) (g : DWS), InvD g → mi ∈ g.active →
    InvD (ys.foldl (fun h x => mergeIncGo mi ma x (h.active.length + 1) h) g) ∧
    (ys.foldl (fun h x => mergeIncGo mi ma x (h.active.length + 1) h) g).active
      = g.active ∧
    (ys.foldl (fun h x => mergeIncGo mi ma x (h.active.length + 1) h) g).deg
      = g.deg ∧
    (∀ p y, y ∈ ys →
      (ys.foldl (fun h x => mergeIncGo mi ma x (h.active.length + 1) h) g).edge p y
        ≠ some ma) ∧
    (∀ p y, y ∉ ys →
      (ys.foldl (fun h x => mergeIncGo mi ma x (h.active.length + 1) h) g).edge p y
        = g.edge p y) := by
  intro ys
  induction ys with
  | nil =>
    intro g hInv hmi
    exact ⟨hInv, rfl, rfl,
      fun p y hy => absurd hy (List.not_mem_nil y), fun p y _ => rfl⟩
  | cons x ys ih =>
    intro g hInv hmi
    have hfuel : ∀ l, ChainIs g x (g.preimInit ma x) l →
        l.length ≤ g.active.length + 1 := by
      intro l hl2
      obtain ⟨l0, hl0, hnd0, hm0⟩ := hInv.chains ma x
      rw [chainIs_det hl2 hl0]
      have hsub : ∀ q ∈ l0, q ∈ g.active :=
        fun q hq => (hInv.edgeDom q x ma ((hm0 q).mp hq)).1
      have := (hnd0.subperm hsub).length_le
      omega
    obtain ⟨b1, b2, b3, b4, b5⟩ :=
      mergeIncGo_spec hne x (g.active.length + 1) g hInv hmi hfuel
    obtain ⟨c1, c2, c3, c4, c5⟩ :=
      ih (mergeIncGo mi ma x (g.active.length + 1) g) b1 (by rw [b2]; exact hmi)
    refine ⟨?_, ?_, ?_, ?_, ?_⟩
    · simp only [List.foldl_cons]
      exact c1
    · simp only [List.foldl_cons]
      rw [c2, b2]
    · simp only [List.foldl_cons]
      rw [c3, b3]
    · intro p y hy
      simp only [List.foldl_cons]
      rcases List.mem_cons.mp hy with h | h
      · subst h
        by_cases hmem : y ∈ ys
        · exact c4 p y hmem
        · rw [c5 p y hmem]
          exact b4 p
      · exact c4 p y h
    · intro p y hy
      simp only [List.foldl_cons]
      have hyx : y ≠ x := fun hh => hy (by rw [hh]; exact List.mem_cons_self _ _)
      have hyys : y ∉ ys := fun hh => hy (List.mem_cons_of_mem _ hh)
      rw [c5 p y hyys, b5 p y hyx]

/-! ### Preservation: `merge_nodes` step 2 -/

theorem transplant_edge (g2 : DWS) (mi t x r y : Nat) :
    (transplant g2 mi t x).edge r y
      = if r = mi ∧ y = x then some t else g2.edge r y := rfl

theorem transplant_init (g2 : DWS) (mi t x r y : Nat) :
    (transplant g2 mi t x).preimInit r y
      = if r = t ∧ y = x then some mi else g2.preimInit r y := rfl

theorem transplant_next (g2 : DWS) (mi t x r y : Nat) :
    (transplant g2 mi t x).preimNext r y
      = if r = mi ∧ y = x then g2.preimInit t x else g2.preimNext r y := rfl

theorem mergeOut_spec {mi ma x : Nat} (hne : mi ≠ ma) {g : DWS}
    {D : Nat → Prop} (hDx : ¬ D x)
    (hmi : mi ∈ g.active)
    (hdom : ∀ p y t, g.edge p y = some t →
      p ∈ g.active ∧ t ∈ g.active ∧ y < g.deg)
    (hnoin : ∀ p y, g.edge p y ≠ some ma)
    (hch : ∀ c2 y, ∃ l, ChainIs g y (g.preimInit c2 y) l ∧ l.Nodup ∧
      ∀ p, p ∈ l ↔ (g.edge p y = some c2 ∧ (D y → p ≠ ma))) :
    (mergeOut mi ma x g).active = g.active ∧
    (mergeOut mi ma x g).deg = g.deg ∧
    (∀ p y t, (mergeOut mi ma x g).edge p y = some t →
      p ∈ g.active ∧ t ∈ g.active ∧ y < g.deg) ∧
    (∀ p y, (mergeOut mi ma x g).edge p y ≠ some ma) ∧
    (∀ c2 y, ∃ l, ChainIs (mergeOut mi ma x g) y
        ((mergeOut mi ma x g).preimInit c2 y) l ∧ l.Nodup ∧
      ∀ p, p ∈ l ↔ ((mergeOut mi ma x g).edge p y = some c2 ∧
        ((D y ∨ y = x) → p ≠ ma))) := by
  cases hema : g.edge ma x with
  | none =>
    have hres : mergeOut mi ma x g = g := by
      simp [mergeOut, hema]
    rw [hres]
    refine ⟨rfl, rfl, hdom, hnoin, ?_⟩
    intro c2 y
    obtain ⟨l, h1, h2, h3⟩ := hch c2 y
    refine ⟨l, h1, h2, fun p => (h3 p).trans ?_⟩
    apply and_congr_right
    intro hme
    constructor
    · intro hg
      rintro (hD | hyx)
      · exact hg hD
      · intro hpma
        rw [hpma, hyx, hema] at hme
        exact Option.noConfusion hme
    · intro hg hD
      exact hg (Or.inl hD)
  | some t =>
    have htne : t ≠ ma := by
      intro hh
      rw [hh] at hema
      exact hnoin ma x hema
    obtain ⟨lt, hlt, hndt, hmt⟩ := hch t x
    have hmalt : ma ∈ lt := (hmt ma).mpr ⟨hema, fun hD => absurd hD hDx⟩
    have hsub : ∀ q ∈ lt, q ∈ g.active :=
      fun q hq => (hdom q x t ((hmt q).mp hq).1).1
    have hfuelt : lt.length ≤ g.active.length + 1 := by
      have := (hndt.subperm hsub).length_le
      omega
    obtain ⟨q, hql, hdeg2, hact2, hedge2, hinitf, hnextf, l', hch', hnd', hm'⟩ :=
      removeSource_spec' hlt hndt hmalt hfuelt
    have hqe : g.edge q x = some t := ((hmt q).mp hql).1
    cases hemi : g.edge mi x with
    | some t2 =>
      have hres : mergeOut mi ma x g = removeSource g t x ma := by
        simp [mergeOut, hema, hemi]
      rw [hres]
      refine ⟨hact2, hdeg2, ?_, ?_, ?_⟩
      · intro p y t3 h
        rw [hedge2] at h
        exact hdom p y t3 h
      · intro p y
        rw [hedge2]
        exact hnoin p y
      · intro c2 y
        by_cases hy : y = x
        · subst hy
          by_cases hc2 : c2 = t
          · rw [hc2]
            refine ⟨l', hch', hnd', ?_⟩
            intro p
            rw [hm' p]
            constructor
            · rintro ⟨hp, hpma⟩
              exact ⟨by rw [hedge2]; exact ((hmt p).mp hp).1, fun _ => hpma⟩
            · rintro ⟨hp, hguard⟩
              rw [hedge2] at hp
              exact ⟨(hmt p).mpr ⟨hp, fun hD => absurd hD hDx⟩,
                hguard (Or.inr rfl)⟩
          · obtain ⟨l2, hl2, hnd2, hm2⟩ := hch c2 y
            have hqn2 : q ∉ l2 := by
              intro hmem
              have h2 := ((hm2 q).mp hmem).1
              rw [hqe] at h2
              injection h2 with h2
              exact hc2 h2.symm
            refine ⟨l2, ?_, hnd2, ?_⟩
            · rw [hinitf c2 y (fun hh => hc2 hh.1)]
              apply chainIs_frame hl2
              intro p hp
              exact hnextf p y (fun hh => hqn2 (hh.1 ▸ hp))
            · intro p
              rw [hm2 p, hedge2]
              apply and_congr_right
              intro hme
              constructor
              · intro hg
                rintro (hD | hyx)
                · exact hg hD
                · intro hpma
                  rw [hpma, hema] at hme
                  injection hme with hme
                  exact hc2 hme.symm
              · intro hg hD
                exact hg (Or.inl hD)
        · obtain ⟨l2, hl2, hnd2, hm2⟩ := hch c2 y
          refine ⟨l2, ?_, hnd2, ?_⟩
          · rw [hinitf c2 y (fun hh => hy hh.2)]
            apply chainIs_frame hl2
            intro p hp
            exact hnextf p y (fun hh => hy hh.2)
          · intro p
            rw [hm2 p, hedge2]
            apply and_congr_right
            intro hme
            constructor
            · intro hg
              rintro (hD | hyx)
              · exact hg hD
              · exact absurd hyx hy
            · intro hg hD
              exact hg (Or.inl hD)
    | none =>
      have hres : mergeOut mi ma x g
          = transplant (removeSource g t x ma) mi t x := by
        simp [mergeOut, hema, hemi]
      rw [hres]
      have hminlt : mi ∉ lt := by
        intro hmem
        have h2 := ((hmt mi).mp hmem).1
        rw [hemi] at h2
        exact Option.noConfusion h2
      have htact := (hdom ma x t hema).2.1
      have hxdeg := (hdom ma x t hema).2.2
      refine ⟨hact2, hdeg2, ?_, ?_, ?_⟩
      · intro p y t3 h
        rw [transplant_edge] at h
        split at h
        · rename_i hcond
          obtain ⟨hp, hy⟩ := hcond
          injection h with h
          subst hp
          subst hy
          subst h
          exact ⟨hmi, htact, hxdeg⟩
        · rw [hedge2] at h
          exact hdom p y t3 h
      · intro p y
        rw [transplant_edge]
        split
        · intro hh
          injection hh with hh
          exact htne hh
        · rw [hedge2]
          exact hnoin p y
      · intro c2 y
        by_cases hy : y = x
        · subst hy
          by_cases hc2 : c2 = t
          · rw [hc2]
            have hminl' : mi ∉ l' := by
              intro hmem
              exact hminlt ((hm' mi).mp hmem).1
            refine ⟨mi :: l', ?_, List.nodup_cons.mpr ⟨hminl', hnd'⟩, ?_⟩
            · have h1 : (transplant (removeSource g t y ma) mi t y).preimInit t y
                  = some mi := by
                rw [transplant_init, if_pos ⟨rfl, rfl⟩]
              rw [h1]
              apply ChainIs.cons
              have h2 : (transplant (removeSource g t y ma) mi t y).preimNext mi y
                  = (removeSource g t y ma).preimInit t y := by
                rw [transplant_next, if_pos ⟨rfl, rfl⟩]
              rw [h2]
              apply chainIs_frame hch'
              intro p hp
              have hpmi : p ≠ mi := fun hh => hminl' (hh ▸ hp)
              rw [transplant_next, if_neg (fun hh => hpmi hh.1)]
            · intro p
              constructor
              · intro hp
                rcases List.mem_cons.mp hp with h | h
                · refine ⟨?_, fun _ => ?_⟩
                  · rw [h, transplant_edge, if_pos ⟨rfl, rfl⟩]
                  · rw [h]
                    exact hne
                · have hpmi : p ≠ mi := fun hh => hminl' (hh ▸ h)
                  have h2 := (hm' p).mp h
                  refine ⟨?_, fun _ => h2.2⟩
                  rw [transplant_edge, if_neg (fun hh => hpmi hh.1), hedge2]
                  exact ((hmt p).mp h2.1).1
              · rintro ⟨hme, hg⟩
                rw [transplant_edge] at hme
                split at hme
                · rename_i hcond
                  rw [hcond.1]
                  exact List.mem_cons_self _ _
                · rw [hedge2] at hme
                  apply List.mem_cons_of_mem
                  apply (hm' p).mpr
                  exact ⟨(hmt p).mpr ⟨hme, fun hD => absurd hD hDx⟩,
                    hg (Or.inr rfl)⟩
          · obtain ⟨l2, hl2, hnd2, hm2⟩ := hch c2 y
            have hqn2 : q ∉ l2 := by
              intro hmem
              have h2 := ((hm2 q).mp hmem).1
              rw [hqe] at h2
              injection h2 with h2
              exact hc2 h2.symm
            have hminl2 : mi ∉ l2 := by
              intro hmem
              have h2 := ((hm2 mi).mp hmem).1
              rw [hemi] at h2
              exact Option.noConfusion h2
            refine ⟨l2, ?_, hnd2, ?_⟩
            · have h1 : (transplant (removeSource g t y ma) mi t y).preimInit c2 y
                  = g.preimInit c2 y := by
                rw [transplant_init, if_neg (fun hh => hc2 hh.1)]
                exact hinitf c2 y (fun hh => hc2 hh.1)
              rw [h1]
              apply chainIs_frame hl2
              intro p hp
              have hpmi : p ≠ mi := fun hh => hminl2 (hh ▸ hp)
              rw [transplant_next, if_neg (fun hh => hpmi hh.1)]
              exact hnextf p y (fun hh => hqn2 (hh.1 ▸ hp))
            · intro p
              rw [hm2 p]
              constructor
              · rintro ⟨hme, hg⟩
                have hpmi : p ≠ mi := by
                  intro hh
                  rw [hh, hemi] at hme
                  exact Option.noConfusion hme
                have hpma : p ≠ ma := by
                  intro hh
                  rw [hh, hema] at hme
                  injection hme with hme
                  exact hc2 hme.symm
                refine ⟨?_, fun _ => hpma⟩
                rw [transplant_edge, if_neg (fun hh => hpmi hh.1), hedge2]
                exact hme
              · rintro ⟨hme, hg⟩
                rw [transplant_edge] at hme
                split at hme
                · injection hme with hme
                  exact absurd hme.symm hc2
                · rw [hedge2] at hme
                  exact ⟨hme, fun hD => absurd hD hDx⟩
        · obtain ⟨l2, hl2, hnd2, hm2⟩ := hch c2 y
          refine ⟨l2, ?_, hnd2, ?_⟩
          · have h1 : (transplant (removeSource g t x ma) mi t x).preimInit c2 y
                = g.preimInit c2 y := by
              rw [transplant_init, if_neg (fun hh => hy hh.2)]
              exact hinitf c2 y (fun hh => hy hh.2)
            rw [h1]
            apply chainIs_frame hl2
            intro p hp
            rw [transplant_next, if_neg (fun hh => hy hh.2)]
            exact hnextf p y (fun hh => hy hh.2)
          · intro p
            rw [hm2 p]
            have he3 : (transplant (removeSource g t x ma) mi t x).edge p y
                = g.edge p y := by
              rw [transplant_edge, if_neg (fun hh => hy hh.2), hedge2]
            rw [he3]
            apply and_congr_right
            intro hme
            constructor
            · intro hg
              rintro (hD | hyx)
              · exact hg hD
              · exact absurd hyx hy
            · intro hg hD
              exact hg (Or.inl hD)

theorem mergeOut_fold {mi ma : Nat} (hne : mi ≠ ma) :
    ∀ (ys : List Nat) (D : Nat → Prop) (g : DWS),
    (∀ y ∈ ys, ¬ D y) → ys.Nodup →
    mi ∈ g.active →
    (∀ p y t, g.edge p y = some t →
      p ∈ g.active ∧ t ∈ g.active ∧ y < g.deg) →
    (∀ p y, g.edge p y ≠ some ma) →
    (∀ c2 y, ∃ l, ChainIs g y (g.preimInit c2 y) l ∧ l.Nodup ∧
      ∀ p, p ∈ l ↔ (g.edge p y = some c2 ∧ (D y → p ≠ ma))) →
    (ys.foldl (fun h x => mergeOut mi ma x h) g).active = g.active ∧
    (ys.foldl (fun h x => mergeOut mi ma x h) g).deg = g.deg ∧
    (∀ p y t, (ys.foldl (fun h x => mergeOut mi ma x h) g).edge p y = some t →
      p ∈ g.active ∧ t ∈ g.active ∧ y < g.deg) ∧
    (∀ p y, (ys.foldl (fun h x => mergeOut mi ma x h) g).edge p y ≠ some ma) ∧
    (∀ c2 y, ∃ l, ChainIs (ys.foldl (fun h x => mergeOut mi ma x h) g) y
        ((ys.foldl (fun h x => mergeOut mi ma x h) g).preimInit c2 y) l ∧
      l.Nodup ∧
      ∀ p, p ∈ l ↔
        ((ys.foldl (fun h x => mergeOut mi ma x h) g).edge p y = some c2 ∧
          ((D y ∨ y ∈ ys) → p ≠ ma))) := by
  intro ys
  induction ys with
  | nil =>
    intro D g hDys hnd hmi hdom hnoin hch
    refine ⟨rfl, rfl, hdom, hnoin, ?_⟩
    intro c2 y
    obtain ⟨l, h1, h2, h3⟩ := hch c2 y
    refine ⟨l, h1, h2, fun p => (h3 p).trans ?_⟩
    apply and_congr_right
    intro hme
    constructor
    · intro hg
      rintro (hD | hmem)
      · exact hg hD
      · exact absurd hmem (List.not_mem_nil y)
    · intro hg hD
      exact hg (Or.inl hD)
  | cons x ys ih =>
    intro D g hDys hnd hmi hdom hnoin hch
    have hDx : ¬ D x := hDys x (List.mem_cons_self _ _)
    have hxys : x ∉ ys := (List.nodup_cons.mp hnd).1
    obtain ⟨b1, b2, b3, b4, b5⟩ := mergeOut_spec hne hDx hmi hdom hnoin hch
    have hDys' : ∀ y ∈ ys, ¬ (D y ∨ y = x) := by
      intro y hy
      rintro (hD | hyx)
      · exact hDys y (List.mem_cons_of_mem _ hy) hD
      · exact hxys (hyx ▸ hy)
    obtain ⟨c1, c2, c3, c4, c5⟩ := ih (fun y => D y ∨ y = x) (mergeOut mi ma x g)
      hDys' (List.nodup_cons.mp hnd).2
      (by rw [b1]; exact hmi)
      (by
        intro p y t h
        obtain ⟨e1, e2, e3⟩ := b3 p y t h
        exact ⟨by rw [b1]; exact e1, by rw [b1]; exact e2, by rw [b2]; exact e3⟩)
      b4 b5
    refine ⟨?_, ?_, ?_, ?_, ?_⟩
    · simp only [List.foldl_cons]
      rw [c1, b1]
    · simp only [List.foldl_cons]
      rw [c2, b2]
    · simp only [List.foldl_cons]
      intro p y t h
      obtain ⟨e1, e2, e3⟩ := c3 p y t h
      rw [b1] at e1 e2
      rw [b2] at e3
      exact ⟨e1, e2, e3⟩
    · simp only [List.foldl_cons]
      exact c4
    · simp only [List.foldl_cons]
      intro c0 y
      obtain ⟨l, h1, h2, h3⟩ := c5 c0 y
      refine ⟨l, h1, h2, fun p => (h3 p).trans ?_⟩
      apply and_congr_right
      intro hme
      constructor
      · intro hg hor
        apply hg
        rcases hor with hD | hmem
        · exact Or.inl (Or.inl hD)
        · rcases List.mem_cons.mp hmem with hyx | hmem2
          · exact Or.inl (Or.inr hyx)
          · exact Or.inr hmem2
      · intro hg hor
        apply hg
        rcases hor with hor | hmem2
        · rcases hor with hD | hyx
          · exact Or.inl hD
          · exact Or.inr (by rw [hyx]; exact List.mem_cons_self _ _)
        · exact Or.inr (List.mem_cons_of_mem _ hmem2)

theorem invD_merge {g : DWS} {mi ma : Nat} (hInv : InvD g)
    (hmi : mi ∈ g.active) (_hma : ma ∈ g.active) (hlt : mi < ma) :
    InvD (mergeNodes g mi ma) := by
  have hne : mi ≠ ma := Nat.ne_of_lt hlt
  obtain ⟨s1, s2, s3, s4, s5⟩ := mergeInc_fold hne (List.range g.deg) g hInv hmi
  have hnoin1 : ∀ p y,
      ((List.range g.deg).foldl
        (fun h x => mergeIncGo mi ma x (h.active.length + 1) h) g).edge p y
      ≠ some ma := by
    intro p y h
    by_cases hy : y < g.deg
    · exact s4 p y (List.mem_range.mpr hy) h
    · rw [s5 p y (fun hmem => hy (List.mem_range.mp hmem))] at h
      exact hy (hInv.edgeDom p y ma h).2.2
  have hch1 : ∀ c2 y, ∃ l, ChainIs
      ((List.range g.deg).foldl
        (fun h x => mergeIncGo mi ma x (h.active.length + 1) h) g) y
      (((List.range g.deg).foldl
        (fun h x => mergeIncGo mi ma x (h.active.length + 1) h) g).preimInit c2 y)
      l ∧ l.Nodup ∧
      ∀ p, p ∈ l ↔
        (((List.range g.deg).foldl
          (fun h x => mergeIncGo mi ma x (h.active.length + 1) h) g).edge p y
          = some c2 ∧ (False → p ≠ ma)) := by
    intro c2 y
    obtain ⟨l, h1, h2, h3⟩ := s1.chains c2 y
    refine ⟨l, h1, h2, fun p => (h3 p).trans ?_⟩
    constructor
    · intro h
      exact ⟨h, fun hF => hF.elim⟩
    · rintro ⟨h, -⟩
      exact h
  obtain ⟨t1, t2, t3, t4, t5⟩ := mergeOut_fold hne (List.range g.deg)
    (fun _ => False)
    ((List.range g.deg).foldl
      (fun h x => mergeIncGo mi ma x (h.active.length + 1) h) g)
    (fun y _ hF => hF) (List.nodup_range _)
    (by rw [s2]; exact hmi) s1.edgeDom hnoin1 hch1
  have hfinal : mergeNodes g mi ma
      = { (List.range g.deg).foldl (fun h x => mergeOut mi ma x h)
            ((List.range g.deg).foldl
              (fun h x => mergeIncGo mi ma x (h.active.length + 1) h) g) with
          edge := fun r y => if r = ma then none
            else ((List.range g.deg).foldl (fun h x => mergeOut mi ma x h)
              ((List.range g.deg).foldl
                (fun h x => mergeIncGo mi ma x (h.active.length + 1) h) g)).edge r y,
          active := ((List.range g.deg).foldl (fun h x => mergeOut mi ma x h)
            ((List.range g.deg).foldl
              (fun h x => mergeIncGo mi ma x (h.active.length + 1) h) g)).active.erase
            ma } := rfl
  rw [hfinal]
  refine ⟨?_, ?_, ?_⟩
  · show (((List.range g.deg).foldl (fun h x => mergeOut mi ma x h)
      ((List.range g.deg).foldl
        (fun h x => mergeIncGo mi ma x (h.active.length + 1) h) g)).active.erase
      ma).Nodup
    rw [t1, s2]
    exact hInv.activeNodup.erase ma
  · intro p y t h
    have h' : (if p = ma then none
        else ((List.range g.deg).foldl (fun h x => mergeOut mi ma x h)
          ((List.range g.deg).foldl
            (fun h x => mergeIncGo mi ma x (h.active.length + 1) h) g)).edge p y)
        = some t := h
    split at h'
    · exact Option.noConfusion h'
    · rename_i hpma
      obtain ⟨h1, h2, h3⟩ := t3 p y t h'
      rw [s2] at h1 h2
      rw [s3] at h3
      have htma : t ≠ ma := fun hh => t4 p y (hh ▸ h')
      refine ⟨?_, ?_, ?_⟩
      · show p ∈ _
        rw [t1, s2]
        exact (List.mem_erase_of_ne hpma).mpr h1
      · show t ∈ _
        rw [t1, s2]
        exact (List.mem_erase_of_ne htma).mpr h2
      · show y < ((List.range g.deg).foldl (fun h x => mergeOut mi ma x h)
          ((List.range g.deg).foldl
            (fun h x => mergeIncGo mi ma x (h.active.length + 1) h) g)).deg
        rw [t2, s3]
        exact h3
  · intro c2 y
    obtain ⟨l, h1, h2, h3⟩ := t5 c2 y
    refine ⟨l, ?_, h2, ?_⟩
    · exact chainIs_frame h1 (fun p hp => rfl)
    · intro p
      rw [h3 p]
      constructor
      · rintro ⟨hme, hg⟩
        have hpma : p ≠ ma := by
          by_cases hy : y < g.deg
          · exact hg (Or.inr (List.mem_range.mpr hy))
          · exfalso
            have h4 := (t3 p y c2 hme).2.2
            rw [s3] at h4
            exact hy h4
        show (if p = ma then none else _) = some c2
        rw [if_neg hpma]
        exact hme
      · intro hme
        have h' : (if p = ma then none
            else ((List.range g.deg).foldl (fun h x => mergeOut mi ma x h)
              ((List.range g.deg).foldl
                (fun h x => mergeIncGo mi ma x (h.active.length + 1) h) g)).edge p y)
            = some c2 := hme
        split at h'
        · exact Option.noConfusion h'
        · rename_i hpma
          exact ⟨h', fun hg => hpma⟩

/-! ### Preservation: `rebuild_sources` -/

theorem reinsert_init (g2 : DWS) (c t x r y : Nat) :
    (reinsert g2 c t x).preimInit r y
      = if r = t ∧ y = x then some c else g2.preimInit r y := rfl

theorem reinsert_next (g2 : DWS) (c t x r y : Nat) :
    (reinsert g2 c t x).preimNext r y
      = if r = c ∧ y = x then g2.preimInit t x else g2.preimNext r y := rfl

theorem invD_reinsert {g : DWS} (hInv : InvD g) {c t x : Nat}
    (he : g.edge c x = some t) :
    InvD (reinsert (removeSource g t x c) c t x) ∧
    (reinsert (removeSource g t x c) c t x).active = g.active ∧
    (reinsert (removeSource g t x c) c t x).deg = g.deg ∧
    (∀ p y, (reinsert (removeSource g t x c) c t x).edge p y = g.edge p y) := by
  obtain ⟨lt, hlt, hndt, hmt⟩ := hInv.chains t x
  have hclt : c ∈ lt := (hmt c).mpr he
  have hsub : ∀ q ∈ lt, q ∈ g.active :=
    fun q hq => (hInv.edgeDom q x t ((hmt q).mp hq)).1
  have hfuelt : lt.length ≤ g.active.length + 1 := by
    have := (hndt.subperm hsub).length_le
    omega
  obtain ⟨q, hql, hdeg2, hact2, hedge2, hinitf, hnextf, l', hch', hnd', hm'⟩ :=
    removeSource_spec' hlt hndt hclt hfuelt
  have hqe : g.edge q x = some t := (hmt q).mp hql
  have hedge3 : ∀ p y, (reinsert (removeSource g t x c) c t x).edge p y
      = g.edge p y := by
    intro p y
    show (removeSource g t x c).edge p y = g.edge p y
    rw [hedge2]
  refine ⟨⟨?_, ?_, ?_⟩, hact2, hdeg2, hedge3⟩
  · show (removeSource g t x c).active.Nodup
    rw [hact2]
    exact hInv.activeNodup
  · intro p y t2 h
    rw [hedge3] at h
    obtain ⟨e1, e2, e3⟩ := hInv.edgeDom p y t2 h
    refine ⟨?_, ?_, ?_⟩
    · show p ∈ (removeSource g t x c).active
      rw [hact2]
      exact e1
    · show t2 ∈ (removeSource g t x c).active
      rw [hact2]
      exact e2
    · show y < (removeSource g t x c).deg
      rw [hdeg2]
      exact e3
  · intro c2 y
    by_cases hy : y = x
    · subst hy
      by_cases hc2 : c2 = t
      · rw [hc2]
        have hcnl' : c ∉ l' := by
          intro hmem
          exact ((hm' c).mp hmem).2 rfl
        refine ⟨c :: l', ?_, List.nodup_cons.mpr ⟨hcnl', hnd'⟩, ?_⟩
        · have h1 : (reinsert (removeSource g t y c) c t y).preimInit t y
              = some c := by
            rw [reinsert_init, if_pos ⟨rfl, rfl⟩]
          rw [h1]
          apply ChainIs.cons
          have h2 : (reinsert (removeSource g t y c) c t y).preimNext c y
              = (removeSource g t y c).preimInit t y := by
            rw [reinsert_next, if_pos ⟨rfl, rfl⟩]
          rw [h2]
          apply chainIs_frame hch'
          intro p hp
          have hpc : p ≠ c := fun hh => hcnl' (hh ▸ hp)
          rw [reinsert_next, if_neg (fun hh => hpc hh.1)]
        · intro p
          constructor
          · intro hp
            rw [hedge3]
            rcases List.mem_cons.mp hp with h | h
            · rw [h]
              exact he
            · exact (hmt p).mp ((hm' p).mp h).1
          · intro hp
            rw [hedge3] at hp
            by_cases hpc : p = c
            · rw [hpc]
              exact List.mem_cons_self _ _
            · exact List.mem_cons_of_mem _
                ((hm' p).mpr ⟨(hmt p).mpr hp, hpc⟩)
      · obtain ⟨l2, hl2, hnd2, hm2⟩ := hInv.chains c2 y
        have hcnl2 : c ∉ l2 := by
          intro hmem
          have h2 := (hm2 c).mp hmem
          rw [he] at h2
          injection h2 with h2
          exact hc2 h2.symm
        have hqn2 : q ∉ l2 := by
          intro hmem
          have h2 := (hm2 q).mp hmem
          rw [hqe] at h2
          injection h2 with h2
          exact hc2 h2.symm
        refine ⟨l2, ?_, hnd2, ?_⟩
        · have h1 : (reinsert (removeSource g t y c) c t y).preimInit c2 y
              = g.preimInit c2 y := by
            rw [reinsert_init, if_neg (fun hh => hc2 hh.1)]
            exact hinitf c2 y (fun hh => hc2 hh.1)
          rw [h1]
          apply chainIs_frame hl2
          intro p hp
          have hpc : p ≠ c := fun hh => hcnl2 (hh ▸ hp)
          rw [reinsert_next, if_neg (fun hh => hpc hh.1)]
          exact hnextf p y (fun hh => hqn2 (hh.1 ▸ hp))
        · intro p
          rw [hedge3]
          exact hm2 p
    · obtain ⟨l2, hl2, hnd2, hm2⟩ := hInv.chains c2 y
      refine ⟨l2, ?_, hnd2, ?_⟩
      · have h1 : (reinsert (removeSource g t x c) c t x).preimInit c2 y
            = g.preimInit c2 y := by
          rw [reinsert_init, if_neg (fun hh => hy hh.2)]
          exact hinitf c2 y (fun hh => hy hh.2)
        rw [h1]
        apply chainIs_frame hl2
        intro p hp
        rw [reinsert_next, if_neg (fun hh => hy hh.2)]
        exact hnextf p y (fun hh => hy hh.2)
      · intro p
        rw [hedge3]
        exact hm2 p

theorem rebuild_fold (c : Nat) :
    ∀ (ys : List Nat) (g : DWS), InvD g →
    InvD (ys.foldl (fun h x =>
      match h.edge c x with
      | some t => reinsert (removeSource h t x c) c t x
      | none => h) g) ∧
    (ys.foldl (fun h x =>
      match h.edge c x with
      | some t => reinsert (removeSource h t x c) c t x
      | none => h) g).active = g.active ∧
    (ys.foldl (fun h x =>
      match h.edge c x with
      | some t => reinsert (removeSource h t x c) c t x
      | none => h) g).deg = g.deg ∧
    (∀ p y, (ys.foldl (fun h x =>
      match h.edge c x with
      | some t => reinsert (removeSource h t x c) c t x
      | none => h) g).edge p y = g.edge p y) := by
  intro ys
  induction ys with
  | nil => exact fun g hInv => ⟨hInv, rfl, rfl, fun p y => rfl⟩
  | cons x ys ih =>
    intro g hInv
    simp only [List.foldl_cons]
    cases hecx : g.edge c x with
    | none => exact ih g hInv
    | some t =>
      obtain ⟨d1, d2, d3, d4⟩ := invD_reinsert hInv hecx
      obtain ⟨e1, e2, e3, e4⟩ := ih (reinsert (removeSource g t x c) c t x) d1
      exact ⟨e1, e2.trans d2, e3.trans d3, fun p y => (e4 p y).trans (d4 p y)⟩

theorem invD_rebuildOne {g : DWS} (hInv : InvD g) (c : Nat) :
    InvD (rebuildOne g c) :=
  (rebuild_fold c (List.range g.deg) g hInv).1

theorem invD_rebuild {g : DWS} (hInv : InvD g) (cs : List Nat) :
    InvD (rebuildSources g cs) := by
  induction cs generalizing g with
  | nil => exact hInv
  | cons c cs ih =>
    show InvD (cs.foldl rebuildOne (rebuildOne g c))
    exact ih (invD_rebuildOne hInv c)

/-! ### The exactness theorem -/

theorem invD_reachable : ∀ {g : DWS}, ReachableD g → InvD g := by
  intro g h
  induction h with
  | init m n => exact invD_init m n
  | addEdge c d x _ hc hd hx he ih => exact invD_addEdge ih hc hd hx he
  | removeEdge c x _ _ _ hsome ih => exact invD_removeEdge ih hsome
  | swap c d _ hc hd ih => exact invD_swap ih hc hd
  | rename c d _ _ _ ih => exact invD_rename ih
  | merge mi ma _ hmi hma hlt ih => exact invD_merge ih hmi hma hlt
  | rebuild cs _ _ ih => exact invD_rebuild ih cs

/-- C3 (spec-modelled): after any sequence of the public mutations starting
from a freshly initialised graph, the predecessor index is exact — for every
active `c`, label `x < deg` and active `p`, `δ(p, x) = c` iff `p` appears
exactly once on the `(c, x)` predecessor list, i.e. the list headed by
`preim_init[c][x]` and chained through `preim_next`. -/
theorem dws_exactness (g : DWS) (hg : ReachableD g) :
    ∀ c ∈ g.active, ∀ x, x < g.deg → ∀ p ∈ g.active,
      (g.edge p x = some c ↔ (chain g c x).count p = 1) := by
  have hInv := invD_reachable hg
  intro c _hc x _hx p _hp
  obtain ⟨l, hl, hnd, hm⟩ := hInv.chains c x
  have hsub : ∀ q ∈ l, q ∈ g.active :=
    fun q hq => (hInv.edgeDom q x c ((hm q).mp hq)).1
  have hlen : l.length ≤ g.active.length := (hnd.subperm hsub).length_le
  have hchain : chain g c x = l :=
    chainF_of_chainIs hl (g.active.length + 1) (by omega)
  rw [hchain]
  constructor
  · intro he
    exact List.count_eq_one_of_mem hnd ((hm p).mpr he)
  · intro hcount
    exact (hm p).mp (List.count_pos_iff.mp (by omega))

/-- Witness for C3: one `add_edge_nc(0, 1, 0)` on a fresh 3-node graph of
out-degree 2; node 0 sits exactly once on the `(1, 0)` list. -/
theorem dws_exactness_witness :
    (addEdgeNC (initDWS 3 2) 0 1 0).edge 0 0 = some 1 ↔
    (chain (addEdgeNC (initDWS 3 2) 0 1 0) 1 0).count 0 = 1 :=
  dws_exactness (addEdgeNC (initDWS 3 2) 0 1 0)
    (ReachableD.addEdge 0 1 0 (ReachableD.init 3 2) (by decide) (by decide)
      (by decide) rfl)
    1 (by decide) 0 (by decide) 0 (by decide)

/-! ## C4: equality of Stephen instances -/

/-- C4: `operator==` on Stephen instances returns true exactly when each
instance accepts the other's word, and is symmetric. -/
theorem stephenEq_spec (x y : Steph) :
    (stephenEq x y = true ↔ (acceptsW x y.word = true ∧ acceptsW y x.word = true)) ∧
    stephenEq x y = stephenEq y x := by
  constructor
  · simp [stephenEq]
  · simp [stephenEq, Bool.and_comm]

/-! ## C2: the free-semigroup scenario -/

theorem follow_sFree (u : Word) :
    follow sFree.st.edges 0 u
      = if u = ([0, 1] : Word).take u.length ∧ u.length ≤ 2 then some u.length
        else none := by
  have he : sFree.st.edges = chainEdges 0 [0, 1] := rfl
  have h := follow_chainEdges [0, 1] 0 u 0 (by omega)
  rw [he]
  simpa using h

theorem acceptsW_sFree (u : Word) : acceptsW sFree u = true ↔ u = [0, 1] := by
  unfold acceptsW
  rw [follow_sFree]
  by_cases hP : u = ([0, 1] : Word).take u.length ∧ u.length ≤ 2
  · rw [if_pos hP]
    show (u.length == 2) = true ↔ u = [0, 1]
    simp only [beq_iff_eq]
    constructor
    · intro h2
      rw [hP.1, h2]
      rfl
    · intro h2
      subst h2
      rfl
  · rw [if_neg hP]
    show (false = true) ↔ u = [0, 1]
    simp only [Bool.false_eq_true, false_iff]
    intro h
    subst h
    exact hP ⟨rfl, by decide⟩

theorem isLeftFactorW_sFree (u : Word) :
    isLeftFactorW sFree u = true ↔ (u = [] ∨ u = [0] ∨ u = [0, 1]) := by
  unfold isLeftFactorW
  rw [follow_sFree]
  by_cases hP : u = ([0, 1] : Word).take u.length ∧ u.length ≤ 2
  · rw [if_pos hP]
    simp only [Option.isSome_some, true_iff]
    obtain ⟨h1, h2⟩ := hP
    match u, h1, h2 with
    | [], _, _ => exact Or.inl rfl
    | [a], h1, _ =>
      refine Or.inr (Or.inl ?_)
      simpa using h1
    | [a, b], h1, _ =>
      refine Or.inr (Or.inr ?_)
      simpa using h1
    | a :: b :: c :: rest, _, h2 => simp at h2
  · rw [if_neg hP]
    simp only [Option.isSome_none, Bool.false_eq_true, false_iff]
    intro h
    rcases h with h | h | h <;> subst h <;> exact hP ⟨rfl, by decide⟩

/-- C2: on the free semigroup over `a, b` with `w = ab` the procedure
terminates in a clean pass; the standardised graph is the chain `0 → 1 → 2`;
the accepted language is exactly the singleton `ab`; the left factors are
exactly the empty word, `a` and `ab`; and the two path counts over `[0, ∞)`
are `1` and `3`. -/
theorem freeSemigroupScenario :
    runStephen 5 (mkStephen pFree [0, 1]) = some sFree ∧
    sFree.st.nodes = [0, 1, 2] ∧
    sFree.st.edges = [(0, 0, 1), (1, 1, 2)] ∧
    sFree.st.accept = 2 ∧
    sFree.finished = true ∧
    (∀ u, acceptsW sFree u = true ↔ u = [0, 1]) ∧
    (∀ u, isLeftFactorW sFree u = true ↔ (u = [] ∨ u = [0] ∨ u = [0, 1])) ∧
    numberOfWordsAccepted sFree 0 none = some 1 ∧
    numberOfLeftFactors sFree 0 none = some 3 :=
  ⟨by decide, rfl, rfl, rfl, rfl, acceptsW_sFree, isLeftFactorW_sFree,
    by decide, by decide⟩

/-- Concrete instance of `letter_index_roundtrip` on the alphabet `[5, 7]` at
position `1`. -/
theorem letter_index_roundtrip_witness :
    (ValidAlphabet ⟨[5, 7], [(5, 0), (7, 1)], []⟩ ∧
      1 < ([5, 7] : Word).length) ∧
    ((⟨[5, 7], [(5, 0), (7, 1)], []⟩ : Present).index
        ((⟨[5, 7], [(5, 0), (7, 1)], []⟩ : Present).letter 1) = some 1 ∧
      (⟨[5, 7], [(5, 0), (7, 1)], []⟩ : Present).inAlphabet
        ((⟨[5, 7], [(5, 0), (7, 1)], []⟩ : Present).letter 1) = true ∧
      (∀ val, ((⟨[5, 7], [(5, 0), (7, 1)], []⟩ : Present).index val).isSome
        = (⟨[5, 7], [(5, 0), (7, 1)], []⟩ : Present).inAlphabet val)) := by
  refine ⟨⟨by decide, by decide⟩, ?_⟩
  exact letter_index_roundtrip ⟨[5, 7], [(5, 0), (7, 1)], []⟩ 1 (by decide) (by decide)

end PresentLemmas

end Spec2Proof
